import Mathlib

set_option allowUnsafeReducibility true in
attribute [semireducible] Rat.add Rat.mul Rat.sub Rat.inv Rat.div

/-! Shallow embedding of `src/orthogonal-routing.js` and the path-shift
post-pass of `src/table-layout.js` (d3-table-layout).

JavaScript point objects live in an arena of nodes addressed by `Nat`
indices; object references become indices, and in-place mutation becomes
functional update of the arena.  Number arithmetic is modelled exactly
over `ℚ`.  The binary heap (`binary-heap.js`) is not part of the sources
and is modelled from the spec where noted. -/

/-- Numeric tolerance for point-equality comparisons
(`FLOAT_TOLERANCE = 0.0000001` in `orthogonal-routing.js`, line 2). -/
def FLOAT_TOLERANCE : ℚ := 1 / 10000000

/-- A bare coordinate pair, the `{x, y}` shape used across the library. -/
structure Pt where
  x : ℚ
  y : ℚ
deriving DecidableEq, Repr

/-- A graph point: coordinates, the `neighbours` map (four directional
entries plus a flag recording whether the map object itself is present,
since JS distinguishes a missing map from an empty one), the connector
and directional-restriction flags, and the transient A* scratch fields
`g, h, f, parent, visited, closed`. -/
structure Node where
  x : ℚ
  y : ℚ
  north : Option Nat := none
  south : Option Nat := none
  east : Option Nat := none
  west : Option Nat := none
  hasMap : Bool := false
  isConnector : Bool := false
  horizontalOnly : Bool := false
  verticalOnly : Bool := false
  g : ℚ := 0
  hScore : ℚ := 0
  f : ℚ := 0
  parent : Option Nat := none
  visited : Bool := false
  closed : Bool := false
deriving DecidableEq, Repr

instance : Inhabited Node := ⟨{ x := 0, y := 0 }⟩

/-- The heap of JS point objects: a total map from indices to nodes plus
the number of allocated nodes. -/
structure Arena where
  nd : Nat → Node
  sz : Nat

/-- Overwrite the node at index `i` (models mutating a point object). -/
def setNode (A : Arena) (i : Nat) (v : Node) : Arena :=
  { A with nd := fun j => if j = i then v else A.nd j }

/-- Allocate a fresh node (models creating a new point object). -/
def pushNode (A : Arena) (v : Node) : Arena × Nat :=
  ({ nd := fun j => if j = A.sz then v else A.nd j, sz := A.sz + 1 }, A.sz)

/-- Coordinates of a node as a bare point. -/
def Node.pt (n : Node) : Pt := ⟨n.x, n.y⟩

/-- A segment `{a, b}` holding references (indices) to its two endpoint
points. -/
structure Seg where
  a : Nat
  b : Nat
deriving DecidableEq, Repr

/-- An obstacle's four corner references in the source order
`[tl, tr, bl, br]`. -/
structure Quad where
  tl : Nat
  tr : Nat
  bl : Nat
  br : Nat
deriving DecidableEq, Repr

/-- The rectangular layout area `{x, y, w, h}`. -/
structure Rect where
  x : ℚ
  y : ℚ
  w : ℚ
  h : ℚ
deriving DecidableEq, Repr

/-- `_arePointsEqual` (orthogonal-routing.js line 459): coordinate
equality within `FLOAT_TOLERANCE` on both axes. -/
def arePointsEqual (p1 p2 : Pt) : Bool :=
  decide (|p1.x - p2.x| < FLOAT_TOLERANCE ∧ |p1.y - p2.y| < FLOAT_TOLERANCE)

/-- `direction` (orthogonal-routing.js line 197): 0 north, 1 east,
2 south, 3 west, -1 unknown, compared against `FLOAT_TOLERANCE`. -/
def direction (a b : Node) : Int :=
  if b.x - a.x > FLOAT_TOLERANCE then 1
  else if b.x - a.x < -FLOAT_TOLERANCE then 3
  else if b.y - a.y > FLOAT_TOLERANCE then 2
  else if b.y - a.y < -FLOAT_TOLERANCE then 0
  else -1

/-- `_manhattanHeuristic` (orthogonal-routing.js line 160). -/
def manhattanHeuristic (a b : Node) : ℚ :=
  |b.x - a.x| + |b.y - a.y|

/-- `_edgeWeight` (orthogonal-routing.js line 175): squared Euclidean
distance plus a `0.1` turn penalty judged against `current.parent`. -/
def edgeWeight (A : Arena) (current neighbour : Node) : ℚ :=
  let weight := (current.x - neighbour.x) * (current.x - neighbour.x) +
    (current.y - neighbour.y) * (current.y - neighbour.y)
  match current.parent with
  | none => weight
  | some pi =>
    if direction (A.nd pi) current ≠ direction current neighbour then weight + 1/10
    else weight

/-- `_intersectLineSegments` (orthogonal-routing.js line 414): parametric
line-segment intersection, rejecting zero-length segments, parallel
lines, and out-of-range parameters. -/
def intersectLineSegments (A : Arena) (seg1 seg2 : Seg) : Option Pt :=
  let a1 := A.nd seg1.a
  let b1 := A.nd seg1.b
  let a2 := A.nd seg2.a
  let b2 := A.nd seg2.b
  if (a1.x = b1.x ∧ a1.y = b1.y) ∨ (a2.x = b2.x ∧ a2.y = b2.y) then none
  else
    let denominator := (b2.y - a2.y) * (b1.x - a1.x) - (b2.x - a2.x) * (b1.y - a1.y)
    if denominator = 0 then none
    else
      let ua := ((b2.x - a2.x) * (a1.y - a2.y) - (b2.y - a2.y) * (a1.x - a2.x)) / denominator
      let ub := ((b1.x - a1.x) * (a1.y - a2.y) - (b1.y - a1.y) * (a1.x - a2.x)) / denominator
      if ua < 0 ∨ ua > 1 ∨ ub < 0 ∨ ub > 1 then none
      else some ⟨a1.x + ua * (b1.x - a1.x), a1.y + ua * (b1.y - a1.y)⟩

/-- `_areSegmentsConnected` (orthogonal-routing.js line 447): the two
segments share an endpoint up to tolerance. -/
def areSegmentsConnected (A : Arena) (seg1 seg2 : Seg) : Bool :=
  arePointsEqual (A.nd seg1.a).pt (A.nd seg2.a).pt ||
  arePointsEqual (A.nd seg1.a).pt (A.nd seg2.b).pt ||
  arePointsEqual (A.nd seg1.b).pt (A.nd seg2.a).pt ||
  arePointsEqual (A.nd seg1.b).pt (A.nd seg2.b).pt

/-- Accumulator of `_findInterestingSegments`: the arena plus the `h`,
`v` and `poi` lists it builds. -/
structure FindAcc where
  A : Arena
  hsegs : List Seg
  vsegs : List Seg
  poi : List Nat

/-- Corner wiring of one obstacle (orthogonal-routing.js lines 230-238):
each corner's `neighbours` object is replaced wholesale by the two
in-rectangle entries. -/
def wireObstacle (A : Arena) (q : Quad) : Arena :=
  let A := setNode A q.tl { A.nd q.tl with north := none, west := none, east := some q.tr, south := some q.bl, hasMap := true }
  let A := setNode A q.tr { A.nd q.tr with north := none, east := none, west := some q.tl, south := some q.br, hasMap := true }
  let A := setNode A q.bl { A.nd q.bl with south := none, west := none, north := some q.tl, east := some q.br, hasMap := true }
  let A := setNode A q.br { A.nd q.br with south := none, east := none, north := some q.tr, west := some q.bl, hasMap := true }
  A

/-- One obstacle of the first pass of `_findInterestingSegments`
(lines 229-246): wire the corners, append them to `poi`, and record the
four boundary edges into `h`/`v`. -/
def obstaclesPassStep (acc : FindAcc) (q : Quad) : FindAcc :=
  { A := wireObstacle acc.A q,
    hsegs := acc.hsegs ++ [⟨q.tl, q.tr⟩, ⟨q.bl, q.br⟩],
    vsegs := acc.vsegs ++ [⟨q.tl, q.bl⟩, ⟨q.tr, q.br⟩],
    poi := acc.poi ++ [q.tl, q.tr, q.bl, q.br] }

/-- First pass of `_findInterestingSegments` over all obstacles. -/
def obstaclesPass (A : Arena) (obst : List Quad) (conns : List Nat) : FindAcc :=
  obst.foldl obstaclesPassStep { A := A, hsegs := [], vsegs := [], poi := conns }

/-- The per-point obstacle scan of `_findInterestingSegments`
(lines 249-300): starting at the area edges, shrink each directional ray
extent to the nearest blocking obstacle edge, subject to the
missing-neighbour and directional-flag guards.  Returns
`(north, south, west, east)`. -/
def rayExtentsStep (A : Arena) (pt : Node) (ext : ℚ × ℚ × ℚ × ℚ) (q : Quad) :
    ℚ × ℚ × ℚ × ℚ :=
  let (north, south, west, east) := ext
  let tl := A.nd q.tl
  let tr := A.nd q.tr
  let bl := A.nd q.bl
  let north := if pt.north = none ∧ pt.horizontalOnly = false ∧
      pt.x ≥ tl.x ∧ pt.x ≤ tr.x ∧ pt.y > bl.y ∧ bl.y > north then bl.y else north
  let south := if pt.south = none ∧ pt.horizontalOnly = false ∧
      pt.x ≥ tl.x ∧ pt.x ≤ tr.x ∧ pt.y < tl.y ∧ tl.y < south then tl.y else south
  let east := if pt.east = none ∧ pt.verticalOnly = false ∧
      pt.y ≥ tl.y ∧ pt.y ≤ bl.y ∧ pt.x < tl.x ∧ tl.x < east then tl.x else east
  let west := if pt.west = none ∧ pt.verticalOnly = false ∧
      pt.y ≥ tl.y ∧ pt.y ≤ bl.y ∧ pt.x > tr.x ∧ tr.x > west then tr.x else west
  (north, south, west, east)

def rayExtents (A : Arena) (pt : Node) (area : Rect) (obst : List Quad) :
    ℚ × ℚ × ℚ × ℚ :=
  obst.foldl (rayExtentsStep A pt) (area.y, area.y + area.h, area.x, area.x + area.w)

/-- Working state of the ray-casting pass: the arena plus the `h` and
`v` segment lists. -/
structure RayState where
  A : Arena
  hsegs : List Seg
  vsegs : List Seg

/-- The north-ray block of `_findInterestingSegments` (lines 301-305):
when the point still lacks a north neighbour and is not restricted to
horizontal search, allocate the terminal point at the computed extent,
link it bidirectionally, and record the vertical segment. -/
def rayStepNorth (p : Nat) (north : ℚ) (st : RayState) : RayState :=
  if (st.A.nd p).north = none ∧ (st.A.nd p).horizontalOnly = false then
    let res := pushNode st.A { (default : Node) with x := (st.A.nd p).x, y := north, south := some p, hasMap := true }
    { A := setNode res.1 p { res.1.nd p with north := some res.2 },
      hsegs := st.hsegs, vsegs := st.vsegs ++ [⟨p, res.2⟩] }
  else st

/-- The south-ray block (lines 306-310). -/
def rayStepSouth (p : Nat) (south : ℚ) (st : RayState) : RayState :=
  if (st.A.nd p).south = none ∧ (st.A.nd p).horizontalOnly = false then
    let res := pushNode st.A { (default : Node) with x := (st.A.nd p).x, y := south, north := some p, hasMap := true }
    { A := setNode res.1 p { res.1.nd p with south := some res.2 },
      hsegs := st.hsegs, vsegs := st.vsegs ++ [⟨p, res.2⟩] }
  else st

/-- The east-ray block (lines 311-315). -/
def rayStepEast (p : Nat) (east : ℚ) (st : RayState) : RayState :=
  if (st.A.nd p).east = none ∧ (st.A.nd p).verticalOnly = false then
    let res := pushNode st.A { (default : Node) with x := east, y := (st.A.nd p).y, west := some p, hasMap := true }
    { A := setNode res.1 p { res.1.nd p with east := some res.2 },
      hsegs := st.hsegs ++ [⟨p, res.2⟩], vsegs := st.vsegs }
  else st

/-- The west-ray block (lines 316-320). -/
def rayStepWest (p : Nat) (west : ℚ) (st : RayState) : RayState :=
  if (st.A.nd p).west = none ∧ (st.A.nd p).verticalOnly = false then
    let res := pushNode st.A { (default : Node) with x := west, y := (st.A.nd p).y, east := some p, hasMap := true }
    { A := setNode res.1 p { res.1.nd p with west := some res.2 },
      hsegs := st.hsegs ++ [⟨p, res.2⟩], vsegs := st.vsegs }
  else st

/-- Ray casting for one point of interest (lines 248-321): ensure the
point has a `neighbours` map, compute the four ray extents, and run the
four directional blocks in source order. -/
def addRays (area : Rect) (obst : List Quad) (acc : FindAcc) (p : Nat) : FindAcc :=
  let A := acc.A
  let A := if (A.nd p).hasMap then A else setNode A p { A.nd p with hasMap := true }
  let ext := rayExtents A (A.nd p) area obst
  let st : RayState := { A := A, hsegs := acc.hsegs, vsegs := acc.vsegs }
  let st := rayStepNorth p ext.1 st
  let st := rayStepSouth p ext.2.1 st
  let st := rayStepEast p ext.2.2.2 st
  let st := rayStepWest p ext.2.2.1 st
  { A := st.A, hsegs := st.hsegs, vsegs := st.vsegs, poi := acc.poi }

/-- `_findInterestingSegments` (orthogonal-routing.js line 224): corner
wiring followed by ray casting over every point of interest. -/
def findInterestingSegments (A : Arena) (connectorPoints : List Nat)
    (obstaclesCorners : List Quad) (area : Rect) : FindAcc :=
  let acc := obstaclesPass A obstaclesCorners connectorPoints
  acc.poi.foldl (addRays area obstaclesCorners) acc

/-- Result of the splice loop: normal completion, the JS `TypeError`
that a negative `hIndex` access would raise, or fuel exhaustion of the
model. -/
inductive SpliceRes where
  | ok (A : Arena) (hsegs vsegs : List Seg) (ovg : List Nat)
  | crash
  | fuelOut

/-- `list.splice(i, 1, s1, s2)`: replace the element at `i` by the two
given segments. -/
def replaceAt (l : List Seg) (i : Nat) (s1 s2 : Seg) : List Seg :=
  l.take i ++ [s1, s2] ++ l.drop (i + 1)

/-- The doubly nested loop of `_intersectInterestingSegments`
(orthogonal-routing.js lines 327-399), with `hIndex` as an integer since
the in-body `hIndex--` can drive it to `-1`; accessing `h[-1]` while the
inner loop still runs is the `crash` outcome. -/
def spliceLoop (fuel : Nat) (A : Arena) (hsegs vsegs : List Seg) (ovg : List Nat)
    (hIndex : Int) (vIndex : Nat) : SpliceRes :=
  match fuel with
  | 0 => .fuelOut
  | fuel + 1 =>
    if vIndex < vsegs.length then
      if hIndex < 0 then .crash
      else
        let hi := hIndex.toNat
        let hSeg := hsegs.getD hi ⟨0, 0⟩
        let vSeg := vsegs.getD vIndex ⟨0, 0⟩
        match intersectLineSegments A hSeg vSeg with
        | none => spliceLoop fuel A hsegs vsegs ovg hIndex (vIndex + 1)
        | some ipt =>
          let refA : Option Nat :=
            if arePointsEqual ipt (A.nd hSeg.a).pt then some hSeg.a else none
          let curPt := match refA with
            | some _ => (A.nd hSeg.a).pt
            | none => ipt
          let interRef : Option Nat :=
            if arePointsEqual curPt (A.nd hSeg.b).pt then some hSeg.b else refA
          if areSegmentsConnected A hSeg vSeg then
            spliceLoop fuel A hsegs vsegs ovg hIndex (vIndex + 1)
          else
            let ai : Arena × Nat :=
              match interRef with
              | some i => (setNode A i { A.nd i with north := none, south := none, east := none, west := none, hasMap := true }, i)
              | none => pushNode A { (default : Node) with x := ipt.x, y := ipt.y, hasMap := true }
            let A := ai.1
            let inter := ai.2
            let aLtInter := decide ((A.nd hSeg.a).x < (A.nd inter).x)
            let A :=
              if aLtInter then
                let A := setNode A hSeg.a { A.nd hSeg.a with east := some inter }
                let A := setNode A inter { A.nd inter with west := some hSeg.a }
                let A := setNode A hSeg.b { A.nd hSeg.b with west := some inter }
                setNode A inter { A.nd inter with east := some hSeg.b }
              else
                let A := setNode A hSeg.a { A.nd hSeg.a with west := some inter }
                let A := setNode A inter { A.nd inter with east := some hSeg.a }
                let A := setNode A hSeg.b { A.nd hSeg.b with east := some inter }
                setNode A inter { A.nd inter with west := some hSeg.b }
            let hPieces : Seg × Seg :=
              if aLtInter then (⟨hSeg.a, inter⟩, ⟨inter, hSeg.b⟩)
              else (⟨inter, hSeg.b⟩, ⟨hSeg.a, inter⟩)
            let hsegs := replaceAt hsegs hi hPieces.1 hPieces.2
            let hIndex := hIndex - 1
            let aGtInter := decide ((A.nd vSeg.a).y > (A.nd inter).y)
            let A :=
              if aGtInter then
                let A := setNode A vSeg.a { A.nd vSeg.a with north := some inter }
                let A := setNode A inter { A.nd inter with south := some vSeg.a }
                let A := setNode A vSeg.b { A.nd vSeg.b with south := some inter }
                setNode A inter { A.nd inter with north := some vSeg.b }
              else
                let A := setNode A vSeg.a { A.nd vSeg.a with south := some inter }
                let A := setNode A inter { A.nd inter with north := some vSeg.a }
                let A := setNode A vSeg.b { A.nd vSeg.b with north := some inter }
                setNode A inter { A.nd inter with south := some vSeg.b }
            let vPieces : Seg × Seg :=
              if aGtInter then (⟨inter, vSeg.b⟩, ⟨vSeg.a, inter⟩)
              else (⟨vSeg.a, inter⟩, ⟨inter, vSeg.b⟩)
            let vsegs := replaceAt vsegs vIndex vPieces.1 vPieces.2
            let vIndex := vIndex + 1
            let ovg := ovg ++ [inter]
            spliceLoop fuel A hsegs vsegs ovg hIndex (vIndex + 1)
    else
      let hNext := hIndex + 1
      if hNext < (hsegs.length : Int) then spliceLoop fuel A hsegs vsegs ovg hNext 0
      else .ok A hsegs vsegs ovg

/-- `_intersectInterestingSegments` (orthogonal-routing.js line 325). -/
def intersectInterestingSegments (fuel : Nat) (A : Arena) (hsegs vsegs : List Seg) :
    SpliceRes :=
  if 0 < hsegs.length then spliceLoop fuel A hsegs vsegs [] 0 0
  else .ok A hsegs vsegs []

/-- The router facade object state (orthogonal-routing.js lines 11-19). -/
structure RouterState where
  nodes : Arena
  obstacleCorners : List Quad
  connectorPoints : List Nat
  hsegs : List Seg
  vsegs : List Seg
  poi : List Nat
  ovg : List Nat
  dirty : List Nat

/-- `setObstacles` (line 25): store the caller's corner quadruples. -/
def setObstacles (s : RouterState) (quads : List Quad) : RouterState :=
  { s with obstacleCorners := quads }

/-- `setConnectorPoints` (line 33): store the caller's point list and
set `isConnector = true` on every element in place. -/
def setConnectorPoints (s : RouterState) (idxs : List Nat) : RouterState :=
  { s with connectorPoints := idxs,
           nodes := idxs.foldl (fun A i => setNode A i { A.nd i with isConnector := true }) s.nodes }

/-- `generateOrthogonalGraph` (line 47): segment finding followed by
intersection splicing; `none` if the splice loop crashes or the model
runs out of fuel. -/
def generateOrthogonalGraph (fuel : Nat) (s : RouterState) (area : Rect) :
    Option RouterState :=
  let r := findInterestingSegments s.nodes s.connectorPoints s.obstacleCorners area
  match intersectInterestingSegments fuel r.A r.hsegs r.vsegs with
  | .ok A hs vs ovg =>
    some { s with nodes := A, hsegs := hs, vsegs := vs, poi := r.poi, ovg := ovg }
  | _ => none

/-- Outcome of `findRoute`: a path of node references, the `false`
no-route result, the thrown invalid-endpoints error, or model fuel
exhaustion. -/
inductive RouteRes where
  | path (ps : List Nat)
  | noRoute
  | invalid
  | fuelOut
deriving DecidableEq, Repr

/-- `_reconstructAStarPath` (line 151): follow `parent` links back from
the goal, accumulating the start-to-goal order. -/
def reconstructAStarPath (fuel : Nat) (A : Arena) (i : Nat) (acc : List Nat) :
    Option (List Nat) :=
  match fuel with
  | 0 => none
  | fuel + 1 =>
    match (A.nd i).parent with
    | none => some (i :: acc)
    | some k => reconstructAStarPath fuel A k (i :: acc)

/-- Modelled from the spec: `binary-heap.js` is not among the sources;
per §2 it is a min-heap keyed by a numeric priority extractor (here the
node's `f` score) whose `pop` removes a minimum-priority element and
whose decrease-key is a bubble-up of an element already stored.  Popping
from the open list is modelled as removing a node with minimal current
`f`, the earliest listed on ties. -/
def popMinIdx (A : Arena) : List Nat → Option (Nat × List Nat)
  | [] => none
  | i :: rest =>
    match popMinIdx A rest with
    | none => some (i, [])
    | some (j, rest') =>
      if (A.nd i).f ≤ (A.nd j).f then some (i, rest) else some (j, i :: rest')

/-- State threaded through the A* loop: arena, open list, dirty list. -/
structure LoopState where
  A : Arena
  openList : List Nat
  dirty : List Nat

/-- Present neighbour references of a node, in the fixed direction order
north, south, east, west (JS iterates the object's own key order). -/
def neighbourIdxs (n : Node) : List Nat :=
  [n.north, n.south, n.east, n.west].filterMap id

/-- One neighbour relaxation of the A* loop (orthogonal-routing.js
lines 113-144): skip closed nodes and connectors other than the goal,
update `g/h/f/parent/visited` on improvement, record dirtiness, and push
first-visited nodes onto the open list (bubble-up of already-open nodes
is a no-op in this list model of the heap). -/
def relaxNeighbour (endIdx cur : Nat) (st : LoopState) (j : Nat) : LoopState :=
  let A := st.A
  if (A.nd j).closed = true ∨ ((A.nd j).isConnector = true ∧ j ≠ endIdx) then st
  else
    let previouslyVisited := (A.nd j).visited
    let tentativeG := (A.nd cur).g + edgeWeight A (A.nd cur) (A.nd j)
    let doUpdate := previouslyVisited = false ∨ tentativeG < (A.nd j).g
    let hVal := manhattanHeuristic (A.nd j) (A.nd endIdx)
    let A := if doUpdate then
        setNode A j { A.nd j with g := tentativeG, hScore := hVal, f := tentativeG + hVal, parent := some cur, visited := true }
      else A
    let dirty := if doUpdate then st.dirty ++ [j] else st.dirty
    let openList := if previouslyVisited then st.openList else st.openList ++ [j]
    { A := A, openList := openList, dirty := dirty }

/-- The open-set loop of `findRoute` (lines 102-148). -/
def aStarLoop (fuel : Nat) (endIdx : Nat) (st : LoopState) : RouteRes × LoopState :=
  match fuel with
  | 0 => (.fuelOut, st)
  | fuel + 1 =>
    match popMinIdx st.A st.openList with
    | none => (.noRoute, st)
    | some (cur, rest) =>
      if cur = endIdx then
        match reconstructAStarPath (st.A.sz + 1) st.A cur [] with
        | some ps => (.path ps, { st with openList := rest })
        | none => (.fuelOut, { st with openList := rest })
      else
        let A := setNode st.A cur { st.A.nd cur with closed := true }
        let st := { st with A := A, openList := rest }
        let st := (neighbourIdxs (A.nd cur)).foldl (relaxNeighbour endIdx cur) st
        aStarLoop fuel endIdx st

/-- Scratch-field reset applied to each dirty node at the start of
`findRoute` (lines 74-82). -/
def resetScratch (n : Node) : Node :=
  { n with visited := false, closed := false, parent := none, hScore := 0, g := 0, f := 0 }

/-- `findRoute` (orthogonal-routing.js line 72): reset dirty nodes,
resolve the raw start/end coordinates against the connector points
(tolerance `FLOAT_TOLERANCE`), throw (`invalid`) when either fails to
resolve to a point carrying a `neighbours` map, then run A* from the
start connector. -/
def findRoute (fuel : Nat) (s : RouterState) (startP endP : Pt) :
    RouteRes × RouterState :=
  let A := s.dirty.foldl (fun A i => setNode A i (resetScratch (A.nd i))) s.nodes
  let si := s.connectorPoints.find? (fun i => arePointsEqual (A.nd i).pt startP)
  let ei := s.connectorPoints.find? (fun i => arePointsEqual (A.nd i).pt endP)
  match si, ei with
  | some si, some ei =>
    if (A.nd ei).hasMap = false ∨ (A.nd si).hasMap = false then
      (.invalid, { s with nodes := A, dirty := [] })
    else
      let A := setNode A si { A.nd si with g := 0, hScore := manhattanHeuristic (A.nd si) (A.nd ei) }
      let r := aStarLoop fuel ei { A := A, openList := [si], dirty := [si] }
      (r.1, { s with nodes := r.2.A, dirty := r.2.dirty })
  | _, _ => (.invalid, { s with nodes := A, dirty := [] })

/-- One index step of `_performPathShift` (table-layout.js lines
202-222), applied to the current state of the mutated array.  The JS
comparisons `i == path.length - 2` and `i < path.length - 2` run over
signed numbers; they are rendered here by the equivalent conditions
`i + 2 = n` and `i + 2 < n`, which agree with the signed comparisons
for every natural `i` and `n`. -/
def shiftStep (t : Pt) (path : List Pt) (i : Nat) : List Pt :=
  let n := path.length
  let point := path.getD i ⟨0, 0⟩
  let point :=
    if i = 1 then
      if point.x = (path.getD 0 ⟨0, 0⟩).x then { point with y := point.y + t.y }
      else if point.y = (path.getD 0 ⟨0, 0⟩).y then { point with x := point.x + t.x }
      else point
    else point
  let point :=
    if i + 2 = n then
      if point.x = (path.getD (n - 1) ⟨0, 0⟩).x then { point with y := point.y + t.y }
      else if point.y = (path.getD (n - 1) ⟨0, 0⟩).y then { point with x := point.x + t.x }
      else point
    else point
  let point :=
    if 1 < i ∧ i + 2 < n then
      { x := point.x + t.x, y := point.y + t.y }
    else point
  path.set i point

/-- `_performPathShift` (table-layout.js line 201): translate the points
of an orthogonal path in place, fixing the endpoints where the length
allows it. -/
def performPathShift (path : List Pt) (translation : Pt) : List Pt :=
  (List.range path.length).foldl (shiftStep translation) path

/-- Input description of a connector point handed to the router by the
caller. -/
structure ConnectorSpec where
  x : ℚ
  y : ℚ
  horizontalOnly : Bool := false
  verticalOnly : Bool := false
deriving DecidableEq, Repr

instance : Inhabited ConnectorSpec := ⟨{ x := 0, y := 0 }⟩

/-- Input description of an obstacle: its four corners as supplied to
`setObstacles`, clockwise from top-left. -/
structure ObstacleSpec where
  tl : Pt
  tr : Pt
  bl : Pt
  br : Pt
deriving DecidableEq, Repr

instance : Inhabited ObstacleSpec := ⟨{ tl := ⟨0, 0⟩, tr := ⟨0, 0⟩, bl := ⟨0, 0⟩, br := ⟨0, 0⟩ }⟩

/-- Corner `r` (0 tl, 1 tr, 2 bl, 3 br) of an obstacle description. -/
def cornerPt (o : ObstacleSpec) : Nat → Pt
  | 0 => o.tl
  | 1 => o.tr
  | 2 => o.bl
  | _ => o.br

/-- The caller's fresh point objects: connector points at indices
`0..conns.length`, then four corner points per obstacle. -/
def mkNodes (conns : List ConnectorSpec) (obst : List ObstacleSpec) : Arena :=
  { sz := conns.length + 4 * obst.length,
    nd := fun i =>
      if i < conns.length then
        let c := conns.getD i default
        { (default : Node) with x := c.x, y := c.y, horizontalOnly := c.horizontalOnly, verticalOnly := c.verticalOnly }
      else if i < conns.length + 4 * obst.length then
        let p := cornerPt (obst.getD ((i - conns.length) / 4) default) ((i - conns.length) % 4)
        { (default : Node) with x := p.x, y := p.y }
      else default }

/-- The corner-reference quadruples matching the `mkNodes` layout. -/
def cornerQuads (nConns nObst : Nat) : List Quad :=
  (List.range nObst).map
    (fun k => ⟨nConns + 4 * k, nConns + 4 * k + 1, nConns + 4 * k + 2, nConns + 4 * k + 3⟩)

/-- A fresh router holding the caller's points, before any facade call. -/
def mkRouter (conns : List ConnectorSpec) (obst : List ObstacleSpec) : RouterState :=
  { nodes := mkNodes conns obst, obstacleCorners := [], connectorPoints := [],
    hsegs := [], vsegs := [], poi := [], ovg := [], dirty := [] }

/-- A router after `setObstacles` and `setConnectorPoints`, ready for
`generateOrthogonalGraph`. -/
def readyRouter (conns : List ConnectorSpec) (obst : List ObstacleSpec) : RouterState :=
  setConnectorPoints (setObstacles (mkRouter conns obst) (cornerQuads conns.length obst.length))
    (List.range conns.length)

/-- Direction labels for stating adjacency properties. -/
inductive Dir where
  | north
  | south
  | east
  | west
deriving DecidableEq, Repr

/-- The opposite of a direction. -/
def Dir.opposite : Dir → Dir
  | .north => .south
  | .south => .north
  | .east => .west
  | .west => .east

/-- The neighbour entry of a node in a given direction. -/
def Node.nbr (n : Node) : Dir → Option Nat
  | .north => n.north
  | .south => n.south
  | .east => n.east
  | .west => n.west

/-- Adjacency symmetry of a whole arena: every directional entry is
reciprocated in the opposite direction. -/
def SymmetricAdj (A : Arena) : Prop :=
  ∀ i d j, (A.nd i).nbr d = some j → (A.nd j).nbr d.opposite = some i

/-- Every directional entry points at an allocated node. -/
def AdjTargetsLt (A : Arena) : Prop :=
  ∀ i d j, (A.nd i).nbr d = some j → j < A.sz

/-- Beyond the allocation count, nodes carry no directional entries. -/
def AdjCleanBeyond (A : Arena) : Prop :=
  ∀ i, A.sz ≤ i → ∀ d, (A.nd i).nbr d = none

/-- A well-formed adjacency structure: symmetric, target-bounded, and
clean beyond the allocation count. -/
def AdjWF (A : Arena) : Prop :=
  SymmetricAdj A ∧ AdjTargetsLt A ∧ AdjCleanBeyond A

/-- The four corner references of an obstacle quadruple. -/
def Quad.corners (q : Quad) : List Nat := [q.tl, q.tr, q.bl, q.br]

/-- `j` appears among the directional neighbour entries of `i`. -/
def isNeighbour (A : Arena) (i j : Nat) : Bool :=
  (A.nd i).north == some j || (A.nd i).south == some j ||
  (A.nd i).east == some j || (A.nd i).west == some j

/-- A reference list is a path of the graph: consecutive entries are
neighbours. -/
def validPath (A : Arena) : List Nat → Bool
  | [] => true
  | [_] => true
  | i :: j :: rest => isNeighbour A i j && validPath A (j :: rest)

/-- One graph step, as the search walks it. -/
def Adjacent (A : Arena) (i j : Nat) : Prop := isNeighbour A i j = true

/-- Graph reachability along neighbour entries. -/
def ReachableFrom (A : Arena) (i j : Nat) : Prop :=
  Relation.ReflTransGen (Adjacent A) i j

/-- Cost of travelling a node-reference path under the search's edge
weight model: each hop is weighed by `edgeWeight` with the hop's
predecessor installed as `parent`, exactly as the search assigns
parents while expanding. -/
def routeCostAux (A : Arena) : Option Nat → List Nat → ℚ
  | _, [] => 0
  | _, [_] => 0
  | prev, i :: j :: rest =>
    edgeWeight A { A.nd i with parent := prev } (A.nd j) + routeCostAux A (some i) (j :: rest)

/-- Cost of a whole path starting with no incoming direction. -/
def routeCost (A : Arena) (l : List Nat) : ℚ := routeCostAux A none l

/-- Every hop of the path is axis-aligned and at least one unit long
(in the Manhattan metric). -/
def allLongAxisHops (A : Arena) : List Nat → Bool
  | i :: j :: rest =>
    (decide ((A.nd i).x = (A.nd j).x ∨ (A.nd i).y = (A.nd j).y) &&
      decide (1 ≤ manhattanHeuristic (A.nd i) (A.nd j))) && allLongAxisHops A (j :: rest)
  | _ => true

/-- The non-scratch content of a node: coordinates, neighbour entries,
map presence and flags. -/
def sameCore (m n : Node) : Prop :=
  m.x = n.x ∧ m.y = n.y ∧ m.north = n.north ∧ m.south = n.south ∧
  m.east = n.east ∧ m.west = n.west ∧ m.hasMap = n.hasMap ∧
  m.isConnector = n.isConnector ∧ m.horizontalOnly = n.horizontalOnly ∧
  m.verticalOnly = n.verticalOnly

/-- All search-scratch fields of a node hold their reset values. -/
def scratchClean (n : Node) : Prop :=
  n.g = 0 ∧ n.hScore = 0 ∧ n.f = 0 ∧ n.parent = none ∧
  n.visited = false ∧ n.closed = false

/-- Number of allocated nodes not yet closed by the running search. -/
def unclosedCount (A : Arena) : Nat :=
  ((List.range A.sz).filter (fun i => (A.nd i).closed = false)).length

/-- The endpoint resolution performed by `findRoute`: the first stored
connector point whose coordinates match within tolerance. -/
def resolve (s : RouterState) (p : Pt) : Option Nat :=
  s.connectorPoints.find? (fun i => arePointsEqual ((s.nodes.nd i)).pt p)

/-- The point of the closed segment from `p` to `q` at parameter `t`. -/
def segPoint (p q : Pt) (t : ℚ) : Pt :=
  ⟨p.x + t * (q.x - p.x), p.y + t * (q.y - p.y)⟩

/-- Strict interior of the rectangle described by an obstacle's corner
coordinates. -/
def ptInOpenRect (p : Pt) (o : ObstacleSpec) : Prop :=
  o.tl.x < p.x ∧ p.x < o.tr.x ∧ o.tl.y < p.y ∧ p.y < o.bl.y

/-- The segment from `a` to `b` stays out of the interior of `o`. -/
def segAvoids (a b : Pt) (o : ObstacleSpec) : Prop :=
  ∀ t : ℚ, 0 ≤ t → t ≤ 1 → ¬ ptInOpenRect (segPoint a b t) o

/-- An obstacle description is a genuine rectangle: corners consistent,
clockwise from top-left, with positive extent on both axes. -/
def obstacleWF (o : ObstacleSpec) : Prop :=
  o.tr.y = o.tl.y ∧ o.bl.x = o.tl.x ∧ o.br.x = o.tr.x ∧ o.br.y = o.bl.y ∧
  o.tl.x < o.tr.x ∧ o.tl.y < o.bl.y

/-- Two obstacles are separated: even their closed rectangles are
disjoint. -/
def obstaclesApart (o1 o2 : ObstacleSpec) : Prop :=
  o1.tr.x < o2.tl.x ∨ o2.tr.x < o1.tl.x ∨ o1.bl.y < o2.tl.y ∨ o2.bl.y < o1.tl.y

/-- A point strictly outside the closed rectangle of an obstacle. -/
def ptOutsideRect (p : Pt) (o : ObstacleSpec) : Prop :=
  p.x < o.tl.x ∨ p.x > o.tr.x ∨ p.y < o.tl.y ∨ p.y > o.bl.y

/-- A point of the closed rectangle of an obstacle. -/
def ptInClosedRect (p : Pt) (o : ObstacleSpec) : Prop :=
  o.tl.x ≤ p.x ∧ p.x ≤ o.tr.x ∧ o.tl.y ≤ p.y ∧ p.y ≤ o.bl.y

/-- A point sitting on one of the four corner lines of an obstacle:
both coordinates agree with a boundary coordinate. -/
def PtCornerOf (p : Pt) (o : ObstacleSpec) : Prop :=
  (p.x = o.tl.x ∨ p.x = o.tr.x) ∧ (p.y = o.tl.y ∨ p.y = o.bl.y)

/-- A cast point acceptable for the no-crossing argument: strictly
outside the obstacle, or one of its own corners. -/
def PtOkFor (p : Pt) (o : ObstacleSpec) : Prop :=
  ptOutsideRect p o ∨ PtCornerOf p o

/-- A point within the routing area rectangle. -/
def PtInArea (p : Pt) (area : Rect) : Prop :=
  area.x ≤ p.x ∧ p.x ≤ area.x + area.w ∧ area.y ≤ p.y ∧ p.y ≤ area.y + area.h

/-- The corner quadruple's nodes carry exactly the corner coordinates
of an obstacle description. -/
def QuadMatches (A : Arena) (q : Quad) (o : ObstacleSpec) : Prop :=
  (A.nd q.tl).pt = o.tl ∧ (A.nd q.tr).pt = o.tr ∧ (A.nd q.bl).pt = o.bl ∧ (A.nd q.br).pt = o.br

/-- Every listed segment has allocated endpoints and stays out of every
listed obstacle interior. -/
def SegsOKFor (obst : List ObstacleSpec) (A : Arena) (segs : List Seg) : Prop :=
  ∀ s ∈ segs, s.a < A.sz ∧ s.b < A.sz ∧
    ∀ o ∈ obst, segAvoids (A.nd s.a).pt (A.nd s.b).pt o

/-- Second-point/second-to-last-point displacement of the path-shift
pass: shift along the axis that keeps the segment to the fixed
neighbour `q` orthogonal. -/
def edgeAlignedShift (p q t : Pt) : Pt :=
  if p.x = q.x then ⟨p.x, p.y + t.y⟩
  else if p.y = q.y then ⟨p.x + t.x, p.y⟩
  else p

/-! Concrete router inputs used to settle the claims on explicit runs. -/

/-- Claim C1 input: two connector points only half a unit apart, no
obstacles. -/
def c1conns : List ConnectorSpec := [{ x := 0, y := 0, verticalOnly := true }, { x := 1/2, y := 0 }]

/-- Router for the C1 input. -/
def c1router : RouterState := readyRouter c1conns []

/-- Layout area for the C1 input. -/
def c1area : Rect := { x := -10, y := -10, w := 70, h := 40 }

/-- The generated C1 graph (generation succeeds, as proved below). -/
def c1graph : RouterState := (generateOrthogonalGraph 300 c1router c1area).getD c1router

/-- Claims C2/C7 input: one connector west of a single obstacle, the
geometry of the spec's Scenario A. -/
def c2conns : List ConnectorSpec := [{ x := 5, y := 15 }]

/-- The single obstacle of the C2/C3/C7 inputs. -/
def c2obst : List ObstacleSpec :=
  [{ tl := ⟨10, 10⟩, tr := ⟨30, 10⟩, bl := ⟨10, 20⟩, br := ⟨30, 20⟩ }]

/-- Router for the C2/C7 input. -/
def c2router : RouterState := readyRouter c2conns c2obst

/-- Layout area shared by the C2, C3, C6 and C7 inputs. -/
def c2area : Rect := { x := 0, y := 0, w := 50, h := 30 }

/-- The generated C2 graph. -/
def c2graph : RouterState := (generateOrthogonalGraph 600 c2router c2area).getD c2router

/-- Claim C3 input: a connector lying inside the obstacle, as the
library's own `_computeConnectorPoint` produces (node anchors sit inside
the inflated table rectangle). -/
def c3conns : List ConnectorSpec := [{ x := 20, y := 15 }]

/-- Router for the C3 input. -/
def c3router : RouterState := readyRouter c3conns c2obst

/-- The C3 segment-finding result. -/
def c3find : FindAcc :=
  findInterestingSegments c3router.nodes c3router.connectorPoints c3router.obstacleCorners c2area

/-- Claim C6 input: a `horizontalOnly` connector with a plain connector
directly below it, no obstacles. -/
def c6conns : List ConnectorSpec :=
  [{ x := 5, y := 15, horizontalOnly := true }, { x := 5, y := 10 }]

/-- Router for the C6 input. -/
def c6router : RouterState := readyRouter c6conns []

/-- The generated C6 graph. -/
def c6graph : RouterState := (generateOrthogonalGraph 300 c6router c2area).getD c6router

/-- The C7 graph after a second `generateOrthogonalGraph` call on the
same router. -/
def c7graph2 : RouterState := (generateOrthogonalGraph 600 c2graph c2area).getD c2graph

/-- A hand-built three-node corridor (connector, free middle node,
connector) used to witness routing claims. -/
def w9arena : Arena :=
  { sz := 3,
    nd := fun i =>
      if i = 0 then { x := 0, y := 0, east := some 1, hasMap := true, isConnector := true }
      else if i = 1 then { x := 2, y := 0, west := some 0, east := some 2, hasMap := true }
      else if i = 2 then { x := 4, y := 0, west := some 1, hasMap := true, isConnector := true }
      else default }

/-- Router owning the three-node corridor. -/
def w9router : RouterState :=
  { nodes := w9arena, obstacleCorners := [], connectorPoints := [0, 2],
    hsegs := [], vsegs := [], poi := [], ovg := [], dirty := [] }

/-- Two isolated connectors with empty neighbour maps: a generated-graph
shape in which the goal is unreachable. -/
def w5arena : Arena :=
  { sz := 2,
    nd := fun i =>
      if i = 0 then { x := 0, y := 0, hasMap := true, isConnector := true }
      else if i = 1 then { x := 5, y := 0, hasMap := true, isConnector := true }
      else default }

/-- Router owning the two isolated connectors. -/
def w5router : RouterState :=
  { nodes := w5arena, obstacleCorners := [], connectorPoints := [0, 1],
    hsegs := [], vsegs := [], poi := [], ovg := [], dirty := [] }

/-- A single connector point that has not yet been through
`generateOrthogonalGraph` (no neighbours map). -/
def w4arena : Arena :=
  { sz := 1, nd := fun i => if i = 0 then { x := 0, y := 0, isConnector := true } else default }

/-- Router in the not-yet-generated state. -/
def w4router : RouterState :=
  { nodes := w4arena, obstacleCorners := [], connectorPoints := [0],
    hsegs := [], vsegs := [], poi := [], ovg := [], dirty := [] }

instance (p : Pt) (o : ObstacleSpec) : Decidable (ptInOpenRect p o) := by
  unfold ptInOpenRect; infer_instance

instance (p : Pt) (o : ObstacleSpec) : Decidable (ptOutsideRect p o) := by
  unfold ptOutsideRect; infer_instance

instance (o : ObstacleSpec) : Decidable (obstacleWF o) := by
  unfold obstacleWF; infer_instance

instance (o1 o2 : ObstacleSpec) : Decidable (obstaclesApart o1 o2) := by
  unfold obstaclesApart; infer_instance

instance (p : Pt) (o : ObstacleSpec) : Decidable (ptInClosedRect p o) := by
  unfold ptInClosedRect; infer_instance

instance (p : Pt) (o : ObstacleSpec) : Decidable (PtCornerOf p o) := by
  unfold PtCornerOf; infer_instance

instance (p : Pt) (o : ObstacleSpec) : Decidable (PtOkFor p o) := by
  unfold PtOkFor; infer_instance

instance (p : Pt) (area : Rect) : Decidable (PtInArea p area) := by
  unfold PtInArea; infer_instance

instance (m n : Node) : Decidable (sameCore m n) := by
  unfold sameCore; infer_instance

instance (n : Node) : Decidable (scratchClean n) := by
  unfold scratchClean; infer_instance

/-- Per-index result of the path-shift pass on a path of length at
least four: endpoints fixed, the second and second-to-last points
shifted along the orthogonality-preserving axis, interior points fully
translated. -/
def shiftExpected (path : List Pt) (t : Pt) (i : Nat) : Pt :=
  let n := path.length
  let p := path.getD i ⟨0, 0⟩
  if i = 0 ∨ i = n - 1 then p
  else if i = 1 then edgeAlignedShift p (path.getD 0 ⟨0, 0⟩) t
  else if i = n - 2 then edgeAlignedShift p (path.getD (n - 1) ⟨0, 0⟩) t
  else if i < n - 2 then ⟨p.x + t.x, p.y + t.y⟩
  else p

/-- Triangle inequality for the Manhattan heuristic. -/
theorem manhattan_triangle (a b c : Node) :
    manhattanHeuristic a c ≤ manhattanHeuristic a b + manhattanHeuristic b c := by
  unfold manhattanHeuristic
  have hx : |c.x - a.x| ≤ |b.x - a.x| + |c.x - b.x| := by
    have := abs_add (b.x - a.x) (c.x - b.x)
    simpa using this
  have hy : |c.y - a.y| ≤ |b.y - a.y| + |c.y - b.y| := by
    have := abs_add (b.y - a.y) (c.y - b.y)
    simpa using this
  linarith

/-- For an axis-aligned hop of Manhattan length at least one, the
Manhattan heuristic never exceeds the edge weight of the hop. -/
theorem manhattan_le_edgeWeight (A : Arena) (x y : Node)
    (hax : x.x = y.x ∨ x.y = y.y) (h1 : 1 ≤ manhattanHeuristic x y) :
    manhattanHeuristic x y ≤ edgeWeight A x y := by
  have hbase : manhattanHeuristic x y ≤
      (x.x - y.x) * (x.x - y.x) + (x.y - y.y) * (x.y - y.y) := by
    unfold manhattanHeuristic at *
    rcases hax with h | h
    · have hx0 : |y.x - x.x| = 0 := by rw [h]; simp
      have h2 : (1 : ℚ) ≤ |y.y - x.y| := by rw [hx0] at h1; linarith
      have h3 : |y.y - x.y| * 1 ≤ |y.y - x.y| * |y.y - x.y| :=
        mul_le_mul_of_nonneg_left h2 (abs_nonneg _)
      have h4 : |y.y - x.y| * |y.y - x.y| = (y.y - x.y) * (y.y - x.y) := abs_mul_abs_self _
      have h5 : (x.x - y.x) * (x.x - y.x) = 0 := by rw [h]; ring
      have h6 : (y.y - x.y) * (y.y - x.y) = (x.y - y.y) * (x.y - y.y) := by ring
      rw [hx0]
      nlinarith
    · have hy0 : |y.y - x.y| = 0 := by rw [h]; simp
      have h2 : (1 : ℚ) ≤ |y.x - x.x| := by rw [hy0] at h1; linarith
      have h3 : |y.x - x.x| * 1 ≤ |y.x - x.x| * |y.x - x.x| :=
        mul_le_mul_of_nonneg_left h2 (abs_nonneg _)
      have h4 : |y.x - x.x| * |y.x - x.x| = (y.x - x.x) * (y.x - x.x) := abs_mul_abs_self _
      rw [hy0]
      nlinarith
  unfold edgeWeight
  rcases hp : x.parent with _ | pi
  · simpa using hbase
  · by_cases hd : direction (A.nd pi) x ≠ direction x y
    · simp only [hp, if_pos hd]
      linarith
    · simp only [hp, if_neg hd]
      linarith

set_option maxRecDepth 4000 in
/-- C1 amended: along any path whose hops are axis-aligned and at least
one unit long, the Manhattan heuristic between the endpoints never
exceeds the path cost under the search's edge-weight model. -/
theorem c1_amended (A : Arena) :
    ∀ (l : List Nat) (prev : Option Nat) (i j : Nat),
      allLongAxisHops A l = true → l.head? = some i → l.getLast? = some j →
      manhattanHeuristic (A.nd i) (A.nd j) ≤ routeCostAux A prev l := by
  intro l
  induction l with
  | nil => intro prev i j _ hh _; simp at hh
  | cons x t ih =>
    intro prev i j hall hh hl
    simp only [List.head?_cons, Option.some.injEq] at hh
    subst hh
    cases t with
    | nil =>
      simp only [List.getLast?_singleton, Option.some.injEq] at hl
      subst hl
      simp only [routeCostAux, manhattanHeuristic]
      simp
    | cons y rest =>
      unfold allLongAxisHops at hall
      rw [Bool.and_eq_true, Bool.and_eq_true] at hall
      obtain ⟨⟨hax, h1⟩, hrest⟩ := hall
      rw [decide_eq_true_eq] at hax h1
      have hl' : (y :: rest).getLast? = some j := by
        rwa [List.getLast?_cons_cons] at hl
      have ihy := ih (some x) y j hrest rfl hl'
      have tri := manhattan_triangle (A.nd x) (A.nd y) (A.nd j)
      have hop : manhattanHeuristic (A.nd x) (A.nd y) ≤
          edgeWeight A { A.nd x with parent := prev } (A.nd y) :=
        manhattan_le_edgeWeight A { A.nd x with parent := prev } (A.nd y) hax h1
      simp only [routeCostAux]
      linarith

/-- Witness instantiating `c1_amended` on a concrete two-hop path. -/
theorem c1_amended_witness :
    manhattanHeuristic (w9arena.nd 0) (w9arena.nd 2) ≤ routeCostAux w9arena none [0, 1, 2] :=
  c1_amended w9arena [0, 1, 2] none 0 2 (by decide) (by decide) (by decide)

/-- getD after set at the same position. -/
theorem getD_set_self (l : List Pt) (i : Nat) (a d : Pt) (h : i < l.length) :
    (l.set i a).getD i d = a := by
  simp [List.getD_eq_getElem?_getD, List.getElem?_set_self', h]

/-- getD after set at a different position. -/
theorem getD_set_ne (l : List Pt) (i j : Nat) (a d : Pt) (h : i ≠ j) :
    (l.set i a).getD j d = l.getD j d := by
  simp [List.getD_eq_getElem?_getD, List.getElem?_set_ne h]

/-- The path-shift pass never moves index 0 of a long path. -/
theorem shiftExpected_zero (path : List Pt) (t : Pt) :
    shiftExpected path t 0 = path.getD 0 ⟨0, 0⟩ := by
  unfold shiftExpected
  rw [if_pos (Or.inl rfl)]

/-- The path-shift pass never moves the last index. -/
theorem shiftExpected_last (path : List Pt) (t : Pt) :
    shiftExpected path t (path.length - 1) = path.getD (path.length - 1) ⟨0, 0⟩ := by
  unfold shiftExpected
  rw [if_pos (Or.inr rfl)]

/-- One step of the shift loop writes exactly the expected point, as
long as the cells it reads (its own index, the first and the last) still
hold their original values. -/
theorem shiftStep_at (t : Pt) (path cur : List Pt) (k : Nat)
    (hn : 4 ≤ path.length) (hk : k < path.length) (hlen : cur.length = path.length)
    (h0 : cur.getD 0 ⟨0, 0⟩ = path.getD 0 ⟨0, 0⟩)
    (hlast : cur.getD (path.length - 1) ⟨0, 0⟩ = path.getD (path.length - 1) ⟨0, 0⟩)
    (hkv : cur.getD k ⟨0, 0⟩ = path.getD k ⟨0, 0⟩) :
    shiftStep t cur k = cur.set k (shiftExpected path t k) := by
  simp only [shiftStep, hlen, hkv, h0, hlast]
  rcases eq_or_ne k 1 with hk1 | hk1
  · subst hk1
    rw [if_pos rfl, if_neg (by omega : ¬(1 + 2 = path.length)),
      if_neg (by omega : ¬(1 < 1 ∧ 1 + 2 < path.length))]
    unfold shiftExpected edgeAlignedShift
    rw [if_neg (by omega : ¬((1 : Nat) = 0 ∨ (1 : Nat) = path.length - 1)), if_pos rfl]
  · rcases eq_or_ne (k + 2) path.length with hk2 | hk2
    · rw [if_neg hk1, if_pos hk2, if_neg (by omega : ¬(1 < k ∧ k + 2 < path.length))]
      unfold shiftExpected edgeAlignedShift
      rw [if_neg (by omega : ¬(k = 0 ∨ k = path.length - 1)), if_neg hk1,
        if_pos (by omega : k = path.length - 2)]
    · rcases Decidable.em (1 < k ∧ k + 2 < path.length) with hmid | hmid
      · rw [if_neg hk1, if_neg hk2, if_pos hmid]
        unfold shiftExpected
        rw [if_neg (by omega : ¬(k = 0 ∨ k = path.length - 1)), if_neg hk1,
          if_neg (by omega : ¬k = path.length - 2), if_pos (by omega : k < path.length - 2)]
      · have hk0 : k = 0 ∨ k = path.length - 1 := by omega
        rw [if_neg hk1, if_neg hk2, if_neg hmid]
        unfold shiftExpected
        rw [if_pos hk0]

/-- Invariant of the shift loop: processed cells hold their expected
values, unprocessed cells their original ones. -/
theorem c8_fold_inv (t : Pt) (path : List Pt) (hn : 4 ≤ path.length) :
    ∀ k, k ≤ path.length →
      (((List.range k).foldl (shiftStep t) path).length = path.length) ∧
      (∀ j, j < k → ((List.range k).foldl (shiftStep t) path).getD j ⟨0, 0⟩ = shiftExpected path t j) ∧
      (∀ j, k ≤ j → ((List.range k).foldl (shiftStep t) path).getD j ⟨0, 0⟩ = path.getD j ⟨0, 0⟩) := by
  intro k
  induction k with
  | zero => intro _; exact ⟨by simp, fun j hj => absurd hj (by omega), fun j _ => rfl⟩
  | succ k ih =>
    intro hk
    obtain ⟨hlen, hdone, hrest⟩ := ih (Nat.le_of_succ_le hk)
    have hkn : k < path.length := hk
    have hfold : (List.range (k + 1)).foldl (shiftStep t) path =
        shiftStep t ((List.range k).foldl (shiftStep t) path) k := by
      rw [List.range_succ, List.foldl_append, List.foldl_cons, List.foldl_nil]
    have h0 : ((List.range k).foldl (shiftStep t) path).getD 0 ⟨0, 0⟩ = path.getD 0 ⟨0, 0⟩ := by
      rcases Nat.eq_zero_or_pos k with h | h
      · exact hrest 0 (by omega)
      · rw [hdone 0 h, shiftExpected_zero]
    have hlast : ((List.range k).foldl (shiftStep t) path).getD (path.length - 1) ⟨0, 0⟩ =
        path.getD (path.length - 1) ⟨0, 0⟩ := by
      rcases Nat.lt_or_ge (path.length - 1) k with h | h
      · rw [hdone _ h, shiftExpected_last]
      · exact hrest _ h
    have hstep := shiftStep_at t path ((List.range k).foldl (shiftStep t) path) k hn hkn hlen
      h0 hlast (hrest k (le_refl _))
    rw [hfold, hstep]
    refine ⟨by rw [List.length_set, hlen], ?_, ?_⟩
    · intro j hj
      rcases Nat.lt_or_ge j k with h | h
      · rw [getD_set_ne _ _ _ _ _ (by omega), hdone j h]
      · have : j = k := by omega
        subst this
        exact getD_set_self _ _ _ _ (by omega)
    · intro j hj
      rw [getD_set_ne _ _ _ _ _ (by omega), hrest j (by omega)]

/-- C8 amended: on paths of length at least four, the shift pass leaves
the endpoints fixed, moves the second and second-to-last points only
along the axis shared with their fixed neighbour, and translates every
strictly interior point by the full translation on both axes. -/
theorem c8_amended (path : List Pt) (t : Pt) (h4 : 4 ≤ path.length) :
    (performPathShift path t).length = path.length ∧
    (performPathShift path t).getD 0 ⟨0, 0⟩ = path.getD 0 ⟨0, 0⟩ ∧
    (performPathShift path t).getD (path.length - 1) ⟨0, 0⟩ = path.getD (path.length - 1) ⟨0, 0⟩ ∧
    (performPathShift path t).getD 1 ⟨0, 0⟩ =
      edgeAlignedShift (path.getD 1 ⟨0, 0⟩) (path.getD 0 ⟨0, 0⟩) t ∧
    (performPathShift path t).getD (path.length - 2) ⟨0, 0⟩ =
      edgeAlignedShift (path.getD (path.length - 2) ⟨0, 0⟩) (path.getD (path.length - 1) ⟨0, 0⟩) t ∧
    (∀ i, 1 < i → i < path.length - 2 →
      (performPathShift path t).getD i ⟨0, 0⟩ =
        ⟨(path.getD i ⟨0, 0⟩).x + t.x, (path.getD i ⟨0, 0⟩).y + t.y⟩) := by
  obtain ⟨hlen, hdone, -⟩ := c8_fold_inv t path h4 path.length (le_refl _)
  have hperf : performPathShift path t = (List.range path.length).foldl (shiftStep t) path := rfl
  rw [hperf]
  refine ⟨hlen, ?_, ?_, ?_, ?_, ?_⟩
  · rw [hdone 0 (by omega), shiftExpected_zero]
  · rw [hdone (path.length - 1) (by omega), shiftExpected_last]
  · rw [hdone 1 (by omega)]
    unfold shiftExpected
    rw [if_neg (by omega : ¬((1 : Nat) = 0 ∨ (1 : Nat) = path.length - 1)), if_pos rfl]
  · rw [hdone (path.length - 2) (by omega)]
    unfold shiftExpected
    rw [if_neg (by omega : ¬(path.length - 2 = 0 ∨ path.length - 2 = path.length - 1)),
      if_neg (by omega : ¬path.length - 2 = 1), if_pos rfl]
  · intro i h1 h2
    rw [hdone i (by omega)]
    unfold shiftExpected
    rw [if_neg (by omega : ¬(i = 0 ∨ i = path.length - 1)), if_neg (by omega : ¬i = 1),
      if_neg (by omega : ¬i = path.length - 2), if_pos (by omega : i < path.length - 2)]

/-- Witness instantiating `c8_amended` on a concrete five-point path. -/
theorem c8_amended_witness :
    (performPathShift [⟨0, 0⟩, ⟨0, 5⟩, ⟨7, 5⟩, ⟨7, 9⟩, ⟨12, 9⟩] ⟨3, 4⟩).getD 0 ⟨0, 0⟩ = ⟨0, 0⟩ ∧
    (performPathShift [⟨0, 0⟩, ⟨0, 5⟩, ⟨7, 5⟩, ⟨7, 9⟩, ⟨12, 9⟩] ⟨3, 4⟩).getD 4 ⟨0, 0⟩ = ⟨12, 9⟩ := by
  have h := c8_amended [⟨0, 0⟩, ⟨0, 5⟩, ⟨7, 5⟩, ⟨7, 9⟩, ⟨12, 9⟩] ⟨3, 4⟩ (by decide)
  exact ⟨h.2.1, h.2.2.1⟩

/-- Projection of `setNode`. -/
theorem setNode_nd (A : Arena) (i : Nat) (v : Node) (j : Nat) :
    (setNode A i v).nd j = if j = i then v else A.nd j := rfl

/-- Projection of `pushNode`. -/
theorem pushNode_nd (A : Arena) (v : Node) (j : Nat) :
    ((pushNode A v).1).nd j = if j = A.sz then v else A.nd j := rfl

/-- `sameCore` is reflexive. -/
theorem sameCore_refl (n : Node) : sameCore n n :=
  ⟨rfl, rfl, rfl, rfl, rfl, rfl, rfl, rfl, rfl, rfl⟩

/-- `sameCore` is transitive. -/
theorem sameCore_trans {a b c : Node} (h1 : sameCore a b) (h2 : sameCore b c) : sameCore a c := by
  obtain ⟨x1, y1, n1, s1, e1, w1, m1, c1, ho1, v1⟩ := h1
  obtain ⟨x2, y2, n2, s2, e2, w2, m2, c2, ho2, v2⟩ := h2
  exact ⟨x1.trans x2, y1.trans y2, n1.trans n2, s1.trans s2, e1.trans e2, w1.trans w2,
    m1.trans m2, c1.trans c2, ho1.trans ho2, v1.trans v2⟩

/-- `sameCore` nodes have the same coordinates. -/
theorem sameCore_pt {m n : Node} (h : sameCore m n) : m.pt = n.pt := by
  obtain ⟨hx, hy, -⟩ := h
  unfold Node.pt
  rw [hx, hy]

/-- The scratch reset leaves the node core untouched. -/
theorem resetScratch_sameCore (n : Node) : sameCore (resetScratch n) n :=
  ⟨rfl, rfl, rfl, rfl, rfl, rfl, rfl, rfl, rfl, rfl⟩

/-- The dirty-node reset pass of `findRoute` leaves every node core
untouched. -/
theorem resetFold_sameCore (ds : List Nat) (A : Arena) (i : Nat) :
    sameCore ((ds.foldl (fun B j => setNode B j (resetScratch (B.nd j))) A).nd i) (A.nd i) := by
  induction ds generalizing A with
  | nil => exact sameCore_refl _
  | cons j rest ih =>
    rw [List.foldl_cons]
    refine sameCore_trans (ih _) ?_
    rw [setNode_nd]
    by_cases h : i = j
    · subst h
      rw [if_pos rfl]
      exact resetScratch_sameCore _
    · rw [if_neg h]
      exact sameCore_refl _

set_option maxRecDepth 2000 in
/-- C4: a `findRoute` call whose start or end coordinate matches no
connector point within tolerance, or made while no connector carries a
neighbours map (the not-yet-generated state), produces the thrown
invalid-endpoints failure, never a path and never a silent answer. -/
theorem c4_theorem (fuel : Nat) (s : RouterState) (startP endP : Pt)
    (hfail : (∀ i ∈ s.connectorPoints, arePointsEqual (s.nodes.nd i).pt startP = false) ∨
      (∀ i ∈ s.connectorPoints, arePointsEqual (s.nodes.nd i).pt endP = false) ∨
      (∀ i ∈ s.connectorPoints, (s.nodes.nd i).hasMap = false)) :
    (findRoute fuel s startP endP).1 = .invalid := by
  unfold findRoute
  set A1 := s.dirty.foldl (fun B j => setNode B j (resetScratch (B.nd j))) s.nodes with hA1
  have hpt : ∀ i, (A1.nd i).pt = (s.nodes.nd i).pt :=
    fun i => sameCore_pt (resetFold_sameCore s.dirty s.nodes i)
  have hmap : ∀ i, (A1.nd i).hasMap = (s.nodes.nd i).hasMap :=
    fun i => (resetFold_sameCore s.dirty s.nodes i).2.2.2.2.2.2.1
  rcases hsi : s.connectorPoints.find? (fun i => arePointsEqual (A1.nd i).pt startP) with _ | si
  · simp only [hsi]
  · rcases hei : s.connectorPoints.find? (fun i => arePointsEqual (A1.nd i).pt endP) with _ | ei
    · simp only [hsi, hei]
    · have hsimem := List.mem_of_find?_eq_some hsi
      have hspred := List.find?_some hsi
      have heimem := List.mem_of_find?_eq_some hei
      have hepred := List.find?_some hei
      rcases hfail with h | h | h
      · exfalso
        have := h si hsimem
        rw [hpt si] at hspred
        rw [this] at hspred
        exact Bool.false_ne_true hspred
      · exfalso
        have := h ei heimem
        rw [hpt ei] at hepred
        rw [this] at hepred
        exact Bool.false_ne_true hepred
      · simp only [hsi, hei]
        rw [if_pos (Or.inl (by rw [hmap ei]; exact h ei heimem))]

/-- Witness for `c4_theorem`: routing from a coordinate matching no
connector fails with the invalid outcome. -/
theorem c4_theorem_witness : (findRoute 10 w5router ⟨1, 1⟩ ⟨5, 0⟩).1 = .invalid :=
  c4_theorem 10 w5router ⟨1, 1⟩ ⟨5, 0⟩ (Or.inl (by intro i hi; fin_cases hi <;> decide))

/-- The `setConnectorPoints` fold only ever raises the connector flag. -/
theorem connFold_mono (idxs : List Nat) (i : Nat) :
    ∀ (A : Arena), (A.nd i).isConnector = true →
      ((idxs.foldl (fun B j => setNode B j { B.nd j with isConnector := true }) A).nd i).isConnector = true := by
  induction idxs with
  | nil => intro A h; exact h
  | cons j rest ih =>
    intro A h
    rw [List.foldl_cons]
    refine ih _ ?_
    rw [setNode_nd]
    by_cases hij : i = j
    · rw [if_pos hij]
    · rw [if_neg hij]; exact h

/-- Every listed index ends up flagged as a connector. -/
theorem connFold_mem (idxs : List Nat) (i : Nat) :
    ∀ (A : Arena), i ∈ idxs →
      ((idxs.foldl (fun B j => setNode B j { B.nd j with isConnector := true }) A).nd i).isConnector = true := by
  induction idxs with
  | nil => intro A h; cases h
  | cons j rest ih =>
    intro A h
    rw [List.foldl_cons]
    rcases List.mem_cons.mp h with hij | hmem
    · subst hij
      exact connFold_mono rest i _ (by rw [setNode_nd, if_pos rfl])
    · exact ih _ hmem

/-- The `setConnectorPoints` fold touches nothing but the connector
flag. -/
theorem connFold_frame (idxs : List Nat) (i : Nat) :
    ∀ (A : Arena),
      ((idxs.foldl (fun B j => setNode B j { B.nd j with isConnector := true }) A).nd i).x = (A.nd i).x ∧
      ((idxs.foldl (fun B j => setNode B j { B.nd j with isConnector := true }) A).nd i).y = (A.nd i).y := by
  induction idxs with
  | nil => intro A; exact ⟨rfl, rfl⟩
  | cons j rest ih =>
    intro A
    rw [List.foldl_cons]
    refine ⟨(ih _).1.trans ?_, (ih _).2.trans ?_⟩ <;>
      · rw [setNode_nd]
        by_cases hij : i = j
        · rw [if_pos hij, hij]
        · rw [if_neg hij]

/-- Indices not in the list are completely untouched. -/
theorem connFold_notMem (idxs : List Nat) (i : Nat) :
    ∀ (A : Arena), i ∉ idxs →
      ((idxs.foldl (fun B j => setNode B j { B.nd j with isConnector := true }) A).nd i) = A.nd i := by
  induction idxs with
  | nil => intro A _; rfl
  | cons j rest ih =>
    intro A h
    rw [List.foldl_cons]
    rw [ih _ (fun hm => h (List.mem_cons_of_mem _ hm))]
    rw [setNode_nd, if_neg (fun hij => h (by rw [hij]; exact List.mem_cons_self j rest))]

/-- Corner wiring never lowers `hasMap`. -/
theorem wireObstacle_hasMap_mono (A : Arena) (q : Quad) (i : Nat)
    (h : (A.nd i).hasMap = true) : ((wireObstacle A q).nd i).hasMap = true := by
  unfold wireObstacle
  simp only [setNode_nd]
  split <;> try rfl
  split <;> try rfl
  split <;> try rfl
  split <;> try rfl
  exact h

/-- Each directional ray block never lowers `hasMap`. -/
theorem rayStepNorth_hasMap_mono (p : Nat) (ext : ℚ) (st : RayState) (i : Nat)
    (h : (st.A.nd i).hasMap = true) : ((rayStepNorth p ext st).A.nd i).hasMap = true := by
  unfold rayStepNorth
  split
  · simp only [setNode_nd, pushNode_nd]
    split_ifs <;> simp_all
  · exact h

/-- South-ray block `hasMap` monotonicity. -/
theorem rayStepSouth_hasMap_mono (p : Nat) (ext : ℚ) (st : RayState) (i : Nat)
    (h : (st.A.nd i).hasMap = true) : ((rayStepSouth p ext st).A.nd i).hasMap = true := by
  unfold rayStepSouth
  split
  · simp only [setNode_nd, pushNode_nd]
    split_ifs <;> simp_all
  · exact h

/-- East-ray block `hasMap` monotonicity. -/
theorem rayStepEast_hasMap_mono (p : Nat) (ext : ℚ) (st : RayState) (i : Nat)
    (h : (st.A.nd i).hasMap = true) : ((rayStepEast p ext st).A.nd i).hasMap = true := by
  unfold rayStepEast
  split
  · simp only [setNode_nd, pushNode_nd]
    split_ifs <;> simp_all
  · exact h

/-- West-ray block `hasMap` monotonicity. -/
theorem rayStepWest_hasMap_mono (p : Nat) (ext : ℚ) (st : RayState) (i : Nat)
    (h : (st.A.nd i).hasMap = true) : ((rayStepWest p ext st).A.nd i).hasMap = true := by
  unfold rayStepWest
  split
  · simp only [setNode_nd, pushNode_nd]
    split_ifs <;> simp_all
  · exact h

/-- Ray casting for one point never lowers `hasMap` anywhere. -/
theorem addRays_hasMap_mono (area : Rect) (obst : List Quad) (acc : FindAcc) (p i : Nat)
    (h : (acc.A.nd i).hasMap = true) :
    ((addRays area obst acc p).A.nd i).hasMap = true := by
  unfold addRays
  refine rayStepWest_hasMap_mono _ _ _ _ (rayStepEast_hasMap_mono _ _ _ _
    (rayStepSouth_hasMap_mono _ _ _ _ (rayStepNorth_hasMap_mono _ _ _ _ ?_)))
  by_cases hm : (acc.A.nd p).hasMap
  · rw [if_pos hm]; exact h
  · rw [if_neg hm, setNode_nd]
    split
    · rfl
    · exact h

/-- After its own ray-casting step a point carries a neighbours map. -/
theorem addRays_hasMap_self (area : Rect) (obst : List Quad) (acc : FindAcc) (p : Nat) :
    ((addRays area obst acc p).A.nd p).hasMap = true := by
  unfold addRays
  refine rayStepWest_hasMap_mono _ _ _ _ (rayStepEast_hasMap_mono _ _ _ _
    (rayStepSouth_hasMap_mono _ _ _ _ (rayStepNorth_hasMap_mono _ _ _ _ ?_)))
  by_cases hm : (acc.A.nd p).hasMap
  · rw [if_pos hm]; exact hm
  · rw [if_neg hm, setNode_nd, if_pos rfl]

/-- The ray-casting fold never lowers `hasMap`. -/
theorem raysFold_hasMap_mono (area : Rect) (obst : List Quad) (l : List Nat) :
    ∀ (acc : FindAcc) (i : Nat), (acc.A.nd i).hasMap = true →
      ((l.foldl (addRays area obst) acc).A.nd i).hasMap = true := by
  induction l with
  | nil => intro acc i h; exact h
  | cons q rest ih =>
    intro acc i h
    rw [List.foldl_cons]
    exact ih _ i (addRays_hasMap_mono area obst acc q i h)

/-- After the ray-casting fold, every processed point carries a map. -/
theorem raysFold_hasMap (area : Rect) (obst : List Quad) (l : List Nat) :
    ∀ (acc : FindAcc) (p : Nat), p ∈ l →
      ((l.foldl (addRays area obst) acc).A.nd p).hasMap = true := by
  induction l with
  | nil => intro acc p h; cases h
  | cons q rest ih =>
    intro acc p h
    rw [List.foldl_cons]
    rcases List.mem_cons.mp h with hpq | hmem
    · subst hpq
      exact raysFold_hasMap_mono area obst rest _ p (addRays_hasMap_self area obst acc p)
    · exact ih _ p hmem

/-- The obstacle pass keeps the connector list as a prefix of `poi`. -/
theorem obstaclesPass_poi (obst : List Quad) (conns : List Nat) :
    ∀ (acc : FindAcc), (∃ r0, acc.poi = conns ++ r0) →
      ∃ rest, (obst.foldl obstaclesPassStep acc).poi = conns ++ rest := by
  induction obst with
  | nil => intro acc h; exact h
  | cons q rest ih =>
    intro acc h
    obtain ⟨r0, h0⟩ := h
    rw [List.foldl_cons]
    exact ih _ ⟨r0 ++ [q.tl, q.tr, q.bl, q.br], by
      show acc.poi ++ [q.tl, q.tr, q.bl, q.br] = conns ++ (r0 ++ [q.tl, q.tr, q.bl, q.br])
      rw [h0, List.append_assoc]⟩

/-- Every connector handed to `_findInterestingSegments` ends up with a
neighbours map attached. -/
theorem findInterestingSegments_hasMap (A : Arena) (conns : List Nat) (quads : List Quad)
    (area : Rect) (p : Nat) (hp : p ∈ conns) :
    ((findInterestingSegments A conns quads area).A.nd p).hasMap = true := by
  obtain ⟨rest, hpoi⟩ := obstaclesPass_poi quads conns
    { A := A, hsegs := [], vsegs := [], poi := conns } ⟨[], (List.append_nil conns).symm⟩
  have hpoi2 : (obstaclesPass A quads conns).poi = conns ++ rest := hpoi
  show (((obstaclesPass A quads conns).poi.foldl (addRays area quads)
    (obstaclesPass A quads conns)).A.nd p).hasMap = true
  rw [hpoi2]
  exact raysFold_hasMap area quads _ _ p (List.mem_append_left _ hp)

/-- C10: `setConnectorPoints` stores the caller's list itself and flags
every listed point object as a connector in place; coordinates are
untouched, unlisted points are untouched, and the subsequent graph
build attaches a neighbours map to those same objects. -/
theorem c10_theorem (s : RouterState) (idxs : List Nat) (area : Rect) :
    (setConnectorPoints s idxs).connectorPoints = idxs ∧
    (∀ i, i ∈ idxs → ((setConnectorPoints s idxs).nodes.nd i).isConnector = true) ∧
    (∀ i, ((setConnectorPoints s idxs).nodes.nd i).x = (s.nodes.nd i).x ∧
      ((setConnectorPoints s idxs).nodes.nd i).y = (s.nodes.nd i).y) ∧
    (∀ i, i ∉ idxs → (setConnectorPoints s idxs).nodes.nd i = s.nodes.nd i) ∧
    (∀ i, i ∈ idxs →
      ((findInterestingSegments (setConnectorPoints s idxs).nodes
        (setConnectorPoints s idxs).connectorPoints
        (setConnectorPoints s idxs).obstacleCorners area).A.nd i).hasMap = true) := by
  refine ⟨rfl, ?_, ?_, ?_, ?_⟩
  · intro i hi
    exact connFold_mem idxs i s.nodes hi
  · intro i
    exact connFold_frame idxs i s.nodes
  · intro i hi
    exact connFold_notMem idxs i s.nodes hi
  · intro i hi
    exact findInterestingSegments_hasMap _ _ _ area i hi

/-- Witness for `c10_theorem` at a concrete router and index list. -/
theorem c10_theorem_witness :
    ((setConnectorPoints w4router [0]).nodes.nd 0).isConnector = true ∧
    ((findInterestingSegments (setConnectorPoints w4router [0]).nodes
      (setConnectorPoints w4router [0]).connectorPoints
      (setConnectorPoints w4router [0]).obstacleCorners c2area).A.nd 0).hasMap = true := by
  have h := c10_theorem w4router [0] c2area
  exact ⟨h.2.1 0 (by decide), h.2.2.2.2 0 (by decide)⟩

/-- `setNode` keeps the allocation count. -/
theorem setNode_sz (A : Arena) (i : Nat) (v : Node) : (setNode A i v).sz = A.sz := rfl

/-- `pushNode` grows the allocation count by one. -/
theorem pushNode_sz (A : Arena) (v : Node) : ((pushNode A v).1).sz = A.sz + 1 := rfl

/-- The fresh index returned by `pushNode`. -/
theorem pushNode_idx (A : Arena) (v : Node) : (pushNode A v).2 = A.sz := rfl

/-- The `setConnectorPoints` fold either leaves a node alone or only
raises its connector flag. -/
theorem connFold_cases (idxs : List Nat) (i : Nat) :
    ∀ (A : Arena),
      (idxs.foldl (fun B j => setNode B j { B.nd j with isConnector := true }) A).nd i = A.nd i ∨
      (idxs.foldl (fun B j => setNode B j { B.nd j with isConnector := true }) A).nd i =
        { A.nd i with isConnector := true } := by
  induction idxs with
  | nil => intro A; exact Or.inl rfl
  | cons j rest ih =>
    intro A
    rw [List.foldl_cons]
    rcases ih (setNode A j { A.nd j with isConnector := true }) with h | h <;>
      rw [h, setNode_nd] <;> by_cases hij : i = j
    · rw [if_pos hij, hij]
      exact Or.inr rfl
    · rw [if_neg hij]
      exact Or.inl rfl
    · rw [if_pos hij, hij]
      exact Or.inr rfl
    · rw [if_neg hij]
      exact Or.inr rfl

/-- The `setConnectorPoints` fold keeps the allocation count. -/
theorem connFold_sz (idxs : List Nat) :
    ∀ (A : Arena),
      (idxs.foldl (fun B j => setNode B j { B.nd j with isConnector := true }) A).sz = A.sz := by
  induction idxs with
  | nil => intro A; rfl
  | cons j rest ih =>
    intro A
    rw [List.foldl_cons, ih, setNode_sz]

/-- The ready router's arena is the connector-flag fold over the fresh
caller nodes. -/
theorem readyRouter_nodes (conns : List ConnectorSpec) (obst : List ObstacleSpec) :
    (readyRouter conns obst).nodes =
      (List.range conns.length).foldl
        (fun B j => setNode B j { B.nd j with isConnector := true }) (mkNodes conns obst) := rfl

/-- Directional entries of a ready router node: none anywhere. -/
theorem readyRouter_dirs (conns : List ConnectorSpec) (obst : List ObstacleSpec) (i : Nat) :
    ((readyRouter conns obst).nodes.nd i).north = none ∧
    ((readyRouter conns obst).nodes.nd i).south = none ∧
    ((readyRouter conns obst).nodes.nd i).east = none ∧
    ((readyRouter conns obst).nodes.nd i).west = none := by
  have hbase : ((mkNodes conns obst).nd i).north = none ∧
      ((mkNodes conns obst).nd i).south = none ∧
      ((mkNodes conns obst).nd i).east = none ∧
      ((mkNodes conns obst).nd i).west = none := by
    unfold mkNodes
    dsimp only
    split
    · exact ⟨rfl, rfl, rfl, rfl⟩
    · split
      · exact ⟨rfl, rfl, rfl, rfl⟩
      · exact ⟨rfl, rfl, rfl, rfl⟩
  rw [readyRouter_nodes]
  rcases connFold_cases (List.range conns.length) i (mkNodes conns obst) with h | h <;>
    rw [h] <;> exact hbase

/-- A ready-router connector's restriction flags come from its spec. -/
theorem readyRouter_conn_flags (conns : List ConnectorSpec) (obst : List ObstacleSpec)
    (c : Nat) (hc : c < conns.length) :
    ((readyRouter conns obst).nodes.nd c).horizontalOnly = (conns.getD c default).horizontalOnly ∧
    ((readyRouter conns obst).nodes.nd c).verticalOnly = (conns.getD c default).verticalOnly := by
  have hbase : ((mkNodes conns obst).nd c).horizontalOnly = (conns.getD c default).horizontalOnly ∧
      ((mkNodes conns obst).nd c).verticalOnly = (conns.getD c default).verticalOnly := by
    unfold mkNodes
    dsimp only
    rw [if_pos hc]
    exact ⟨rfl, rfl⟩
  rw [readyRouter_nodes]
  rcases connFold_cases (List.range conns.length) c (mkNodes conns obst) with h | h <;>
    rw [h] <;> exact hbase

/-- The ready router allocates all connectors and corners. -/
theorem readyRouter_sz (conns : List ConnectorSpec) (obst : List ObstacleSpec) :
    (readyRouter conns obst).nodes.sz = conns.length + 4 * obst.length := by
  rw [readyRouter_nodes, connFold_sz]
  rfl

/-- Corner wiring leaves nodes outside the quadruple untouched. -/
theorem wireObstacle_frame (A : Arena) (q : Quad) (i : Nat)
    (h : i ≠ q.tl ∧ i ≠ q.tr ∧ i ≠ q.bl ∧ i ≠ q.br) :
    (wireObstacle A q).nd i = A.nd i := by
  unfold wireObstacle
  simp only [setNode_nd]
  rw [if_neg h.2.2.2, if_neg h.2.2.1, if_neg h.2.1, if_neg h.1]

/-- Corner wiring keeps the allocation count. -/
theorem wireObstacle_sz (A : Arena) (q : Quad) : (wireObstacle A q).sz = A.sz := rfl

/-- Every corner reference produced by `cornerQuads` is at least the
connector count. -/
theorem cornerQuads_ge (n m : Nat) (q : Quad) (hq : q ∈ cornerQuads n m) :
    n ≤ q.tl ∧ n ≤ q.tr ∧ n ≤ q.bl ∧ n ≤ q.br := by
  unfold cornerQuads at hq
  obtain ⟨k, -, hk⟩ := List.mem_map.mp hq
  rw [← hk]
  refine ⟨?_, ?_, ?_, ?_⟩ <;> dsimp only <;> omega

/-- The obstacle pass leaves low nodes with no obstacle corner among
them untouched, and keeps the count. -/
theorem obstaclesPass_low_frame (qs : List Quad) (c : Nat) :
    ∀ (acc : FindAcc), (∀ q ∈ qs, c < q.tl ∧ c < q.tr ∧ c < q.bl ∧ c < q.br) →
      ((qs.foldl obstaclesPassStep acc).A.nd c = acc.A.nd c ∧
        (qs.foldl obstaclesPassStep acc).A.sz = acc.A.sz) := by
  induction qs with
  | nil => intro acc _; exact ⟨rfl, rfl⟩
  | cons q rest ih =>
    intro acc hq
    rw [List.foldl_cons]
    obtain ⟨h1, h2⟩ := ih _ (fun q' hq' => hq q' (List.mem_cons_of_mem _ hq'))
    refine ⟨h1.trans ?_, h2.trans ?_⟩
    · show (wireObstacle acc.A q).nd c = acc.A.nd c
      obtain ⟨a, b, cc, dd⟩ := hq q (List.mem_cons_self _ _)
      exact wireObstacle_frame _ _ _ ⟨by omega, by omega, by omega, by omega⟩
    · exact wireObstacle_sz _ _

/-- The north-ray block preserves the no-vertical-neighbour state of a
`horizontalOnly` node. -/
theorem rayStepNorth_keeps (p : Nat) (ext : ℚ) (st : RayState) (c : Nat)
    (hsz : c < st.A.sz)
    (h : (st.A.nd c).north = none ∧ (st.A.nd c).south = none ∧
      (st.A.nd c).horizontalOnly = true) :
    ((rayStepNorth p ext st).A.nd c).north = none ∧
    ((rayStepNorth p ext st).A.nd c).south = none ∧
    ((rayStepNorth p ext st).A.nd c).horizontalOnly = true ∧
    st.A.sz ≤ (rayStepNorth p ext st).A.sz := by
  unfold rayStepNorth
  split
  · rename_i hguard
    by_cases hpc : p = c
    · subst hpc
      rw [h.2.2] at hguard
      exact absurd hguard.2 (by simp)
    · simp only [setNode_nd, pushNode_nd, setNode_sz, pushNode_sz]
      rw [if_neg (fun hcp => hpc hcp.symm), if_neg (by omega : ¬c = st.A.sz)]
      exact ⟨h.1, h.2.1, h.2.2, by omega⟩
  · exact ⟨h.1, h.2.1, h.2.2, le_refl _⟩

/-- The south-ray block preserves the same state. -/
theorem rayStepSouth_keeps (p : Nat) (ext : ℚ) (st : RayState) (c : Nat)
    (hsz : c < st.A.sz)
    (h : (st.A.nd c).north = none ∧ (st.A.nd c).south = none ∧
      (st.A.nd c).horizontalOnly = true) :
    ((rayStepSouth p ext st).A.nd c).north = none ∧
    ((rayStepSouth p ext st).A.nd c).south = none ∧
    ((rayStepSouth p ext st).A.nd c).horizontalOnly = true ∧
    st.A.sz ≤ (rayStepSouth p ext st).A.sz := by
  unfold rayStepSouth
  split
  · rename_i hguard
    by_cases hpc : p = c
    · subst hpc
      rw [h.2.2] at hguard
      exact absurd hguard.2 (by simp)
    · simp only [setNode_nd, pushNode_nd, setNode_sz, pushNode_sz]
      rw [if_neg (fun hcp => hpc hcp.symm), if_neg (by omega : ¬c = st.A.sz)]
      exact ⟨h.1, h.2.1, h.2.2, by omega⟩
  · exact ⟨h.1, h.2.1, h.2.2, le_refl _⟩

/-- The east-ray block only touches `east` entries and fresh nodes. -/
theorem rayStepEast_keeps (p : Nat) (ext : ℚ) (st : RayState) (c : Nat)
    (hsz : c < st.A.sz)
    (h : (st.A.nd c).north = none ∧ (st.A.nd c).south = none ∧
      (st.A.nd c).horizontalOnly = true) :
    ((rayStepEast p ext st).A.nd c).north = none ∧
    ((rayStepEast p ext st).A.nd c).south = none ∧
    ((rayStepEast p ext st).A.nd c).horizontalOnly = true ∧
    st.A.sz ≤ (rayStepEast p ext st).A.sz := by
  unfold rayStepEast
  split
  · simp only [setNode_nd, pushNode_nd, setNode_sz, pushNode_sz]
    split_ifs <;> (try subst_vars) <;> first | exact ⟨h.1, h.2.1, h.2.2, by omega⟩ | (exfalso; omega)
  · exact ⟨h.1, h.2.1, h.2.2, le_refl _⟩

/-- The west-ray block only touches `west` entries and fresh nodes. -/
theorem rayStepWest_keeps (p : Nat) (ext : ℚ) (st : RayState) (c : Nat)
    (hsz : c < st.A.sz)
    (h : (st.A.nd c).north = none ∧ (st.A.nd c).south = none ∧
      (st.A.nd c).horizontalOnly = true) :
    ((rayStepWest p ext st).A.nd c).north = none ∧
    ((rayStepWest p ext st).A.nd c).south = none ∧
    ((rayStepWest p ext st).A.nd c).horizontalOnly = true ∧
    st.A.sz ≤ (rayStepWest p ext st).A.sz := by
  unfold rayStepWest
  split
  · simp only [setNode_nd, pushNode_nd, setNode_sz, pushNode_sz]
    split_ifs <;> (try subst_vars) <;> first | exact ⟨h.1, h.2.1, h.2.2, by omega⟩ | (exfalso; omega)
  · exact ⟨h.1, h.2.1, h.2.2, le_refl _⟩

/-- Ray casting for one point keeps a `horizontalOnly` node free of
vertical neighbours. -/
theorem addRays_keeps (area : Rect) (obst : List Quad) (acc : FindAcc) (p c : Nat)
    (hsz : c < acc.A.sz)
    (h : (acc.A.nd c).north = none ∧ (acc.A.nd c).south = none ∧
      (acc.A.nd c).horizontalOnly = true) :
    ((addRays area obst acc p).A.nd c).north = none ∧
    ((addRays area obst acc p).A.nd c).south = none ∧
    ((addRays area obst acc p).A.nd c).horizontalOnly = true ∧
    acc.A.sz ≤ (addRays area obst acc p).A.sz := by
  unfold addRays
  have hens : ∀ (B : Arena), B = (if (acc.A.nd p).hasMap then acc.A
    else setNode acc.A p { acc.A.nd p with hasMap := true }) →
      (B.nd c).north = none ∧ (B.nd c).south = none ∧ (B.nd c).horizontalOnly = true ∧
      B.sz = acc.A.sz := by
    intro B hB
    subst hB
    split
    · exact ⟨h.1, h.2.1, h.2.2, rfl⟩
    · rw [setNode_nd]
      by_cases hcp : c = p
      · rw [if_pos hcp]
        subst hcp
        exact ⟨h.1, h.2.1, h.2.2, rfl⟩
      · rw [if_neg hcp]
        exact ⟨h.1, h.2.1, h.2.2, rfl⟩
  obtain ⟨e1, e2, e3, e4⟩ := hens _ rfl
  set B := if (acc.A.nd p).hasMap then acc.A
    else setNode acc.A p { acc.A.nd p with hasMap := true } with hB
  have hsz1 : c < B.sz := by omega
  have s1 := rayStepNorth_keeps p (rayExtents B (B.nd p) area obst).1
    { A := B, hsegs := acc.hsegs, vsegs := acc.vsegs } c hsz1 ⟨e1, e2, e3⟩
  have t1 : B.sz ≤ (rayStepNorth p (rayExtents B (B.nd p) area obst).1
      { A := B, hsegs := acc.hsegs, vsegs := acc.vsegs }).A.sz := s1.2.2.2
  have s2 := rayStepSouth_keeps p (rayExtents B (B.nd p) area obst).2.1
    (rayStepNorth p (rayExtents B (B.nd p) area obst).1
      { A := B, hsegs := acc.hsegs, vsegs := acc.vsegs }) c (by omega)
    ⟨s1.1, s1.2.1, s1.2.2.1⟩
  have t2 := s2.2.2.2
  have s3 := rayStepEast_keeps p (rayExtents B (B.nd p) area obst).2.2.2
    (rayStepSouth p (rayExtents B (B.nd p) area obst).2.1
      (rayStepNorth p (rayExtents B (B.nd p) area obst).1
        { A := B, hsegs := acc.hsegs, vsegs := acc.vsegs })) c (by omega)
    ⟨s2.1, s2.2.1, s2.2.2.1⟩
  have t3 := s3.2.2.2
  have s4 := rayStepWest_keeps p (rayExtents B (B.nd p) area obst).2.2.1
    (rayStepEast p (rayExtents B (B.nd p) area obst).2.2.2
      (rayStepSouth p (rayExtents B (B.nd p) area obst).2.1
        (rayStepNorth p (rayExtents B (B.nd p) area obst).1
          { A := B, hsegs := acc.hsegs, vsegs := acc.vsegs }))) c (by omega)
    ⟨s3.1, s3.2.1, s3.2.2.1⟩
  have t4 := s4.2.2.2
  refine ⟨s4.1, s4.2.1, s4.2.2.1, ?_⟩
  show acc.A.sz ≤ (rayStepWest p (rayExtents B (B.nd p) area obst).2.2.1
    (rayStepEast p (rayExtents B (B.nd p) area obst).2.2.2
      (rayStepSouth p (rayExtents B (B.nd p) area obst).2.1
        (rayStepNorth p (rayExtents B (B.nd p) area obst).1
          { A := B, hsegs := acc.hsegs, vsegs := acc.vsegs })))).A.sz
  omega

/-- The ray-casting fold keeps a `horizontalOnly` node free of vertical
neighbours. -/
theorem raysFold_keeps (area : Rect) (obst : List Quad) (l : List Nat) (c : Nat) :
    ∀ (acc : FindAcc), c < acc.A.sz →
      (acc.A.nd c).north = none → (acc.A.nd c).south = none →
      (acc.A.nd c).horizontalOnly = true →
      ((l.foldl (addRays area obst) acc).A.nd c).north = none ∧
      ((l.foldl (addRays area obst) acc).A.nd c).south = none := by
  induction l with
  | nil => intro acc _ h1 h2 _; exact ⟨h1, h2⟩
  | cons q rest ih =>
    intro acc hsz h1 h2 h3
    rw [List.foldl_cons]
    obtain ⟨k1, k2, k3, k4⟩ := addRays_keeps area obst acc q c hsz ⟨h1, h2, h3⟩
    exact ih _ (by omega) k1 k2 k3

set_option maxRecDepth 2000 in
/-- C6 amended: after the segment-finding phase (corner wiring and ray
casting), a connector flagged `horizontalOnly` carries no north or
south neighbour; the violation of the full claim arises only later, in
intersection splicing. -/
theorem c6_amended (conns : List ConnectorSpec) (obst : List ObstacleSpec) (area : Rect)
    (c : Nat) (hc : c < conns.length)
    (hflag : (conns.getD c default).horizontalOnly = true) :
    ((findInterestingSegments (readyRouter conns obst).nodes
      (readyRouter conns obst).connectorPoints
      (readyRouter conns obst).obstacleCorners area).A.nd c).north = none ∧
    ((findInterestingSegments (readyRouter conns obst).nodes
      (readyRouter conns obst).connectorPoints
      (readyRouter conns obst).obstacleCorners area).A.nd c).south = none := by
  obtain ⟨d1, d2, -, -⟩ := readyRouter_dirs conns obst c
  obtain ⟨f1, -⟩ := readyRouter_conn_flags conns obst c hc
  rw [hflag] at f1
  have hsz0 : c < (readyRouter conns obst).nodes.sz := by
    rw [readyRouter_sz]
    omega
  have hquads : ∀ q ∈ (readyRouter conns obst).obstacleCorners,
      c < q.tl ∧ c < q.tr ∧ c < q.bl ∧ c < q.br := by
    intro q hq
    have hq2 : q ∈ cornerQuads conns.length obst.length := hq
    obtain ⟨a, b, cc, dd⟩ := cornerQuads_ge _ _ q hq2
    exact ⟨by omega, by omega, by omega, by omega⟩
  obtain ⟨hfr, hsz1⟩ := obstaclesPass_low_frame (readyRouter conns obst).obstacleCorners c
    { A := (readyRouter conns obst).nodes, hsegs := [], vsegs := [],
      poi := (readyRouter conns obst).connectorPoints } hquads
  show (((obstaclesPass (readyRouter conns obst).nodes (readyRouter conns obst).obstacleCorners
      (readyRouter conns obst).connectorPoints).poi.foldl
      (addRays area (readyRouter conns obst).obstacleCorners)
      (obstaclesPass (readyRouter conns obst).nodes (readyRouter conns obst).obstacleCorners
        (readyRouter conns obst).connectorPoints)).A.nd c).north = none ∧ _
  refine raysFold_keeps area _ _ c _ ?_ ?_ ?_ ?_
  · show c < ((readyRouter conns obst).obstacleCorners.foldl obstaclesPassStep _).A.sz
    rw [hsz1]
    exact hsz0
  · show (((readyRouter conns obst).obstacleCorners.foldl obstaclesPassStep _).A.nd c).north = none
    rw [hfr]
    exact d1
  · show (((readyRouter conns obst).obstacleCorners.foldl obstaclesPassStep _).A.nd c).south = none
    rw [hfr]
    exact d2
  · show (((readyRouter conns obst).obstacleCorners.foldl obstaclesPassStep _).A.nd c).horizontalOnly = true
    rw [hfr]
    exact f1

/-- Witness instantiating `c6_amended` on the concrete C6 input. -/
theorem c6_amended_witness :
    ((findInterestingSegments (readyRouter c6conns []).nodes
      (readyRouter c6conns []).connectorPoints
      (readyRouter c6conns []).obstacleCorners c2area).A.nd 0).north = none ∧
    ((findInterestingSegments (readyRouter c6conns []).nodes
      (readyRouter c6conns []).connectorPoints
      (readyRouter c6conns []).obstacleCorners c2area).A.nd 0).south = none :=
  c6_amended c6conns [] c2area 0 (by decide) (by decide)

/-- Double opposite is the identity on directions. -/
theorem Dir.opposite_opposite (d : Dir) : d.opposite.opposite = d := by
  cases d <;> rfl

/-- Adjacency well-formedness transfers along an arena with the same
count and the same directional entries. -/
theorem adjWF_congr (A B : Arena) (hsz : B.sz = A.sz)
    (h : ∀ i d, (B.nd i).nbr d = (A.nd i).nbr d) (hWF : AdjWF A) : AdjWF B := by
  obtain ⟨hS, hT, hC⟩ := hWF
  refine ⟨?_, ?_, ?_⟩
  · intro i d j hij
    rw [h] at hij ⊢
    exact hS i d j hij
  · intro i d j hij
    rw [h] at hij
    rw [hsz]
    exact hT i d j hij
  · intro i hi d
    rw [h]
    exact hC i (by omega) d

/-- Linking an allocated node to a single fresh node through a pair of
mutually opposite entries preserves adjacency well-formedness. -/
theorem adjWF_link (A B : Arena) (p : Nat) (d : Dir)
    (hp : p < A.sz)
    (hnone : (A.nd p).nbr d = none)
    (hsz : B.sz = A.sz + 1)
    (hpd : (B.nd p).nbr d = some A.sz)
    (hpo : ∀ d2, d2 ≠ d → (B.nd p).nbr d2 = (A.nd p).nbr d2)
    (hfd : (B.nd A.sz).nbr d.opposite = some p)
    (hfo : ∀ d2, d2 ≠ d.opposite → (B.nd A.sz).nbr d2 = none)
    (hfr : ∀ i, i ≠ p → i ≠ A.sz → B.nd i = A.nd i)
    (hWF : AdjWF A) : AdjWF B := by
  obtain ⟨hS, hT, hC⟩ := hWF
  refine ⟨?_, ?_, ?_⟩
  · intro i d2 j hij
    by_cases hi1 : i = A.sz
    · by_cases hd2 : d2 = d.opposite
      · rw [hi1, hd2, hfd] at hij
        have hj := Option.some.inj hij
        rw [hi1, hd2, ← hj, Dir.opposite_opposite]
        exact hpd
      · rw [hi1, hfo d2 hd2] at hij
        exact Option.noConfusion hij
    · by_cases hi2 : i = p
      · by_cases hd2 : d2 = d
        · rw [hi2, hd2, hpd] at hij
          have hj := Option.some.inj hij
          rw [hd2, ← hj, hi2]
          exact hfd
        · rw [hi2, hpo d2 hd2] at hij
          have hold := hS p d2 j hij
          have hjlt := hT p d2 j hij
          rw [hi2]
          by_cases hjp : j = p
          · rw [hjp] at hold ⊢
            by_cases hdo : d2.opposite = d
            · rw [hdo, hnone] at hold
              exact Option.noConfusion hold
            · rw [hpo _ hdo]
              exact hold
          · rw [hfr j hjp (by omega)]
            exact hold
      · rw [hfr i hi2 hi1] at hij
        have hold := hS i d2 j hij
        have hjlt := hT i d2 j hij
        by_cases hjp : j = p
        · rw [hjp] at hold ⊢
          by_cases hdo : d2.opposite = d
          · rw [hdo, hnone] at hold
            exact Option.noConfusion hold
          · rw [hpo _ hdo]
            exact hold
        · rw [hfr j hjp (by omega)]
          exact hold
  · intro i d2 j hij
    rw [hsz]
    by_cases hi1 : i = A.sz
    · by_cases hd2 : d2 = d.opposite
      · rw [hi1, hd2, hfd] at hij
        have hj := Option.some.inj hij
        omega
      · rw [hi1, hfo d2 hd2] at hij
        exact Option.noConfusion hij
    · by_cases hi2 : i = p
      · by_cases hd2 : d2 = d
        · rw [hi2, hd2, hpd] at hij
          have hj := Option.some.inj hij
          omega
        · rw [hi2, hpo d2 hd2] at hij
          have := hT p d2 j hij
          omega
      · rw [hfr i hi2 hi1] at hij
        have := hT i d2 j hij
        omega
  · intro i hi d2
    rw [hsz] at hi
    rw [hfr i (by omega) (by omega)]
    exact hC i (by omega) d2

/-- The wholesale-replaced corner maps after wiring one obstacle with
four distinct corners. -/
theorem wireObstacle_char (A : Arena) (q : Quad) (h12 : q.tl ≠ q.tr) (h13 : q.tl ≠ q.bl)
    (h14 : q.tl ≠ q.br) (h23 : q.tr ≠ q.bl) (h24 : q.tr ≠ q.br) (h34 : q.bl ≠ q.br) :
    (wireObstacle A q).nd q.tl = { A.nd q.tl with north := none, west := none, east := some q.tr, south := some q.bl, hasMap := true } ∧
    (wireObstacle A q).nd q.tr = { A.nd q.tr with north := none, east := none, west := some q.tl, south := some q.br, hasMap := true } ∧
    (wireObstacle A q).nd q.bl = { A.nd q.bl with south := none, west := none, north := some q.tl, east := some q.br, hasMap := true } ∧
    (wireObstacle A q).nd q.br = { A.nd q.br with south := none, east := none, north := some q.tr, west := some q.bl, hasMap := true } := by
  unfold wireObstacle
  simp only [setNode_nd]
  refine ⟨?_, ?_, ?_, ?_⟩ <;> (split_ifs <;> first | rfl | omega)

/-- Every directional entry after corner wiring is either an old entry
or points into the wired quadruple. -/
theorem wireObstacle_edges (A : Arena) (q : Quad) (h12 : q.tl ≠ q.tr) (h13 : q.tl ≠ q.bl)
    (h14 : q.tl ≠ q.br) (h23 : q.tr ≠ q.bl) (h24 : q.tr ≠ q.br) (h34 : q.bl ≠ q.br) :
    ∀ i d j, ((wireObstacle A q).nd i).nbr d = some j →
      (A.nd i).nbr d = some j ∨ j ∈ q.corners := by
  obtain ⟨ctl, ctr, cbl, cbr⟩ := wireObstacle_char A q h12 h13 h14 h23 h24 h34
  intro i d j hij
  by_cases h1 : i = q.tl
  · subst h1
    rw [ctl] at hij
    cases d with
    | north => exact Option.noConfusion hij
    | west => exact Option.noConfusion hij
    | east => exact Or.inr (by rw [← Option.some.inj hij]; simp [Quad.corners])
    | south => exact Or.inr (by rw [← Option.some.inj hij]; simp [Quad.corners])
  · by_cases h2 : i = q.tr
    · subst h2
      rw [ctr] at hij
      cases d with
      | north => exact Option.noConfusion hij
      | east => exact Option.noConfusion hij
      | west => exact Or.inr (by rw [← Option.some.inj hij]; simp [Quad.corners])
      | south => exact Or.inr (by rw [← Option.some.inj hij]; simp [Quad.corners])
    · by_cases h3 : i = q.bl
      · subst h3
        rw [cbl] at hij
        cases d with
        | south => exact Option.noConfusion hij
        | west => exact Option.noConfusion hij
        | north => exact Or.inr (by rw [← Option.some.inj hij]; simp [Quad.corners])
        | east => exact Or.inr (by rw [← Option.some.inj hij]; simp [Quad.corners])
      · by_cases h4 : i = q.br
        · subst h4
          rw [cbr] at hij
          cases d with
          | south => exact Option.noConfusion hij
          | east => exact Option.noConfusion hij
          | north => exact Or.inr (by rw [← Option.some.inj hij]; simp [Quad.corners])
          | west => exact Or.inr (by rw [← Option.some.inj hij]; simp [Quad.corners])
        · rw [wireObstacle_frame A q i ⟨h1, h2, h3, h4⟩] at hij
          exact Or.inl hij

/-- Wiring an obstacle whose four distinct allocated corners have no
incoming entries preserves adjacency well-formedness. -/
theorem adjWF_wire (A : Arena) (q : Quad)
    (hlt : q.tl < A.sz ∧ q.tr < A.sz ∧ q.bl < A.sz ∧ q.br < A.sz)
    (h12 : q.tl ≠ q.tr) (h13 : q.tl ≠ q.bl) (h14 : q.tl ≠ q.br)
    (h23 : q.tr ≠ q.bl) (h24 : q.tr ≠ q.br) (h34 : q.bl ≠ q.br)
    (hin : ∀ c, c ∈ q.corners → ∀ i d, (A.nd i).nbr d ≠ some c)
    (hWF : AdjWF A) : AdjWF (wireObstacle A q) := by
  obtain ⟨hS, hT, hC⟩ := hWF
  obtain ⟨ctl, ctr, cbl, cbr⟩ := wireObstacle_char A q h12 h13 h14 h23 h24 h34
  refine ⟨?_, ?_, ?_⟩
  · intro i d j hij
    by_cases h1 : i = q.tl
    · subst h1
      rw [ctl] at hij
      cases d with
      | north => exact Option.noConfusion hij
      | west => exact Option.noConfusion hij
      | east =>
        have hj := Option.some.inj hij
        subst hj
        rw [ctr]
        rfl
      | south =>
        have hj := Option.some.inj hij
        subst hj
        rw [cbl]
        rfl
    · by_cases h2 : i = q.tr
      · subst h2
        rw [ctr] at hij
        cases d with
        | north => exact Option.noConfusion hij
        | east => exact Option.noConfusion hij
        | west =>
          have hj := Option.some.inj hij
          subst hj
          rw [ctl]
          rfl
        | south =>
          have hj := Option.some.inj hij
          subst hj
          rw [cbr]
          rfl
      · by_cases h3 : i = q.bl
        · subst h3
          rw [cbl] at hij
          cases d with
          | south => exact Option.noConfusion hij
          | west => exact Option.noConfusion hij
          | north =>
            have hj := Option.some.inj hij
            subst hj
            rw [ctl]
            rfl
          | east =>
            have hj := Option.some.inj hij
            subst hj
            rw [cbr]
            rfl
        · by_cases h4 : i = q.br
          · subst h4
            rw [cbr] at hij
            cases d with
            | south => exact Option.noConfusion hij
            | east => exact Option.noConfusion hij
            | north =>
              have hj := Option.some.inj hij
              subst hj
              rw [ctr]
              rfl
            | west =>
              have hj := Option.some.inj hij
              subst hj
              rw [cbl]
              rfl
          · rw [wireObstacle_frame A q i ⟨h1, h2, h3, h4⟩] at hij
            have hold := hS i d j hij
            have hj1 : j ≠ q.tl := fun hh => hin q.tl (by simp [Quad.corners]) i d (hh ▸ hij)
            have hj2 : j ≠ q.tr := fun hh => hin q.tr (by simp [Quad.corners]) i d (hh ▸ hij)
            have hj3 : j ≠ q.bl := fun hh => hin q.bl (by simp [Quad.corners]) i d (hh ▸ hij)
            have hj4 : j ≠ q.br := fun hh => hin q.br (by simp [Quad.corners]) i d (hh ▸ hij)
            rw [wireObstacle_frame A q j ⟨hj1, hj2, hj3, hj4⟩]
            exact hold
  · intro i d j hij
    rw [wireObstacle_sz]
    rcases wireObstacle_edges A q h12 h13 h14 h23 h24 h34 i d j hij with hold | hcr
    · exact hT i d j hold
    · rcases hlt with ⟨l1, l2, l3, l4⟩
      simp only [Quad.corners, List.mem_cons, List.not_mem_nil, or_false] at hcr
      rcases hcr with rfl | rfl | rfl | rfl <;> omega
  · intro i hi d
    rw [wireObstacle_sz] at hi
    rcases hlt with ⟨l1, l2, l3, l4⟩
    rw [wireObstacle_frame A q i ⟨by omega, by omega, by omega, by omega⟩]
    exact hC i hi d

/-- The obstacle pass preserves adjacency well-formedness for pairwise
disjoint, distinct, allocated, untargeted corner quadruples. -/
theorem obstaclesPass_adjWF (qs : List Quad) :
    ∀ (acc : FindAcc),
      AdjWF acc.A →
      (∀ q ∈ qs, q.tl < acc.A.sz ∧ q.tr < acc.A.sz ∧ q.bl < acc.A.sz ∧ q.br < acc.A.sz) →
      (∀ q ∈ qs, q.tl ≠ q.tr ∧ q.tl ≠ q.bl ∧ q.tl ≠ q.br ∧ q.tr ≠ q.bl ∧ q.tr ≠ q.br ∧ q.bl ≠ q.br) →
      (∀ q ∈ qs, ∀ c ∈ q.corners, ∀ i d, (acc.A.nd i).nbr d ≠ some c) →
      qs.Pairwise (fun q r => ∀ c ∈ q.corners, c ∉ r.corners) →
      AdjWF ((qs.foldl obstaclesPassStep acc).A) := by
  induction qs with
  | nil => intro acc h _ _ _ _; exact h
  | cons q rest ih =>
    intro acc hWF hlt hdist hin hpw
    rw [List.foldl_cons]
    obtain ⟨d12, d13, d14, d23, d24, d34⟩ := hdist q (List.mem_cons_self q rest)
    obtain ⟨hqd, hpw2⟩ := List.pairwise_cons.mp hpw
    refine ih _ ?_ ?_ ?_ ?_ hpw2
    · exact adjWF_wire acc.A q (hlt q (List.mem_cons_self q rest)) d12 d13 d14 d23 d24 d34
        (fun c hc i d => hin q (List.mem_cons_self q rest) c hc i d) hWF
    · intro r hr
      show r.tl < (wireObstacle acc.A q).sz ∧ r.tr < (wireObstacle acc.A q).sz ∧
        r.bl < (wireObstacle acc.A q).sz ∧ r.br < (wireObstacle acc.A q).sz
      rw [wireObstacle_sz]
      exact hlt r (List.mem_cons_of_mem _ hr)
    · intro r hr
      exact hdist r (List.mem_cons_of_mem _ hr)
    · intro r hr c hc i d hij
      have hij2 : ((wireObstacle acc.A q).nd i).nbr d = some c := hij
      rcases wireObstacle_edges acc.A q d12 d13 d14 d23 d24 d34 i d c hij2 with hold | hcr
      · exact hin r (List.mem_cons_of_mem _ hr) c hc i d hold
      · exact hqd r hr c hcr hc

/-- The north-ray block preserves adjacency well-formedness. -/
theorem rayStepNorth_adjWF (p : Nat) (ext : ℚ) (st : RayState) (hp : p < st.A.sz)
    (hWF : AdjWF st.A) : AdjWF (rayStepNorth p ext st).A := by
  unfold rayStepNorth
  split
  · rename_i hguard
    refine adjWF_link st.A _ p Dir.north hp hguard.1 rfl ?_ ?_ ?_ ?_ ?_ hWF
    · simp only [setNode_nd, pushNode_nd]
      rw [if_true]
      rfl
    · intro d2 hd2
      simp only [setNode_nd, pushNode_nd]
      rw [if_true, if_neg (by omega : ¬p = st.A.sz)]
      cases d2 with
      | north => exact absurd rfl hd2
      | south => rfl
      | east => rfl
      | west => rfl
    · simp only [setNode_nd, pushNode_nd]
      rw [if_neg (by omega : ¬st.A.sz = p), if_true]
      rfl
    · intro d2 hd2
      simp only [setNode_nd, pushNode_nd]
      rw [if_neg (by omega : ¬st.A.sz = p), if_true]
      cases d2 with
      | south => exact absurd rfl hd2
      | north => rfl
      | east => rfl
      | west => rfl
    · intro i hip hisz
      simp only [setNode_nd, pushNode_nd]
      rw [if_neg hip, if_neg hisz]
  · exact hWF

/-- The south-ray block preserves adjacency well-formedness. -/
theorem rayStepSouth_adjWF (p : Nat) (ext : ℚ) (st : RayState) (hp : p < st.A.sz)
    (hWF : AdjWF st.A) : AdjWF (rayStepSouth p ext st).A := by
  unfold rayStepSouth
  split
  · rename_i hguard
    refine adjWF_link st.A _ p Dir.south hp hguard.1 rfl ?_ ?_ ?_ ?_ ?_ hWF
    · simp only [setNode_nd, pushNode_nd]
      rw [if_true]
      rfl
    · intro d2 hd2
      simp only [setNode_nd, pushNode_nd]
      rw [if_true, if_neg (by omega : ¬p = st.A.sz)]
      cases d2 with
      | south => exact absurd rfl hd2
      | north => rfl
      | east => rfl
      | west => rfl
    · simp only [setNode_nd, pushNode_nd]
      rw [if_neg (by omega : ¬st.A.sz = p), if_true]
      rfl
    · intro d2 hd2
      simp only [setNode_nd, pushNode_nd]
      rw [if_neg (by omega : ¬st.A.sz = p), if_true]
      cases d2 with
      | north => exact absurd rfl hd2
      | south => rfl
      | east => rfl
      | west => rfl
    · intro i hip hisz
      simp only [setNode_nd, pushNode_nd]
      rw [if_neg hip, if_neg hisz]
  · exact hWF

/-- The east-ray block preserves adjacency well-formedness. -/
theorem rayStepEast_adjWF (p : Nat) (ext : ℚ) (st : RayState) (hp : p < st.A.sz)
    (hWF : AdjWF st.A) : AdjWF (rayStepEast p ext st).A := by
  unfold rayStepEast
  split
  · rename_i hguard
    refine adjWF_link st.A _ p Dir.east hp hguard.1 rfl ?_ ?_ ?_ ?_ ?_ hWF
    · simp only [setNode_nd, pushNode_nd]
      rw [if_true]
      rfl
    · intro d2 hd2
      simp only [setNode_nd, pushNode_nd]
      rw [if_true, if_neg (by omega : ¬p = st.A.sz)]
      cases d2 with
      | east => exact absurd rfl hd2
      | north => rfl
      | south => rfl
      | west => rfl
    · simp only [setNode_nd, pushNode_nd]
      rw [if_neg (by omega : ¬st.A.sz = p), if_true]
      rfl
    · intro d2 hd2
      simp only [setNode_nd, pushNode_nd]
      rw [if_neg (by omega : ¬st.A.sz = p), if_true]
      cases d2 with
      | west => exact absurd rfl hd2
      | north => rfl
      | south => rfl
      | east => rfl
    · intro i hip hisz
      simp only [setNode_nd, pushNode_nd]
      rw [if_neg hip, if_neg hisz]
  · exact hWF

/-- The west-ray block preserves adjacency well-formedness. -/
theorem rayStepWest_adjWF (p : Nat) (ext : ℚ) (st : RayState) (hp : p < st.A.sz)
    (hWF : AdjWF st.A) : AdjWF (rayStepWest p ext st).A := by
  unfold rayStepWest
  split
  · rename_i hguard
    refine adjWF_link st.A _ p Dir.west hp hguard.1 rfl ?_ ?_ ?_ ?_ ?_ hWF
    · simp only [setNode_nd, pushNode_nd]
      rw [if_true]
      rfl
    · intro d2 hd2
      simp only [setNode_nd, pushNode_nd]
      rw [if_true, if_neg (by omega : ¬p = st.A.sz)]
      cases d2 with
      | west => exact absurd rfl hd2
      | north => rfl
      | south => rfl
      | east => rfl
    · simp only [setNode_nd, pushNode_nd]
      rw [if_neg (by omega : ¬st.A.sz = p), if_true]
      rfl
    · intro d2 hd2
      simp only [setNode_nd, pushNode_nd]
      rw [if_neg (by omega : ¬st.A.sz = p), if_true]
      cases d2 with
      | east => exact absurd rfl hd2
      | north => rfl
      | south => rfl
      | west => rfl
    · intro i hip hisz
      simp only [setNode_nd, pushNode_nd]
      rw [if_neg hip, if_neg hisz]
  · exact hWF

/-- The north-ray block never shrinks the allocation count. -/
theorem rayStepNorth_szle (p : Nat) (ext : ℚ) (st : RayState) :
    st.A.sz ≤ (rayStepNorth p ext st).A.sz := by
  unfold rayStepNorth
  split
  · show st.A.sz ≤ st.A.sz + 1
    omega
  · exact le_refl _

/-- The south-ray block never shrinks the allocation count. -/
theorem rayStepSouth_szle (p : Nat) (ext : ℚ) (st : RayState) :
    st.A.sz ≤ (rayStepSouth p ext st).A.sz := by
  unfold rayStepSouth
  split
  · show st.A.sz ≤ st.A.sz + 1
    omega
  · exact le_refl _

/-- The east-ray block never shrinks the allocation count. -/
theorem rayStepEast_szle (p : Nat) (ext : ℚ) (st : RayState) :
    st.A.sz ≤ (rayStepEast p ext st).A.sz := by
  unfold rayStepEast
  split
  · show st.A.sz ≤ st.A.sz + 1
    omega
  · exact le_refl _

/-- The west-ray block never shrinks the allocation count. -/
theorem rayStepWest_szle (p : Nat) (ext : ℚ) (st : RayState) :
    st.A.sz ≤ (rayStepWest p ext st).A.sz := by
  unfold rayStepWest
  split
  · show st.A.sz ≤ st.A.sz + 1
    omega
  · exact le_refl _

/-- Ray casting for one point never shrinks the allocation count. -/
theorem addRays_szle (area : Rect) (obst : List Quad) (acc : FindAcc) (p : Nat) :
    acc.A.sz ≤ (addRays area obst acc p).A.sz := by
  unfold addRays
  set B := if (acc.A.nd p).hasMap then acc.A
    else setNode acc.A p { acc.A.nd p with hasMap := true } with hB
  have hBsz : acc.A.sz ≤ B.sz := by
    rw [hB]
    split
    · exact le_refl _
    · exact le_refl _
  have t1 : B.sz ≤ (rayStepNorth p (rayExtents B (B.nd p) area obst).1
      { A := B, hsegs := acc.hsegs, vsegs := acc.vsegs }).A.sz :=
    rayStepNorth_szle p (rayExtents B (B.nd p) area obst).1
      { A := B, hsegs := acc.hsegs, vsegs := acc.vsegs }
  have t2 : (rayStepNorth p (rayExtents B (B.nd p) area obst).1
      { A := B, hsegs := acc.hsegs, vsegs := acc.vsegs }).A.sz ≤
      (rayStepSouth p (rayExtents B (B.nd p) area obst).2.1
        (rayStepNorth p (rayExtents B (B.nd p) area obst).1
          { A := B, hsegs := acc.hsegs, vsegs := acc.vsegs })).A.sz :=
    rayStepSouth_szle p (rayExtents B (B.nd p) area obst).2.1
      (rayStepNorth p (rayExtents B (B.nd p) area obst).1
        { A := B, hsegs := acc.hsegs, vsegs := acc.vsegs })
  have t3 : (rayStepSouth p (rayExtents B (B.nd p) area obst).2.1
      (rayStepNorth p (rayExtents B (B.nd p) area obst).1
        { A := B, hsegs := acc.hsegs, vsegs := acc.vsegs })).A.sz ≤
      (rayStepEast p (rayExtents B (B.nd p) area obst).2.2.2
        (rayStepSouth p (rayExtents B (B.nd p) area obst).2.1
          (rayStepNorth p (rayExtents B (B.nd p) area obst).1
            { A := B, hsegs := acc.hsegs, vsegs := acc.vsegs }))).A.sz :=
    rayStepEast_szle p (rayExtents B (B.nd p) area obst).2.2.2
      (rayStepSouth p (rayExtents B (B.nd p) area obst).2.1
        (rayStepNorth p (rayExtents B (B.nd p) area obst).1
          { A := B, hsegs := acc.hsegs, vsegs := acc.vsegs }))
  have t4 : (rayStepEast p (rayExtents B (B.nd p) area obst).2.2.2
      (rayStepSouth p (rayExtents B (B.nd p) area obst).2.1
        (rayStepNorth p (rayExtents B (B.nd p) area obst).1
          { A := B, hsegs := acc.hsegs, vsegs := acc.vsegs }))).A.sz ≤
      (rayStepWest p (rayExtents B (B.nd p) area obst).2.2.1
        (rayStepEast p (rayExtents B (B.nd p) area obst).2.2.2
          (rayStepSouth p (rayExtents B (B.nd p) area obst).2.1
            (rayStepNorth p (rayExtents B (B.nd p) area obst).1
              { A := B, hsegs := acc.hsegs, vsegs := acc.vsegs })))).A.sz :=
    rayStepWest_szle p (rayExtents B (B.nd p) area obst).2.2.1
      (rayStepEast p (rayExtents B (B.nd p) area obst).2.2.2
        (rayStepSouth p (rayExtents B (B.nd p) area obst).2.1
          (rayStepNorth p (rayExtents B (B.nd p) area obst).1
            { A := B, hsegs := acc.hsegs, vsegs := acc.vsegs })))
  show acc.A.sz ≤ (rayStepWest p (rayExtents B (B.nd p) area obst).2.2.1
    (rayStepEast p (rayExtents B (B.nd p) area obst).2.2.2
      (rayStepSouth p (rayExtents B (B.nd p) area obst).2.1
        (rayStepNorth p (rayExtents B (B.nd p) area obst).1
          { A := B, hsegs := acc.hsegs, vsegs := acc.vsegs })))).A.sz
  omega

/-- Ray casting for one allocated point preserves adjacency
well-formedness. -/
theorem addRays_adjWF (area : Rect) (obst : List Quad) (acc : FindAcc) (p : Nat)
    (hp : p < acc.A.sz) (hWF : AdjWF acc.A) : AdjWF (addRays area obst acc p).A := by
  unfold addRays
  set B := if (acc.A.nd p).hasMap then acc.A
    else setNode acc.A p { acc.A.nd p with hasMap := true } with hB
  have hBWF : AdjWF B := by
    rw [hB]
    split
    · exact hWF
    · refine adjWF_congr acc.A _ rfl ?_ hWF
      intro i d
      rw [setNode_nd]
      by_cases hip : i = p
      · rw [if_pos hip]
        subst hip
        cases d <;> rfl
      · rw [if_neg hip]
  have hBsz : B.sz = acc.A.sz := by
    rw [hB]
    split
    · rfl
    · rfl
  have s1 := rayStepNorth_adjWF p (rayExtents B (B.nd p) area obst).1
    { A := B, hsegs := acc.hsegs, vsegs := acc.vsegs } (by omega : p < B.sz) hBWF
  have t1 : B.sz ≤ (rayStepNorth p (rayExtents B (B.nd p) area obst).1
      { A := B, hsegs := acc.hsegs, vsegs := acc.vsegs }).A.sz :=
    rayStepNorth_szle p (rayExtents B (B.nd p) area obst).1
      { A := B, hsegs := acc.hsegs, vsegs := acc.vsegs }
  have s2 := rayStepSouth_adjWF p (rayExtents B (B.nd p) area obst).2.1
    (rayStepNorth p (rayExtents B (B.nd p) area obst).1
      { A := B, hsegs := acc.hsegs, vsegs := acc.vsegs }) (by omega) s1
  have t2 := rayStepSouth_szle p (rayExtents B (B.nd p) area obst).2.1
    (rayStepNorth p (rayExtents B (B.nd p) area obst).1
      { A := B, hsegs := acc.hsegs, vsegs := acc.vsegs })
  have s3 := rayStepEast_adjWF p (rayExtents B (B.nd p) area obst).2.2.2
    (rayStepSouth p (rayExtents B (B.nd p) area obst).2.1
      (rayStepNorth p (rayExtents B (B.nd p) area obst).1
        { A := B, hsegs := acc.hsegs, vsegs := acc.vsegs })) (by omega) s2
  have t3 := rayStepEast_szle p (rayExtents B (B.nd p) area obst).2.2.2
    (rayStepSouth p (rayExtents B (B.nd p) area obst).2.1
      (rayStepNorth p (rayExtents B (B.nd p) area obst).1
        { A := B, hsegs := acc.hsegs, vsegs := acc.vsegs }))
  have s4 := rayStepWest_adjWF p (rayExtents B (B.nd p) area obst).2.2.1
    (rayStepEast p (rayExtents B (B.nd p) area obst).2.2.2
      (rayStepSouth p (rayExtents B (B.nd p) area obst).2.1
        (rayStepNorth p (rayExtents B (B.nd p) area obst).1
          { A := B, hsegs := acc.hsegs, vsegs := acc.vsegs }))) (by omega) s3
  exact s4

/-- The ray-casting fold preserves adjacency well-formedness when every
processed point is allocated. -/
theorem raysFold_adjWF (area : Rect) (obst : List Quad) (l : List Nat) :
    ∀ (acc : FindAcc), AdjWF acc.A → (∀ p ∈ l, p < acc.A.sz) →
      AdjWF ((l.foldl (addRays area obst) acc).A) := by
  induction l with
  | nil => intro acc h _; exact h
  | cons q rest ih =>
    intro acc hWF hlt
    rw [List.foldl_cons]
    have hq := hlt q (List.mem_cons_self q rest)
    have hmono := addRays_szle area obst acc q
    exact ih _ (addRays_adjWF area obst acc q hq hWF)
      (fun p hp => lt_of_lt_of_le (hlt p (List.mem_cons_of_mem _ hp)) hmono)

/-- The obstacle pass keeps every point-of-interest index allocated. -/
theorem obstaclesPass_poiBound (qs : List Quad) :
    ∀ (acc : FindAcc), (∀ p ∈ acc.poi, p < acc.A.sz) →
      (∀ q ∈ qs, q.tl < acc.A.sz ∧ q.tr < acc.A.sz ∧ q.bl < acc.A.sz ∧ q.br < acc.A.sz) →
      ∀ p ∈ (qs.foldl obstaclesPassStep acc).poi, p < (qs.foldl obstaclesPassStep acc).A.sz := by
  induction qs with
  | nil => intro acc h _; exact h
  | cons q rest ih =>
    intro acc hp hlt
    rw [List.foldl_cons]
    refine ih _ ?_ ?_
    · intro p hpm
      show p < (wireObstacle acc.A q).sz
      rw [wireObstacle_sz]
      have hm2 : p ∈ acc.poi ++ [q.tl, q.tr, q.bl, q.br] := hpm
      rcases List.mem_append.mp hm2 with h1 | h2
      · exact hp p h1
      · obtain ⟨l1, l2, l3, l4⟩ := hlt q (List.mem_cons_self q rest)
        simp only [List.mem_cons, List.not_mem_nil, or_false] at h2
        rcases h2 with rfl | rfl | rfl | rfl <;> omega
    · intro r hr
      show r.tl < (wireObstacle acc.A q).sz ∧ r.tr < (wireObstacle acc.A q).sz ∧
        r.bl < (wireObstacle acc.A q).sz ∧ r.br < (wireObstacle acc.A q).sz
      rw [wireObstacle_sz]
      exact hlt r (List.mem_cons_of_mem _ hr)

/-- Each corner quadruple comes from one obstacle slot. -/
theorem cornerQuads_mem (n m : Nat) (q : Quad) (hq : q ∈ cornerQuads n m) :
    ∃ k, k < m ∧ q = ⟨n + 4 * k, n + 4 * k + 1, n + 4 * k + 2, n + 4 * k + 3⟩ := by
  unfold cornerQuads at hq
  obtain ⟨k, hk, hkq⟩ := List.mem_map.mp hq
  exact ⟨k, List.mem_range.mp hk, hkq.symm⟩

/-- The ready router records exactly the corner quadruples. -/
theorem readyRouter_corners (conns : List ConnectorSpec) (obst : List ObstacleSpec) :
    (readyRouter conns obst).obstacleCorners = cornerQuads conns.length obst.length := rfl

/-- The ready router records exactly the connector index list. -/
theorem readyRouter_connPoints (conns : List ConnectorSpec) (obst : List ObstacleSpec) :
    (readyRouter conns obst).connectorPoints = List.range conns.length := rfl

set_option maxRecDepth 2000 in
/-- C2 amended: after the segment-finding phase (corner wiring and ray
casting) every directional adjacency entry is reciprocated in the
opposite direction; the violation of the full claim arises only later,
in intersection splicing. -/
theorem c2_amended (conns : List ConnectorSpec) (obst : List ObstacleSpec) (area : Rect) :
    SymmetricAdj (findInterestingSegments (readyRouter conns obst).nodes
      (readyRouter conns obst).connectorPoints
      (readyRouter conns obst).obstacleCorners area).A := by
  have hWF0 : AdjWF (readyRouter conns obst).nodes := by
    refine ⟨?_, ?_, ?_⟩
    · intro i d j hij
      obtain ⟨n1, n2, n3, n4⟩ := readyRouter_dirs conns obst i
      cases d <;> simp only [Node.nbr] at hij <;>
        first
          | (rw [n1] at hij; exact Option.noConfusion hij)
          | (rw [n2] at hij; exact Option.noConfusion hij)
          | (rw [n3] at hij; exact Option.noConfusion hij)
          | (rw [n4] at hij; exact Option.noConfusion hij)
    · intro i d j hij
      obtain ⟨n1, n2, n3, n4⟩ := readyRouter_dirs conns obst i
      cases d <;> simp only [Node.nbr] at hij <;>
        first
          | (rw [n1] at hij; exact Option.noConfusion hij)
          | (rw [n2] at hij; exact Option.noConfusion hij)
          | (rw [n3] at hij; exact Option.noConfusion hij)
          | (rw [n4] at hij; exact Option.noConfusion hij)
    · intro i _ d
      obtain ⟨n1, n2, n3, n4⟩ := readyRouter_dirs conns obst i
      cases d
      · exact n1
      · exact n2
      · exact n3
      · exact n4
  have hsz : (readyRouter conns obst).nodes.sz = conns.length + 4 * obst.length :=
    readyRouter_sz conns obst
  have hWF1 : AdjWF ((cornerQuads conns.length obst.length).foldl obstaclesPassStep
      { A := (readyRouter conns obst).nodes, hsegs := [], vsegs := [],
        poi := (readyRouter conns obst).connectorPoints }).A := by
    refine obstaclesPass_adjWF _ _ hWF0 ?_ ?_ ?_ ?_
    · intro q hq
      obtain ⟨k, hk, rfl⟩ := cornerQuads_mem _ _ q hq
      have hacc : ({ A := (readyRouter conns obst).nodes, hsegs := [], vsegs := [], poi := (readyRouter conns obst).connectorPoints } : FindAcc).A.sz = conns.length + 4 * obst.length := hsz
      refine ⟨?_, ?_, ?_, ?_⟩ <;> rw [hacc] <;> dsimp only <;> omega
    · intro q hq
      obtain ⟨k, hk, rfl⟩ := cornerQuads_mem _ _ q hq
      refine ⟨?_, ?_, ?_, ?_, ?_, ?_⟩ <;> dsimp only <;> omega
    · intro q hq c hc i d hij
      obtain ⟨n1, n2, n3, n4⟩ := readyRouter_dirs conns obst i
      cases d <;> simp only [Node.nbr] at hij <;>
        first
          | (rw [n1] at hij; exact Option.noConfusion hij)
          | (rw [n2] at hij; exact Option.noConfusion hij)
          | (rw [n3] at hij; exact Option.noConfusion hij)
          | (rw [n4] at hij; exact Option.noConfusion hij)
    · unfold cornerQuads
      refine List.Pairwise.map _ ?_ (List.pairwise_lt_range _)
      intro a b hab c hca hcb
      simp only [Quad.corners, List.mem_cons, List.not_mem_nil, or_false] at hca hcb
      omega
  have hbound : ∀ p ∈ ((cornerQuads conns.length obst.length).foldl obstaclesPassStep
      { A := (readyRouter conns obst).nodes, hsegs := [], vsegs := [],
        poi := (readyRouter conns obst).connectorPoints }).poi,
      p < ((cornerQuads conns.length obst.length).foldl obstaclesPassStep
        { A := (readyRouter conns obst).nodes, hsegs := [], vsegs := [],
          poi := (readyRouter conns obst).connectorPoints }).A.sz := by
    refine obstaclesPass_poiBound _ _ ?_ ?_
    · intro p hp
      show p < (readyRouter conns obst).nodes.sz
      rw [hsz]
      rw [readyRouter_connPoints] at hp
      have := List.mem_range.mp hp
      omega
    · intro q hq
      obtain ⟨k, hk, rfl⟩ := cornerQuads_mem _ _ q hq
      have hacc : ({ A := (readyRouter conns obst).nodes, hsegs := [], vsegs := [], poi := (readyRouter conns obst).connectorPoints } : FindAcc).A.sz = conns.length + 4 * obst.length := hsz
      refine ⟨?_, ?_, ?_, ?_⟩ <;> rw [hacc] <;> dsimp only <;> omega
  show SymmetricAdj (((cornerQuads conns.length obst.length).foldl obstaclesPassStep
    { A := (readyRouter conns obst).nodes, hsegs := [], vsegs := [],
      poi := (readyRouter conns obst).connectorPoints }).poi.foldl
        (addRays area (cornerQuads conns.length obst.length))
        ((cornerQuads conns.length obst.length).foldl obstaclesPassStep
          { A := (readyRouter conns obst).nodes, hsegs := [], vsegs := [],
            poi := (readyRouter conns obst).connectorPoints })).A
  exact (raysFold_adjWF area _ _ _ hWF1 hbound).1

set_option maxRecDepth 2000 in
/-- Witness instantiating `c2_amended` on a concrete edge of the
single-connector find-phase graph. -/
theorem c2_amended_witness :
    ((findInterestingSegments (readyRouter c2conns []).nodes
      (readyRouter c2conns []).connectorPoints
      (readyRouter c2conns []).obstacleCorners c2area).A.nd 0).nbr Dir.north = some 1 ∧
    ((findInterestingSegments (readyRouter c2conns []).nodes
      (readyRouter c2conns []).connectorPoints
      (readyRouter c2conns []).obstacleCorners c2area).A.nd 1).nbr Dir.north.opposite = some 0 :=
  ⟨by decide, c2_amended c2conns [] c2area 0 Dir.north 1 (by decide)⟩

/-- One extent-scan step never lowers the north extent. -/
theorem extStep_north_ge (A : Arena) (pt : Node) (ext : ℚ × ℚ × ℚ × ℚ) (q : Quad) :
    ext.1 ≤ (rayExtentsStep A pt ext q).1 := by
  obtain ⟨n, s, w, e⟩ := ext
  simp only [rayExtentsStep]
  split_ifs with h
  · exact le_of_lt h.2.2.2.2.2
  · exact le_refl n

/-- One extent-scan step keeps the north extent at most the cast
point's ordinate. -/
theorem extStep_north_le (A : Arena) (pt : Node) (ext : ℚ × ℚ × ℚ × ℚ) (q : Quad)
    (h : ext.1 ≤ pt.y) : (rayExtentsStep A pt ext q).1 ≤ pt.y := by
  obtain ⟨n, s, w, e⟩ := ext
  dsimp only at h
  simp only [rayExtentsStep]
  split_ifs with hc
  · exact le_of_lt hc.2.2.2.2.1
  · exact h

/-- A blocking obstacle forces the north extent past its bottom edge. -/
theorem extStep_north_fired (A : Arena) (pt : Node) (ext : ℚ × ℚ × ℚ × ℚ) (q : Quad)
    (h1 : pt.north = none) (h2 : pt.horizontalOnly = false)
    (h3 : pt.x ≥ (A.nd q.tl).x) (h4 : pt.x ≤ (A.nd q.tr).x) (h5 : pt.y > (A.nd q.bl).y) :
    (A.nd q.bl).y ≤ (rayExtentsStep A pt ext q).1 := by
  obtain ⟨n, s, w, e⟩ := ext
  simp only [rayExtentsStep]
  split_ifs with hc
  · exact le_refl _
  · by_cases h6 : (A.nd q.bl).y > n
    · exact absurd ⟨h1, h2, h3, h4, h5, h6⟩ hc
    · exact not_lt.mp h6

/-- The extent scan never lowers the north extent. -/
theorem extFold_north_ge (A : Arena) (pt : Node) (l : List Quad) :
    ∀ ext : ℚ × ℚ × ℚ × ℚ, ext.1 ≤ (l.foldl (rayExtentsStep A pt) ext).1 := by
  induction l with
  | nil => intro ext; exact le_refl _
  | cons q rest ih =>
    intro ext
    rw [List.foldl_cons]
    exact le_trans (extStep_north_ge A pt ext q) (ih _)

/-- The extent scan keeps the north extent at most the cast point's
ordinate. -/
theorem extFold_north_le (A : Arena) (pt : Node) (l : List Quad) :
    ∀ ext : ℚ × ℚ × ℚ × ℚ, ext.1 ≤ pt.y → (l.foldl (rayExtentsStep A pt) ext).1 ≤ pt.y := by
  induction l with
  | nil => intro ext h; exact h
  | cons q rest ih =>
    intro ext h
    rw [List.foldl_cons]
    exact ih _ (extStep_north_le A pt ext q h)

/-- A listed blocking obstacle bounds the final north extent from
below. -/
theorem extFold_north_fired (A : Arena) (pt : Node) (q : Quad)
    (h1 : pt.north = none) (h2 : pt.horizontalOnly = false)
    (h3 : pt.x ≥ (A.nd q.tl).x) (h4 : pt.x ≤ (A.nd q.tr).x) (h5 : pt.y > (A.nd q.bl).y)
    (l : List Quad) :
    q ∈ l → ∀ ext : ℚ × ℚ × ℚ × ℚ, (A.nd q.bl).y ≤ (l.foldl (rayExtentsStep A pt) ext).1 := by
  induction l with
  | nil => intro hq; cases hq
  | cons a rest ih =>
    intro hq ext
    rw [List.foldl_cons]
    rcases List.mem_cons.mp hq with rfl | hmem
    · exact le_trans (extStep_north_fired A pt ext q h1 h2 h3 h4 h5) (extFold_north_ge A pt rest _)
    · exact ih hmem _

/-- One extent-scan step never raises the south extent. -/
theorem extStep_south_le (A : Arena) (pt : Node) (ext : ℚ × ℚ × ℚ × ℚ) (q : Quad) :
    (rayExtentsStep A pt ext q).2.1 ≤ ext.2.1 := by
  obtain ⟨n, s, w, e⟩ := ext
  simp only [rayExtentsStep]
  split_ifs with h
  · exact le_of_lt h.2.2.2.2.2
  · exact le_refl s

/-- One extent-scan step keeps the south extent at least the cast
point's ordinate. -/
theorem extStep_south_ge (A : Arena) (pt : Node) (ext : ℚ × ℚ × ℚ × ℚ) (q : Quad)
    (h : pt.y ≤ ext.2.1) : pt.y ≤ (rayExtentsStep A pt ext q).2.1 := by
  obtain ⟨n, s, w, e⟩ := ext
  dsimp only at h
  simp only [rayExtentsStep]
  split_ifs with hc
  · exact le_of_lt hc.2.2.2.2.1
  · exact h

/-- A blocking obstacle forces the south extent up to its top edge. -/
theorem extStep_south_fired (A : Arena) (pt : Node) (ext : ℚ × ℚ × ℚ × ℚ) (q : Quad)
    (h1 : pt.south = none) (h2 : pt.horizontalOnly = false)
    (h3 : pt.x ≥ (A.nd q.tl).x) (h4 : pt.x ≤ (A.nd q.tr).x) (h5 : pt.y < (A.nd q.tl).y) :
    (rayExtentsStep A pt ext q).2.1 ≤ (A.nd q.tl).y := by
  obtain ⟨n, s, w, e⟩ := ext
  simp only [rayExtentsStep]
  split_ifs with hc
  · exact le_refl _
  · by_cases h6 : (A.nd q.tl).y < s
    · exact absurd ⟨h1, h2, h3, h4, h5, h6⟩ hc
    · exact not_lt.mp h6

/-- The extent scan never raises the south extent. -/
theorem extFold_south_le (A : Arena) (pt : Node) (l : List Quad) :
    ∀ ext : ℚ × ℚ × ℚ × ℚ, (l.foldl (rayExtentsStep A pt) ext).2.1 ≤ ext.2.1 := by
  induction l with
  | nil => intro ext; exact le_refl _
  | cons q rest ih =>
    intro ext
    rw [List.foldl_cons]
    exact le_trans (ih _) (extStep_south_le A pt ext q)

/-- The extent scan keeps the south extent at least the cast point's
ordinate. -/
theorem extFold_south_ge (A : Arena) (pt : Node) (l : List Quad) :
    ∀ ext : ℚ × ℚ × ℚ × ℚ, pt.y ≤ ext.2.1 → pt.y ≤ (l.foldl (rayExtentsStep A pt) ext).2.1 := by
  induction l with
  | nil => intro ext h; exact h
  | cons q rest ih =>
    intro ext h
    rw [List.foldl_cons]
    exact ih _ (extStep_south_ge A pt ext q h)

/-- A listed blocking obstacle bounds the final south extent from
above. -/
theorem extFold_south_fired (A : Arena) (pt : Node) (q : Quad)
    (h1 : pt.south = none) (h2 : pt.horizontalOnly = false)
    (h3 : pt.x ≥ (A.nd q.tl).x) (h4 : pt.x ≤ (A.nd q.tr).x) (h5 : pt.y < (A.nd q.tl).y)
    (l : List Quad) :
    q ∈ l → ∀ ext : ℚ × ℚ × ℚ × ℚ,
      (l.foldl (rayExtentsStep A pt) ext).2.1 ≤ (A.nd q.tl).y := by
  induction l with
  | nil => intro hq; cases hq
  | cons a rest ih =>
    intro hq ext
    rw [List.foldl_cons]
    rcases List.mem_cons.mp hq with rfl | hmem
    · exact le_trans (extFold_south_le A pt rest _) (extStep_south_fired A pt ext q h1 h2 h3 h4 h5)
    · exact ih hmem _

/-- One extent-scan step never raises the east extent. -/
theorem extStep_east_le (A : Arena) (pt : Node) (ext : ℚ × ℚ × ℚ × ℚ) (q : Quad) :
    (rayExtentsStep A pt ext q).2.2.2 ≤ ext.2.2.2 := by
  obtain ⟨n, s, w, e⟩ := ext
  simp only [rayExtentsStep]
  split_ifs with h
  · exact le_of_lt h.2.2.2.2.2
  · exact le_refl e

/-- One extent-scan step keeps the east extent at least the cast
point's abscissa. -/
theorem extStep_east_ge (A : Arena) (pt : Node) (ext : ℚ × ℚ × ℚ × ℚ) (q : Quad)
    (h : pt.x ≤ ext.2.2.2) : pt.x ≤ (rayExtentsStep A pt ext q).2.2.2 := by
  obtain ⟨n, s, w, e⟩ := ext
  dsimp only at h
  simp only [rayExtentsStep]
  split_ifs with hc
  · exact le_of_lt hc.2.2.2.2.1
  · exact h

/-- A blocking obstacle forces the east extent down to its left edge. -/
theorem extStep_east_fired (A : Arena) (pt : Node) (ext : ℚ × ℚ × ℚ × ℚ) (q : Quad)
    (h1 : pt.east = none) (h2 : pt.verticalOnly = false)
    (h3 : pt.y ≥ (A.nd q.tl).y) (h4 : pt.y ≤ (A.nd q.bl).y) (h5 : pt.x < (A.nd q.tl).x) :
    (rayExtentsStep A pt ext q).2.2.2 ≤ (A.nd q.tl).x := by
  obtain ⟨n, s, w, e⟩ := ext
  simp only [rayExtentsStep]
  split_ifs with hc
  · exact le_refl _
  · by_cases h6 : (A.nd q.tl).x < e
    · exact absurd ⟨h1, h2, h3, h4, h5, h6⟩ hc
    · exact not_lt.mp h6

/-- The extent scan never raises the east extent. -/
theorem extFold_east_le (A : Arena) (pt : Node) (l : List Quad) :
    ∀ ext : ℚ × ℚ × ℚ × ℚ, (l.foldl (rayExtentsStep A pt) ext).2.2.2 ≤ ext.2.2.2 := by
  induction l with
  | nil => intro ext; exact le_refl _
  | cons q rest ih =>
    intro ext
    rw [List.foldl_cons]
    exact le_trans (ih _) (extStep_east_le A pt ext q)

/-- The extent scan keeps the east extent at least the cast point's
abscissa. -/
theorem extFold_east_ge (A : Arena) (pt : Node) (l : List Quad) :
    ∀ ext : ℚ × ℚ × ℚ × ℚ, pt.x ≤ ext.2.2.2 → pt.x ≤ (l.foldl (rayExtentsStep A pt) ext).2.2.2 := by
  induction l with
  | nil => intro ext h; exact h
  | cons q rest ih =>
    intro ext h
    rw [List.foldl_cons]
    exact ih _ (extStep_east_ge A pt ext q h)

/-- A listed blocking obstacle bounds the final east extent from
above. -/
theorem extFold_east_fired (A : Arena) (pt : Node) (q : Quad)
    (h1 : pt.east = none) (h2 : pt.verticalOnly = false)
    (h3 : pt.y ≥ (A.nd q.tl).y) (h4 : pt.y ≤ (A.nd q.bl).y) (h5 : pt.x < (A.nd q.tl).x)
    (l : List Quad) :
    q ∈ l → ∀ ext : ℚ × ℚ × ℚ × ℚ,
      (l.foldl (rayExtentsStep A pt) ext).2.2.2 ≤ (A.nd q.tl).x := by
  induction l with
  | nil => intro hq; cases hq
  | cons a rest ih =>
    intro hq ext
    rw [List.foldl_cons]
    rcases List.mem_cons.mp hq with rfl | hmem
    · exact le_trans (extFold_east_le A pt rest _) (extStep_east_fired A pt ext q h1 h2 h3 h4 h5)
    · exact ih hmem _

/-- One extent-scan step never lowers the west extent. -/
theorem extStep_west_ge (A : Arena) (pt : Node) (ext : ℚ × ℚ × ℚ × ℚ) (q : Quad) :
    ext.2.2.1 ≤ (rayExtentsStep A pt ext q).2.2.1 := by
  obtain ⟨n, s, w, e⟩ := ext
  simp only [rayExtentsStep]
  split_ifs with h
  · exact le_of_lt h.2.2.2.2.2
  · exact le_refl w

/-- One extent-scan step keeps the west extent at most the cast
point's abscissa. -/
theorem extStep_west_le (A : Arena) (pt : Node) (ext : ℚ × ℚ × ℚ × ℚ) (q : Quad)
    (h : ext.2.2.1 ≤ pt.x) : (rayExtentsStep A pt ext q).2.2.1 ≤ pt.x := by
  obtain ⟨n, s, w, e⟩ := ext
  dsimp only at h
  simp only [rayExtentsStep]
  split_ifs with hc
  · exact le_of_lt hc.2.2.2.2.1
  · exact h

/-- A blocking obstacle forces the west extent past its right edge. -/
theorem extStep_west_fired (A : Arena) (pt : Node) (ext : ℚ × ℚ × ℚ × ℚ) (q : Quad)
    (h1 : pt.west = none) (h2 : pt.verticalOnly = false)
    (h3 : pt.y ≥ (A.nd q.tl).y) (h4 : pt.y ≤ (A.nd q.bl).y) (h5 : pt.x > (A.nd q.tr).x) :
    (A.nd q.tr).x ≤ (rayExtentsStep A pt ext q).2.2.1 := by
  obtain ⟨n, s, w, e⟩ := ext
  simp only [rayExtentsStep]
  split_ifs with hc
  · exact le_refl _
  · by_cases h6 : (A.nd q.tr).x > w
    · exact absurd ⟨h1, h2, h3, h4, h5, h6⟩ hc
    · exact not_lt.mp h6

/-- The extent scan never lowers the west extent. -/
theorem extFold_west_ge (A : Arena) (pt : Node) (l : List Quad) :
    ∀ ext : ℚ × ℚ × ℚ × ℚ, ext.2.2.1 ≤ (l.foldl (rayExtentsStep A pt) ext).2.2.1 := by
  induction l with
  | nil => intro ext; exact le_refl _
  | cons q rest ih =>
    intro ext
    rw [List.foldl_cons]
    exact le_trans (extStep_west_ge A pt ext q) (ih _)

/-- The extent scan keeps the west extent at most the cast point's
abscissa. -/
theorem extFold_west_le (A : Arena) (pt : Node) (l : List Quad) :
    ∀ ext : ℚ × ℚ × ℚ × ℚ, ext.2.2.1 ≤ pt.x → (l.foldl (rayExtentsStep A pt) ext).2.2.1 ≤ pt.x := by
  induction l with
  | nil => intro ext h; exact h
  | cons q rest ih =>
    intro ext h
    rw [List.foldl_cons]
    exact ih _ (extStep_west_le A pt ext q h)

/-- A listed blocking obstacle bounds the final west extent from
below. -/
theorem extFold_west_fired (A : Arena) (pt : Node) (q : Quad)
    (h1 : pt.west = none) (h2 : pt.verticalOnly = false)
    (h3 : pt.y ≥ (A.nd q.tl).y) (h4 : pt.y ≤ (A.nd q.bl).y) (h5 : pt.x > (A.nd q.tr).x)
    (l : List Quad) :
    q ∈ l → ∀ ext : ℚ × ℚ × ℚ × ℚ,
      (A.nd q.tr).x ≤ (l.foldl (rayExtentsStep A pt) ext).2.2.1 := by
  induction l with
  | nil => intro hq; cases hq
  | cons a rest ih =>
    intro hq ext
    rw [List.foldl_cons]
    rcases List.mem_cons.mp hq with rfl | hmem
    · exact le_trans (extStep_west_fired A pt ext q h1 h2 h3 h4 h5) (extFold_west_ge A pt rest _)
    · exact ih hmem _

/-- A convex combination of two values above a bound stays above it. -/
theorem convex_ge (lo a b t : ℚ) (ht0 : 0 ≤ t) (ht1 : t ≤ 1) (ha : lo ≤ a) (hb : lo ≤ b) :
    lo ≤ a + t * (b - a) := by
  nlinarith [mul_nonneg ht0 (by linarith : (0:ℚ) ≤ b - lo),
    mul_nonneg (by linarith : (0:ℚ) ≤ 1 - t) (by linarith : (0:ℚ) ≤ a - lo)]

/-- A convex combination of two values below a bound stays below it. -/
theorem convex_le (hi a b t : ℚ) (ht0 : 0 ≤ t) (ht1 : t ≤ 1) (ha : a ≤ hi) (hb : b ≤ hi) :
    a + t * (b - a) ≤ hi := by
  nlinarith [mul_nonneg ht0 (by linarith : (0:ℚ) ≤ hi - b),
    mul_nonneg (by linarith : (0:ℚ) ≤ 1 - t) (by linarith : (0:ℚ) ≤ hi - a)]

/-- A horizontal segment sitting on a boundary ordinate avoids the
interior. -/
theorem segAvoids_constY (a b : Pt) (o : ObstacleSpec) (hb : b.y = a.y)
    (hy : a.y ≤ o.tl.y ∨ o.bl.y ≤ a.y) : segAvoids a b o := by
  intro t ht0 ht1 hin
  obtain ⟨hxl, hxr, hyt, hyb⟩ := hin
  have hsy : (segPoint a b t).y = a.y + t * (b.y - a.y) := rfl
  rw [hsy, hb] at hyt hyb
  have hz : a.y + t * (a.y - a.y) = a.y := by ring
  rw [hz] at hyt hyb
  rcases hy with h | h <;> linarith

/-- A vertical segment sitting on a boundary abscissa avoids the
interior. -/
theorem segAvoids_constX (a b : Pt) (o : ObstacleSpec) (hb : b.x = a.x)
    (hx : a.x ≤ o.tl.x ∨ o.tr.x ≤ a.x) : segAvoids a b o := by
  intro t ht0 ht1 hin
  obtain ⟨hxl, hxr, hyt, hyb⟩ := hin
  have hsx : (segPoint a b t).x = a.x + t * (b.x - a.x) := rfl
  rw [hsx, hb] at hxl hxr
  have hz : a.x + t * (a.x - a.x) = a.x := by ring
  rw [hz] at hxl hxr
  rcases hx with h | h <;> linarith

/-- A segment inside one closed obstacle avoids the interior of any
obstacle apart from it. -/
theorem segAvoids_apart (a b : Pt) (o1 o : ObstacleSpec)
    (ha : ptInClosedRect a o1) (hb : ptInClosedRect b o1)
    (hap : obstaclesApart o1 o) : segAvoids a b o := by
  intro t ht0 ht1 hin
  obtain ⟨hxl, hxr, hyt, hyb⟩ := hin
  have hsx : (segPoint a b t).x = a.x + t * (b.x - a.x) := rfl
  have hsy : (segPoint a b t).y = a.y + t * (b.y - a.y) := rfl
  rw [hsx] at hxl hxr
  rw [hsy] at hyt hyb
  obtain ⟨ha1, ha2, ha3, ha4⟩ := ha
  obtain ⟨hb1, hb2, hb3, hb4⟩ := hb
  have hcx1 : o1.tl.x ≤ a.x + t * (b.x - a.x) := convex_ge _ _ _ _ ht0 ht1 ha1 hb1
  have hcx2 : a.x + t * (b.x - a.x) ≤ o1.tr.x := convex_le _ _ _ _ ht0 ht1 ha2 hb2
  have hcy1 : o1.tl.y ≤ a.y + t * (b.y - a.y) := convex_ge _ _ _ _ ht0 ht1 ha3 hb3
  have hcy2 : a.y + t * (b.y - a.y) ≤ o1.bl.y := convex_le _ _ _ _ ht0 ht1 ha4 hb4
  rcases hap with h | h | h | h <;> linarith

/-- A north-cast ray segment stays out of every properly placed
obstacle's interior. -/
theorem northRay_avoids (A : Arena) (pt : Node) (area : Rect) (quads : List Quad)
    (o : ObstacleSpec) (hWFo : obstacleWF o)
    (hOk : PtOkFor pt.pt o)
    (hmatch : ∃ q ∈ quads, QuadMatches A q o)
    (hg1 : pt.north = none) (hg2 : pt.horizontalOnly = false)
    (harea : area.y ≤ pt.y) :
    segAvoids pt.pt ⟨pt.x, (rayExtents A pt area quads).1⟩ o := by
  intro t ht0 ht1 hin
  obtain ⟨hxl, hxr, hyt, hyb⟩ := hin
  have hsx : (segPoint pt.pt ⟨pt.x, (rayExtents A pt area quads).1⟩ t).x = pt.x := by
    show pt.x + t * (pt.x - pt.x) = pt.x
    ring
  have hsy : (segPoint pt.pt ⟨pt.x, (rayExtents A pt area quads).1⟩ t).y =
      pt.y + t * ((rayExtents A pt area quads).1 - pt.y) := rfl
  rw [hsx] at hxl hxr
  rw [hsy] at hyt hyb
  obtain ⟨w1, w2, w3, w4, w5, w6⟩ := hWFo
  have hOk2 : (pt.x < o.tl.x ∨ pt.x > o.tr.x ∨ pt.y < o.tl.y ∨ pt.y > o.bl.y) ∨
      ((pt.x = o.tl.x ∨ pt.x = o.tr.x) ∧ (pt.y = o.tl.y ∨ pt.y = o.bl.y)) := hOk
  rcases hOk2 with hout | ⟨hcx, hcy⟩
  · rcases hout with h | h | h | h
    · linarith
    · linarith
    · have hub : (rayExtents A pt area quads).1 ≤ pt.y :=
        extFold_north_le A pt quads (area.y, area.y + area.h, area.x, area.x + area.w) harea
      have hle : pt.y + t * ((rayExtents A pt area quads).1 - pt.y) ≤ pt.y :=
        convex_le _ _ _ _ ht0 ht1 (le_refl _) hub
      linarith
    · obtain ⟨q, hqmem, hqm⟩ := hmatch
      have htlx : (A.nd q.tl).x = o.tl.x := congrArg Pt.x hqm.1
      have htrx : (A.nd q.tr).x = o.tr.x := congrArg Pt.x hqm.2.1
      have hbly : (A.nd q.bl).y = o.bl.y := congrArg Pt.y hqm.2.2.1
      have hfired := extFold_north_fired A pt q hg1 hg2 (by rw [htlx]; linarith)
        (by rw [htrx]; linarith) (by rw [hbly]; exact h) quads hqmem
        (area.y, area.y + area.h, area.x, area.x + area.w)
      rw [hbly] at hfired
      have hge : o.bl.y ≤ pt.y + t * ((rayExtents A pt area quads).1 - pt.y) :=
        convex_ge _ _ _ _ ht0 ht1 (le_of_lt h) hfired
      linarith
  · rcases hcx with h | h <;> rw [h] at hxl hxr <;> linarith

/-- A south-cast ray segment stays out of every properly placed
obstacle's interior. -/
theorem southRay_avoids (A : Arena) (pt : Node) (area : Rect) (quads : List Quad)
    (o : ObstacleSpec) (hWFo : obstacleWF o)
    (hOk : PtOkFor pt.pt o)
    (hmatch : ∃ q ∈ quads, QuadMatches A q o)
    (hg1 : pt.south = none) (hg2 : pt.horizontalOnly = false)
    (harea : pt.y ≤ area.y + area.h) :
    segAvoids pt.pt ⟨pt.x, (rayExtents A pt area quads).2.1⟩ o := by
  intro t ht0 ht1 hin
  obtain ⟨hxl, hxr, hyt, hyb⟩ := hin
  have hsx : (segPoint pt.pt ⟨pt.x, (rayExtents A pt area quads).2.1⟩ t).x = pt.x := by
    show pt.x + t * (pt.x - pt.x) = pt.x
    ring
  have hsy : (segPoint pt.pt ⟨pt.x, (rayExtents A pt area quads).2.1⟩ t).y =
      pt.y + t * ((rayExtents A pt area quads).2.1 - pt.y) := rfl
  rw [hsx] at hxl hxr
  rw [hsy] at hyt hyb
  obtain ⟨w1, w2, w3, w4, w5, w6⟩ := hWFo
  have hOk2 : (pt.x < o.tl.x ∨ pt.x > o.tr.x ∨ pt.y < o.tl.y ∨ pt.y > o.bl.y) ∨
      ((pt.x = o.tl.x ∨ pt.x = o.tr.x) ∧ (pt.y = o.tl.y ∨ pt.y = o.bl.y)) := hOk
  rcases hOk2 with hout | ⟨hcx, hcy⟩
  · rcases hout with h | h | h | h
    · linarith
    · linarith
    · obtain ⟨q, hqmem, hqm⟩ := hmatch
      have htlx : (A.nd q.tl).x = o.tl.x := congrArg Pt.x hqm.1
      have htrx : (A.nd q.tr).x = o.tr.x := congrArg Pt.x hqm.2.1
      have htly : (A.nd q.tl).y = o.tl.y := congrArg Pt.y hqm.1
      have hfired := extFold_south_fired A pt q hg1 hg2 (by rw [htlx]; linarith)
        (by rw [htrx]; linarith) (by rw [htly]; exact h) quads hqmem
        (area.y, area.y + area.h, area.x, area.x + area.w)
      rw [htly] at hfired
      have hle : pt.y + t * ((rayExtents A pt area quads).2.1 - pt.y) ≤ o.tl.y :=
        convex_le _ _ _ _ ht0 ht1 (le_of_lt h) hfired
      linarith
    · have hlb : pt.y ≤ (rayExtents A pt area quads).2.1 :=
        extFold_south_ge A pt quads (area.y, area.y + area.h, area.x, area.x + area.w) harea
      have hge : pt.y ≤ pt.y + t * ((rayExtents A pt area quads).2.1 - pt.y) :=
        convex_ge _ _ _ _ ht0 ht1 (le_refl _) hlb
      linarith
  · rcases hcx with h | h <;> rw [h] at hxl hxr <;> linarith

/-- An east-cast ray segment stays out of every properly placed
obstacle's interior. -/
theorem eastRay_avoids (A : Arena) (pt : Node) (area : Rect) (quads : List Quad)
    (o : ObstacleSpec) (hWFo : obstacleWF o)
    (hOk : PtOkFor pt.pt o)
    (hmatch : ∃ q ∈ quads, QuadMatches A q o)
    (hg1 : pt.east = none) (hg2 : pt.verticalOnly = false)
    (harea : pt.x ≤ area.x + area.w) :
    segAvoids pt.pt ⟨(rayExtents A pt area quads).2.2.2, pt.y⟩ o := by
  intro t ht0 ht1 hin
  obtain ⟨hxl, hxr, hyt, hyb⟩ := hin
  have hsy : (segPoint pt.pt ⟨(rayExtents A pt area quads).2.2.2, pt.y⟩ t).y = pt.y := by
    show pt.y + t * (pt.y - pt.y) = pt.y
    ring
  have hsx : (segPoint pt.pt ⟨(rayExtents A pt area quads).2.2.2, pt.y⟩ t).x =
      pt.x + t * ((rayExtents A pt area quads).2.2.2 - pt.x) := rfl
  rw [hsy] at hyt hyb
  rw [hsx] at hxl hxr
  obtain ⟨w1, w2, w3, w4, w5, w6⟩ := hWFo
  have hOk2 : (pt.x < o.tl.x ∨ pt.x > o.tr.x ∨ pt.y < o.tl.y ∨ pt.y > o.bl.y) ∨
      ((pt.x = o.tl.x ∨ pt.x = o.tr.x) ∧ (pt.y = o.tl.y ∨ pt.y = o.bl.y)) := hOk
  rcases hOk2 with hout | ⟨hcx, hcy⟩
  · rcases hout with h | h | h | h
    · obtain ⟨q, hqmem, hqm⟩ := hmatch
      have htlx : (A.nd q.tl).x = o.tl.x := congrArg Pt.x hqm.1
      have htly : (A.nd q.tl).y = o.tl.y := congrArg Pt.y hqm.1
      have hbly : (A.nd q.bl).y = o.bl.y := congrArg Pt.y hqm.2.2.1
      have hfired := extFold_east_fired A pt q hg1 hg2 (by rw [htly]; linarith)
        (by rw [hbly]; linarith) (by rw [htlx]; exact h) quads hqmem
        (area.y, area.y + area.h, area.x, area.x + area.w)
      rw [htlx] at hfired
      have hle : pt.x + t * ((rayExtents A pt area quads).2.2.2 - pt.x) ≤ o.tl.x :=
        convex_le _ _ _ _ ht0 ht1 (le_of_lt h) hfired
      linarith
    · have hlb : pt.x ≤ (rayExtents A pt area quads).2.2.2 :=
        extFold_east_ge A pt quads (area.y, area.y + area.h, area.x, area.x + area.w) harea
      have hge : pt.x ≤ pt.x + t * ((rayExtents A pt area quads).2.2.2 - pt.x) :=
        convex_ge _ _ _ _ ht0 ht1 (le_refl _) hlb
      linarith
    · linarith
    · linarith
  · rcases hcy with h | h <;> rw [h] at hyt hyb <;> linarith

/-- A west-cast ray segment stays out of every properly placed
obstacle's interior. -/
theorem westRay_avoids (A : Arena) (pt : Node) (area : Rect) (quads : List Quad)
    (o : ObstacleSpec) (hWFo : obstacleWF o)
    (hOk : PtOkFor pt.pt o)
    (hmatch : ∃ q ∈ quads, QuadMatches A q o)
    (hg1 : pt.west = none) (hg2 : pt.verticalOnly = false)
    (harea : area.x ≤ pt.x) :
    segAvoids pt.pt ⟨(rayExtents A pt area quads).2.2.1, pt.y⟩ o := by
  intro t ht0 ht1 hin
  obtain ⟨hxl, hxr, hyt, hyb⟩ := hin
  have hsy : (segPoint pt.pt ⟨(rayExtents A pt area quads).2.2.1, pt.y⟩ t).y = pt.y := by
    show pt.y + t * (pt.y - pt.y) = pt.y
    ring
  have hsx : (segPoint pt.pt ⟨(rayExtents A pt area quads).2.2.1, pt.y⟩ t).x =
      pt.x + t * ((rayExtents A pt area quads).2.2.1 - pt.x) := rfl
  rw [hsy] at hyt hyb
  rw [hsx] at hxl hxr
  obtain ⟨w1, w2, w3, w4, w5, w6⟩ := hWFo
  have hOk2 : (pt.x < o.tl.x ∨ pt.x > o.tr.x ∨ pt.y < o.tl.y ∨ pt.y > o.bl.y) ∨
      ((pt.x = o.tl.x ∨ pt.x = o.tr.x) ∧ (pt.y = o.tl.y ∨ pt.y = o.bl.y)) := hOk
  rcases hOk2 with hout | ⟨hcx, hcy⟩
  · rcases hout with h | h | h | h
    · have hlb : (rayExtents A pt area quads).2.2.1 ≤ pt.x :=
        extFold_west_le A pt quads (area.y, area.y + area.h, area.x, area.x + area.w) harea
      have hle : pt.x + t * ((rayExtents A pt area quads).2.2.1 - pt.x) ≤ pt.x :=
        convex_le _ _ _ _ ht0 ht1 (le_refl _) hlb
      linarith
    · obtain ⟨q, hqmem, hqm⟩ := hmatch
      have htrx : (A.nd q.tr).x = o.tr.x := congrArg Pt.x hqm.2.1
      have htly : (A.nd q.tl).y = o.tl.y := congrArg Pt.y hqm.1
      have hbly : (A.nd q.bl).y = o.bl.y := congrArg Pt.y hqm.2.2.1
      have hfired := extFold_west_fired A pt q hg1 hg2 (by rw [htly]; linarith)
        (by rw [hbly]; linarith) (by rw [htrx]; exact h) quads hqmem
        (area.y, area.y + area.h, area.x, area.x + area.w)
      rw [htrx] at hfired
      have hge : o.tr.x ≤ pt.x + t * ((rayExtents A pt area quads).2.2.1 - pt.x) :=
        convex_ge _ _ _ _ ht0 ht1 (le_of_lt h) hfired
      linarith
    · linarith
    · linarith
  · rcases hcy with h | h <;> rw [h] at hyt hyb <;> linarith

/-- Overwriting a node without moving it keeps every point. -/
theorem setNode_pt (A : Arena) (j : Nat) (v : Node) (hx : v.x = (A.nd j).x)
    (hy : v.y = (A.nd j).y) (i : Nat) : ((setNode A j v).nd i).pt = (A.nd i).pt := by
  rw [setNode_nd]
  split_ifs with h
  · unfold Node.pt
    rw [hx, hy, h]
  · rfl

/-- Corner wiring never moves any point. -/
theorem wireObstacle_pt (A : Arena) (q : Quad) (i : Nat) :
    ((wireObstacle A q).nd i).pt = (A.nd i).pt := by
  unfold wireObstacle
  simp only [setNode_nd]
  split_ifs <;> simp_all [Node.pt]

/-- The obstacle pass never moves any point. -/
theorem obstaclesPass_ptAll (qs : List Quad) :
    ∀ (acc : FindAcc) (i : Nat),
      ((qs.foldl obstaclesPassStep acc).A.nd i).pt = (acc.A.nd i).pt := by
  induction qs with
  | nil => intro acc i; rfl
  | cons q rest ih =>
    intro acc i
    rw [List.foldl_cons, ih]
    exact wireObstacle_pt acc.A q i

/-- The obstacle pass keeps the allocation count. -/
theorem obstaclesPass_szAll (qs : List Quad) :
    ∀ acc : FindAcc, (qs.foldl obstaclesPassStep acc).A.sz = acc.A.sz := by
  induction qs with
  | nil => intro acc; rfl
  | cons q rest ih =>
    intro acc
    rw [List.foldl_cons, ih]
    rfl

/-- Segment soundness transports along point-preserving arena growth. -/
theorem SegsOKFor_transport (obst : List ObstacleSpec) (A B : Arena) (segs : List Seg)
    (hsz : A.sz ≤ B.sz) (hpt : ∀ i, i < A.sz → (B.nd i).pt = (A.nd i).pt)
    (h : SegsOKFor obst A segs) : SegsOKFor obst B segs := by
  intro s hs
  obtain ⟨h1, h2, h3⟩ := h s hs
  refine ⟨by omega, by omega, ?_⟩
  intro o ho
  rw [hpt s.a h1, hpt s.b h2]
  exact h3 o ho

/-- Segment soundness of an appended list. -/
theorem SegsOKFor_append (obst : List ObstacleSpec) (A : Arena) (l1 l2 : List Seg)
    (h1 : SegsOKFor obst A l1) (h2 : SegsOKFor obst A l2) : SegsOKFor obst A (l1 ++ l2) := by
  intro s hs
  rcases List.mem_append.mp hs with h | h
  · exact h1 s h
  · exact h2 s h

/-- Obstacle separation is symmetric. -/
theorem obstaclesApart_symm (o1 o2 : ObstacleSpec) (h : obstaclesApart o1 o2) :
    obstaclesApart o2 o1 := by
  unfold obstaclesApart at *
  tauto

/-- All four corners of a well-formed obstacle lie in its closed
rectangle. -/
theorem corners_inClosed (o : ObstacleSpec) (hWF : obstacleWF o) :
    ptInClosedRect o.tl o ∧ ptInClosedRect o.tr o ∧ ptInClosedRect o.bl o ∧
      ptInClosedRect o.br o := by
  obtain ⟨w1, w2, w3, w4, w5, w6⟩ := hWF
  refine ⟨⟨le_refl _, le_of_lt w5, le_refl _, le_of_lt w6⟩, ?_, ?_, ?_⟩
  · exact ⟨le_of_lt w5, le_refl _, le_of_eq w1.symm, by rw [w1]; exact le_of_lt w6⟩
  · exact ⟨le_of_eq w2.symm, by rw [w2]; exact le_of_lt w5, le_of_lt w6, le_refl _⟩
  · exact ⟨by rw [w3]; exact le_of_lt w5, le_of_eq w3, by rw [w4]; exact le_of_lt w6, le_of_eq w4⟩

/-- A point of one closed obstacle is strictly outside any obstacle
apart from it. -/
theorem closed_apart_outside (p : Pt) (o1 o : ObstacleSpec)
    (hp : ptInClosedRect p o1) (hap : obstaclesApart o1 o) : ptOutsideRect p o := by
  obtain ⟨h1, h2, h3, h4⟩ := hp
  rcases hap with h | h | h | h
  · exact Or.inl (by linarith)
  · exact Or.inr (Or.inl (by linarith))
  · exact Or.inr (Or.inr (Or.inl (by linarith)))
  · exact Or.inr (Or.inr (Or.inr (by linarith)))

/-- The four boundary segments recorded for a wired obstacle avoid the
interior of every obstacle equal to or apart from it. -/
theorem boundarySegs_avoid (A : Arena) (q : Quad) (o1 o : ObstacleSpec)
    (hm : QuadMatches A q o1) (hWF1 : obstacleWF o1)
    (hoo : o = o1 ∨ obstaclesApart o1 o) :
    segAvoids (A.nd q.tl).pt (A.nd q.tr).pt o ∧
    segAvoids (A.nd q.bl).pt (A.nd q.br).pt o ∧
    segAvoids (A.nd q.tl).pt (A.nd q.bl).pt o ∧
    segAvoids (A.nd q.tr).pt (A.nd q.br).pt o := by
  obtain ⟨m1, m2, m3, m4⟩ := hm
  rw [m1, m2, m3, m4]
  obtain ⟨c1, c2, c3, c4⟩ := corners_inClosed o1 hWF1
  obtain ⟨w1, w2, w3, w4, w5, w6⟩ := hWF1
  rcases hoo with rfl | hap
  · exact ⟨segAvoids_constY _ _ _ w1 (Or.inl (le_refl _)),
      segAvoids_constY _ _ _ w4 (Or.inr (le_refl _)),
      segAvoids_constX _ _ _ w2 (Or.inl (le_refl _)),
      segAvoids_constX _ _ _ w3 (Or.inr (le_refl _))⟩
  · exact ⟨segAvoids_apart _ _ _ _ c1 c2 hap, segAvoids_apart _ _ _ _ c3 c4 hap,
      segAvoids_apart _ _ _ _ c1 c3 hap, segAvoids_apart _ _ _ _ c2 c4 hap⟩

/-- Through the obstacle pass, both segment lists stay sound for every
obstacle. -/
theorem obstaclesPass_segsOK (obst : List ObstacleSpec) (qs : List Quad) :
    ∀ (acc : FindAcc),
      SegsOKFor obst acc.A acc.hsegs → SegsOKFor obst acc.A acc.vsegs →
      (∀ q ∈ qs, (q.tl < acc.A.sz ∧ q.tr < acc.A.sz ∧ q.bl < acc.A.sz ∧ q.br < acc.A.sz) ∧
        ∃ o1, obstacleWF o1 ∧ QuadMatches acc.A q o1 ∧ ∀ o ∈ obst, o = o1 ∨ obstaclesApart o1 o) →
      SegsOKFor obst (qs.foldl obstaclesPassStep acc).A (qs.foldl obstaclesPassStep acc).hsegs ∧
      SegsOKFor obst (qs.foldl obstaclesPassStep acc).A (qs.foldl obstaclesPassStep acc).vsegs := by
  induction qs with
  | nil => intro acc h1 h2 _; exact ⟨h1, h2⟩
  | cons q rest ih =>
    intro acc h1 h2 hq
    rw [List.foldl_cons]
    obtain ⟨⟨b1, b2, b3, b4⟩, o1, hWF1, hm, ho1⟩ := hq q (List.mem_cons_self q rest)
    have hpt : ∀ i, ((obstaclesPassStep acc q).A.nd i).pt = (acc.A.nd i).pt :=
      fun i => wireObstacle_pt acc.A q i
    have hav := fun o ho => boundarySegs_avoid acc.A q o1 o hm hWF1 (ho1 o ho)
    refine ih _ ?_ ?_ ?_
    · show SegsOKFor obst (obstaclesPassStep acc q).A (acc.hsegs ++ [⟨q.tl, q.tr⟩, ⟨q.bl, q.br⟩])
      refine SegsOKFor_append _ _ _ _
        (SegsOKFor_transport obst acc.A (obstaclesPassStep acc q).A acc.hsegs
          (le_of_eq rfl) (fun i _ => hpt i) h1) ?_
      intro s hs
      rcases List.mem_cons.mp hs with rfl | hs2
      · exact ⟨b1, b2, fun o ho => by rw [hpt, hpt]; exact (hav o ho).1⟩
      · rcases List.mem_cons.mp hs2 with rfl | hs3
        · exact ⟨b3, b4, fun o ho => by rw [hpt, hpt]; exact (hav o ho).2.1⟩
        · cases hs3
    · show SegsOKFor obst (obstaclesPassStep acc q).A (acc.vsegs ++ [⟨q.tl, q.bl⟩, ⟨q.tr, q.br⟩])
      refine SegsOKFor_append _ _ _ _
        (SegsOKFor_transport obst acc.A (obstaclesPassStep acc q).A acc.vsegs
          (le_of_eq rfl) (fun i _ => hpt i) h2) ?_
      intro s hs
      rcases List.mem_cons.mp hs with rfl | hs2
      · exact ⟨b1, b3, fun o ho => by rw [hpt, hpt]; exact (hav o ho).2.2.1⟩
      · rcases List.mem_cons.mp hs2 with rfl | hs3
        · exact ⟨b2, b4, fun o ho => by rw [hpt, hpt]; exact (hav o ho).2.2.2⟩
        · cases hs3
    · intro r hr
      obtain ⟨hb, o2, hWF2, hm2, ho2⟩ := hq r (List.mem_cons_of_mem _ hr)
      refine ⟨hb, o2, hWF2, ?_, ho2⟩
      exact ⟨(hpt _).trans hm2.1, (hpt _).trans hm2.2.1, (hpt _).trans hm2.2.2.1,
        (hpt _).trans hm2.2.2.2⟩

/-- Every point of interest after the obstacle pass is an original one
or a corner of a processed quadruple. -/
theorem obstaclesPass_poiMem (qs : List Quad) :
    ∀ (acc : FindAcc) (p : Nat), p ∈ (qs.foldl obstaclesPassStep acc).poi →
      p ∈ acc.poi ∨ ∃ q ∈ qs, p = q.tl ∨ p = q.tr ∨ p = q.bl ∨ p = q.br := by
  induction qs with
  | nil => intro acc p h; exact Or.inl h
  | cons q rest ih =>
    intro acc p h
    rw [List.foldl_cons] at h
    rcases ih _ p h with hmem | ⟨r, hr, hor⟩
    · have hmem2 : p ∈ acc.poi ++ [q.tl, q.tr, q.bl, q.br] := hmem
      rcases List.mem_append.mp hmem2 with hx | hx
      · exact Or.inl hx
      · simp only [List.mem_cons, List.not_mem_nil, or_false] at hx
        exact Or.inr ⟨q, List.mem_cons_self q rest, hx⟩
    · exact Or.inr ⟨r, List.mem_cons_of_mem _ hr, hor⟩

/-- Characterization of the north-ray block: identity, or a fresh
terminal with recorded segment. -/
theorem rayStepNorth_char (p : Nat) (ext : ℚ) (st : RayState) (hp : p < st.A.sz) :
    (rayStepNorth p ext st = st) ∨
    (((st.A.nd p).north = none ∧ (st.A.nd p).horizontalOnly = false) ∧
      (rayStepNorth p ext st).hsegs = st.hsegs ∧
      (rayStepNorth p ext st).vsegs = st.vsegs ++ [⟨p, st.A.sz⟩] ∧
      (rayStepNorth p ext st).A.sz = st.A.sz + 1 ∧
      ((rayStepNorth p ext st).A.nd st.A.sz).pt = ⟨(st.A.nd p).x, ext⟩ ∧
      ((rayStepNorth p ext st).A.nd p).pt = (st.A.nd p).pt ∧
      ((rayStepNorth p ext st).A.nd p).south = (st.A.nd p).south ∧
      ((rayStepNorth p ext st).A.nd p).east = (st.A.nd p).east ∧
      ((rayStepNorth p ext st).A.nd p).west = (st.A.nd p).west ∧
      ((rayStepNorth p ext st).A.nd p).horizontalOnly = (st.A.nd p).horizontalOnly ∧
      ((rayStepNorth p ext st).A.nd p).verticalOnly = (st.A.nd p).verticalOnly ∧
      (∀ i, i ≠ p → i ≠ st.A.sz → (rayStepNorth p ext st).A.nd i = st.A.nd i)) := by
  unfold rayStepNorth
  split
  · rename_i hg
    right
    refine ⟨hg, rfl, rfl, rfl, ?_, ?_, ?_, ?_, ?_, ?_, ?_, ?_⟩
    · simp only [setNode_nd, pushNode_nd]
      rw [if_neg (by omega : ¬st.A.sz = p), if_true]
      rfl
    · simp only [setNode_nd, pushNode_nd]
      rw [if_true, if_neg (by omega : ¬p = st.A.sz)]
      rfl
    · simp only [setNode_nd, pushNode_nd]
      rw [if_true, if_neg (by omega : ¬p = st.A.sz)]
    · simp only [setNode_nd, pushNode_nd]
      rw [if_true, if_neg (by omega : ¬p = st.A.sz)]
    · simp only [setNode_nd, pushNode_nd]
      rw [if_true, if_neg (by omega : ¬p = st.A.sz)]
    · simp only [setNode_nd, pushNode_nd]
      rw [if_true, if_neg (by omega : ¬p = st.A.sz)]
    · simp only [setNode_nd, pushNode_nd]
      rw [if_true, if_neg (by omega : ¬p = st.A.sz)]
    · intro i hip hisz
      simp only [setNode_nd, pushNode_nd]
      rw [if_neg hip, if_neg hisz]
  · left
    rfl

/-- The north-ray block grows the arena and moves nothing. -/
theorem rayStepNorth_props (p : Nat) (ext : ℚ) (st : RayState) (hp : p < st.A.sz) :
    st.A.sz ≤ (rayStepNorth p ext st).A.sz ∧
    (∀ i, i < st.A.sz → ((rayStepNorth p ext st).A.nd i).pt = (st.A.nd i).pt) ∧
    ((rayStepNorth p ext st).A.nd p).south = (st.A.nd p).south ∧
    ((rayStepNorth p ext st).A.nd p).east = (st.A.nd p).east ∧
    ((rayStepNorth p ext st).A.nd p).west = (st.A.nd p).west ∧
    ((rayStepNorth p ext st).A.nd p).horizontalOnly = (st.A.nd p).horizontalOnly ∧
    ((rayStepNorth p ext st).A.nd p).verticalOnly = (st.A.nd p).verticalOnly := by
  rcases rayStepNorth_char p ext st hp with he | ⟨hg, e1, e2, e3, e4, e5, e6, e7, e8, e9, e10, e11⟩
  · rw [he]
    exact ⟨le_refl _, fun i _ => rfl, rfl, rfl, rfl, rfl, rfl⟩
  · refine ⟨by omega, ?_, e6, e7, e8, e9, e10⟩
    intro i hi
    by_cases hip : i = p
    · subst hip
      exact e5
    · rw [e11 i hip (by omega)]

/-- The north-ray block keeps both segment lists sound when the cast
segment avoids every obstacle. -/
theorem rayStepNorth_segsOK3 (obst : List ObstacleSpec) (p : Nat) (ext : ℚ) (st : RayState)
    (hp : p < st.A.sz)
    (h1 : SegsOKFor obst st.A st.hsegs) (h2 : SegsOKFor obst st.A st.vsegs)
    (hnew : (st.A.nd p).north = none → (st.A.nd p).horizontalOnly = false →
      ∀ o ∈ obst, segAvoids (st.A.nd p).pt ⟨(st.A.nd p).x, ext⟩ o) :
    SegsOKFor obst (rayStepNorth p ext st).A (rayStepNorth p ext st).hsegs ∧
    SegsOKFor obst (rayStepNorth p ext st).A (rayStepNorth p ext st).vsegs := by
  rcases rayStepNorth_char p ext st hp with he | ⟨hg, e1, e2, e3, e4, e5, e6, e7, e8, e9, e10, e11⟩
  · rw [he]
    exact ⟨h1, h2⟩
  · have hptf : ∀ i, i < st.A.sz → ((rayStepNorth p ext st).A.nd i).pt = (st.A.nd i).pt := by
      intro i hi
      by_cases hip : i = p
      · subst hip
        exact e5
      · rw [e11 i hip (by omega)]
    have hnewseg : SegsOKFor obst (rayStepNorth p ext st).A [⟨p, st.A.sz⟩] := by
      intro s hs
      obtain rfl := List.mem_singleton.mp hs
      refine ⟨?_, ?_, ?_⟩
      · show p < (rayStepNorth p ext st).A.sz
        omega
      · show st.A.sz < (rayStepNorth p ext st).A.sz
        omega
      · intro o ho
        show segAvoids ((rayStepNorth p ext st).A.nd p).pt
          ((rayStepNorth p ext st).A.nd st.A.sz).pt o
        rw [e5, e4]
        exact hnew hg.1 hg.2 o ho
    constructor
    · rw [e1]
      exact SegsOKFor_transport obst st.A _ st.hsegs (by omega) hptf h1
    · rw [e2]
      exact SegsOKFor_append _ _ _ _ (SegsOKFor_transport obst st.A _ st.vsegs (by omega) hptf h2) hnewseg


/-- Characterization of the south-ray block: identity, or a fresh
terminal with recorded segment. -/
theorem rayStepSouth_char (p : Nat) (ext : ℚ) (st : RayState) (hp : p < st.A.sz) :
    (rayStepSouth p ext st = st) ∨
    (((st.A.nd p).south = none ∧ (st.A.nd p).horizontalOnly = false) ∧
      (rayStepSouth p ext st).hsegs = st.hsegs ∧
      (rayStepSouth p ext st).vsegs = st.vsegs ++ [⟨p, st.A.sz⟩] ∧
      (rayStepSouth p ext st).A.sz = st.A.sz + 1 ∧
      ((rayStepSouth p ext st).A.nd st.A.sz).pt = ⟨(st.A.nd p).x, ext⟩ ∧
      ((rayStepSouth p ext st).A.nd p).pt = (st.A.nd p).pt ∧
      ((rayStepSouth p ext st).A.nd p).north = (st.A.nd p).north ∧
      ((rayStepSouth p ext st).A.nd p).east = (st.A.nd p).east ∧
      ((rayStepSouth p ext st).A.nd p).west = (st.A.nd p).west ∧
      ((rayStepSouth p ext st).A.nd p).horizontalOnly = (st.A.nd p).horizontalOnly ∧
      ((rayStepSouth p ext st).A.nd p).verticalOnly = (st.A.nd p).verticalOnly ∧
      (∀ i, i ≠ p → i ≠ st.A.sz → (rayStepSouth p ext st).A.nd i = st.A.nd i)) := by
  unfold rayStepSouth
  split
  · rename_i hg
    right
    refine ⟨hg, rfl, rfl, rfl, ?_, ?_, ?_, ?_, ?_, ?_, ?_, ?_⟩
    · simp only [setNode_nd, pushNode_nd]
      rw [if_neg (by omega : ¬st.A.sz = p), if_true]
      rfl
    · simp only [setNode_nd, pushNode_nd]
      rw [if_true, if_neg (by omega : ¬p = st.A.sz)]
      rfl
    · simp only [setNode_nd, pushNode_nd]
      rw [if_true, if_neg (by omega : ¬p = st.A.sz)]
    · simp only [setNode_nd, pushNode_nd]
      rw [if_true, if_neg (by omega : ¬p = st.A.sz)]
    · simp only [setNode_nd, pushNode_nd]
      rw [if_true, if_neg (by omega : ¬p = st.A.sz)]
    · simp only [setNode_nd, pushNode_nd]
      rw [if_true, if_neg (by omega : ¬p = st.A.sz)]
    · simp only [setNode_nd, pushNode_nd]
      rw [if_true, if_neg (by omega : ¬p = st.A.sz)]
    · intro i hip hisz
      simp only [setNode_nd, pushNode_nd]
      rw [if_neg hip, if_neg hisz]
  · left
    rfl

/-- The south-ray block grows the arena and moves nothing. -/
theorem rayStepSouth_props (p : Nat) (ext : ℚ) (st : RayState) (hp : p < st.A.sz) :
    st.A.sz ≤ (rayStepSouth p ext st).A.sz ∧
    (∀ i, i < st.A.sz → ((rayStepSouth p ext st).A.nd i).pt = (st.A.nd i).pt) ∧
    ((rayStepSouth p ext st).A.nd p).north = (st.A.nd p).north ∧
    ((rayStepSouth p ext st).A.nd p).east = (st.A.nd p).east ∧
    ((rayStepSouth p ext st).A.nd p).west = (st.A.nd p).west ∧
    ((rayStepSouth p ext st).A.nd p).horizontalOnly = (st.A.nd p).horizontalOnly ∧
    ((rayStepSouth p ext st).A.nd p).verticalOnly = (st.A.nd p).verticalOnly := by
  rcases rayStepSouth_char p ext st hp with he | ⟨hg, e1, e2, e3, e4, e5, e6, e7, e8, e9, e10, e11⟩
  · rw [he]
    exact ⟨le_refl _, fun i _ => rfl, rfl, rfl, rfl, rfl, rfl⟩
  · refine ⟨by omega, ?_, e6, e7, e8, e9, e10⟩
    intro i hi
    by_cases hip : i = p
    · subst hip
      exact e5
    · rw [e11 i hip (by omega)]

/-- The south-ray block keeps both segment lists sound when the cast
segment avoids every obstacle. -/
theorem rayStepSouth_segsOK3 (obst : List ObstacleSpec) (p : Nat) (ext : ℚ) (st : RayState)
    (hp : p < st.A.sz)
    (h1 : SegsOKFor obst st.A st.hsegs) (h2 : SegsOKFor obst st.A st.vsegs)
    (hnew : (st.A.nd p).south = none → (st.A.nd p).horizontalOnly = false →
      ∀ o ∈ obst, segAvoids (st.A.nd p).pt ⟨(st.A.nd p).x, ext⟩ o) :
    SegsOKFor obst (rayStepSouth p ext st).A (rayStepSouth p ext st).hsegs ∧
    SegsOKFor obst (rayStepSouth p ext st).A (rayStepSouth p ext st).vsegs := by
  rcases rayStepSouth_char p ext st hp with he | ⟨hg, e1, e2, e3, e4, e5, e6, e7, e8, e9, e10, e11⟩
  · rw [he]
    exact ⟨h1, h2⟩
  · have hptf : ∀ i, i < st.A.sz → ((rayStepSouth p ext st).A.nd i).pt = (st.A.nd i).pt := by
      intro i hi
      by_cases hip : i = p
      · subst hip
        exact e5
      · rw [e11 i hip (by omega)]
    have hnewseg : SegsOKFor obst (rayStepSouth p ext st).A [⟨p, st.A.sz⟩] := by
      intro s hs
      obtain rfl := List.mem_singleton.mp hs
      refine ⟨?_, ?_, ?_⟩
      · show p < (rayStepSouth p ext st).A.sz
        omega
      · show st.A.sz < (rayStepSouth p ext st).A.sz
        omega
      · intro o ho
        show segAvoids ((rayStepSouth p ext st).A.nd p).pt
          ((rayStepSouth p ext st).A.nd st.A.sz).pt o
        rw [e5, e4]
        exact hnew hg.1 hg.2 o ho
    constructor
    · rw [e1]
      exact SegsOKFor_transport obst st.A _ st.hsegs (by omega) hptf h1
    · rw [e2]
      exact SegsOKFor_append _ _ _ _ (SegsOKFor_transport obst st.A _ st.vsegs (by omega) hptf h2) hnewseg


/-- Characterization of the east-ray block: identity, or a fresh
terminal with recorded segment. -/
theorem rayStepEast_char (p : Nat) (ext : ℚ) (st : RayState) (hp : p < st.A.sz) :
    (rayStepEast p ext st = st) ∨
    (((st.A.nd p).east = none ∧ (st.A.nd p).verticalOnly = false) ∧
      (rayStepEast p ext st).vsegs = st.vsegs ∧
      (rayStepEast p ext st).hsegs = st.hsegs ++ [⟨p, st.A.sz⟩] ∧
      (rayStepEast p ext st).A.sz = st.A.sz + 1 ∧
      ((rayStepEast p ext st).A.nd st.A.sz).pt = ⟨ext, (st.A.nd p).y⟩ ∧
      ((rayStepEast p ext st).A.nd p).pt = (st.A.nd p).pt ∧
      ((rayStepEast p ext st).A.nd p).north = (st.A.nd p).north ∧
      ((rayStepEast p ext st).A.nd p).south = (st.A.nd p).south ∧
      ((rayStepEast p ext st).A.nd p).west = (st.A.nd p).west ∧
      ((rayStepEast p ext st).A.nd p).horizontalOnly = (st.A.nd p).horizontalOnly ∧
      ((rayStepEast p ext st).A.nd p).verticalOnly = (st.A.nd p).verticalOnly ∧
      (∀ i, i ≠ p → i ≠ st.A.sz → (rayStepEast p ext st).A.nd i = st.A.nd i)) := by
  unfold rayStepEast
  split
  · rename_i hg
    right
    refine ⟨hg, rfl, rfl, rfl, ?_, ?_, ?_, ?_, ?_, ?_, ?_, ?_⟩
    · simp only [setNode_nd, pushNode_nd]
      rw [if_neg (by omega : ¬st.A.sz = p), if_true]
      rfl
    · simp only [setNode_nd, pushNode_nd]
      rw [if_true, if_neg (by omega : ¬p = st.A.sz)]
      rfl
    · simp only [setNode_nd, pushNode_nd]
      rw [if_true, if_neg (by omega : ¬p = st.A.sz)]
    · simp only [setNode_nd, pushNode_nd]
      rw [if_true, if_neg (by omega : ¬p = st.A.sz)]
    · simp only [setNode_nd, pushNode_nd]
      rw [if_true, if_neg (by omega : ¬p = st.A.sz)]
    · simp only [setNode_nd, pushNode_nd]
      rw [if_true, if_neg (by omega : ¬p = st.A.sz)]
    · simp only [setNode_nd, pushNode_nd]
      rw [if_true, if_neg (by omega : ¬p = st.A.sz)]
    · intro i hip hisz
      simp only [setNode_nd, pushNode_nd]
      rw [if_neg hip, if_neg hisz]
  · left
    rfl

/-- The east-ray block grows the arena and moves nothing. -/
theorem rayStepEast_props (p : Nat) (ext : ℚ) (st : RayState) (hp : p < st.A.sz) :
    st.A.sz ≤ (rayStepEast p ext st).A.sz ∧
    (∀ i, i < st.A.sz → ((rayStepEast p ext st).A.nd i).pt = (st.A.nd i).pt) ∧
    ((rayStepEast p ext st).A.nd p).north = (st.A.nd p).north ∧
    ((rayStepEast p ext st).A.nd p).south = (st.A.nd p).south ∧
    ((rayStepEast p ext st).A.nd p).west = (st.A.nd p).west ∧
    ((rayStepEast p ext st).A.nd p).horizontalOnly = (st.A.nd p).horizontalOnly ∧
    ((rayStepEast p ext st).A.nd p).verticalOnly = (st.A.nd p).verticalOnly := by
  rcases rayStepEast_char p ext st hp with he | ⟨hg, e1, e2, e3, e4, e5, e6, e7, e8, e9, e10, e11⟩
  · rw [he]
    exact ⟨le_refl _, fun i _ => rfl, rfl, rfl, rfl, rfl, rfl⟩
  · refine ⟨by omega, ?_, e6, e7, e8, e9, e10⟩
    intro i hi
    by_cases hip : i = p
    · subst hip
      exact e5
    · rw [e11 i hip (by omega)]

/-- The east-ray block keeps both segment lists sound when the cast
segment avoids every obstacle. -/
theorem rayStepEast_segsOK3 (obst : List ObstacleSpec) (p : Nat) (ext : ℚ) (st : RayState)
    (hp : p < st.A.sz)
    (h1 : SegsOKFor obst st.A st.hsegs) (h2 : SegsOKFor obst st.A st.vsegs)
    (hnew : (st.A.nd p).east = none → (st.A.nd p).verticalOnly = false →
      ∀ o ∈ obst, segAvoids (st.A.nd p).pt ⟨ext, (st.A.nd p).y⟩ o) :
    SegsOKFor obst (rayStepEast p ext st).A (rayStepEast p ext st).hsegs ∧
    SegsOKFor obst (rayStepEast p ext st).A (rayStepEast p ext st).vsegs := by
  rcases rayStepEast_char p ext st hp with he | ⟨hg, e1, e2, e3, e4, e5, e6, e7, e8, e9, e10, e11⟩
  · rw [he]
    exact ⟨h1, h2⟩
  · have hptf : ∀ i, i < st.A.sz → ((rayStepEast p ext st).A.nd i).pt = (st.A.nd i).pt := by
      intro i hi
      by_cases hip : i = p
      · subst hip
        exact e5
      · rw [e11 i hip (by omega)]
    have hnewseg : SegsOKFor obst (rayStepEast p ext st).A [⟨p, st.A.sz⟩] := by
      intro s hs
      obtain rfl := List.mem_singleton.mp hs
      refine ⟨?_, ?_, ?_⟩
      · show p < (rayStepEast p ext st).A.sz
        omega
      · show st.A.sz < (rayStepEast p ext st).A.sz
        omega
      · intro o ho
        show segAvoids ((rayStepEast p ext st).A.nd p).pt
          ((rayStepEast p ext st).A.nd st.A.sz).pt o
        rw [e5, e4]
        exact hnew hg.1 hg.2 o ho
    constructor
    · rw [e2]
      exact SegsOKFor_append _ _ _ _ (SegsOKFor_transport obst st.A _ st.hsegs (by omega) hptf h1) hnewseg
    · rw [e1]
      exact SegsOKFor_transport obst st.A _ st.vsegs (by omega) hptf h2


/-- Characterization of the west-ray block: identity, or a fresh
terminal with recorded segment. -/
theorem rayStepWest_char (p : Nat) (ext : ℚ) (st : RayState) (hp : p < st.A.sz) :
    (rayStepWest p ext st = st) ∨
    (((st.A.nd p).west = none ∧ (st.A.nd p).verticalOnly = false) ∧
      (rayStepWest p ext st).vsegs = st.vsegs ∧
      (rayStepWest p ext st).hsegs = st.hsegs ++ [⟨p, st.A.sz⟩] ∧
      (rayStepWest p ext st).A.sz = st.A.sz + 1 ∧
      ((rayStepWest p ext st).A.nd st.A.sz).pt = ⟨ext, (st.A.nd p).y⟩ ∧
      ((rayStepWest p ext st).A.nd p).pt = (st.A.nd p).pt ∧
      ((rayStepWest p ext st).A.nd p).north = (st.A.nd p).north ∧
      ((rayStepWest p ext st).A.nd p).south = (st.A.nd p).south ∧
      ((rayStepWest p ext st).A.nd p).east = (st.A.nd p).east ∧
      ((rayStepWest p ext st).A.nd p).horizontalOnly = (st.A.nd p).horizontalOnly ∧
      ((rayStepWest p ext st).A.nd p).verticalOnly = (st.A.nd p).verticalOnly ∧
      (∀ i, i ≠ p → i ≠ st.A.sz → (rayStepWest p ext st).A.nd i = st.A.nd i)) := by
  unfold rayStepWest
  split
  · rename_i hg
    right
    refine ⟨hg, rfl, rfl, rfl, ?_, ?_, ?_, ?_, ?_, ?_, ?_, ?_⟩
    · simp only [setNode_nd, pushNode_nd]
      rw [if_neg (by omega : ¬st.A.sz = p), if_true]
      rfl
    · simp only [setNode_nd, pushNode_nd]
      rw [if_true, if_neg (by omega : ¬p = st.A.sz)]
      rfl
    · simp only [setNode_nd, pushNode_nd]
      rw [if_true, if_neg (by omega : ¬p = st.A.sz)]
    · simp only [setNode_nd, pushNode_nd]
      rw [if_true, if_neg (by omega : ¬p = st.A.sz)]
    · simp only [setNode_nd, pushNode_nd]
      rw [if_true, if_neg (by omega : ¬p = st.A.sz)]
    · simp only [setNode_nd, pushNode_nd]
      rw [if_true, if_neg (by omega : ¬p = st.A.sz)]
    · simp only [setNode_nd, pushNode_nd]
      rw [if_true, if_neg (by omega : ¬p = st.A.sz)]
    · intro i hip hisz
      simp only [setNode_nd, pushNode_nd]
      rw [if_neg hip, if_neg hisz]
  · left
    rfl

/-- The west-ray block grows the arena and moves nothing. -/
theorem rayStepWest_props (p : Nat) (ext : ℚ) (st : RayState) (hp : p < st.A.sz) :
    st.A.sz ≤ (rayStepWest p ext st).A.sz ∧
    (∀ i, i < st.A.sz → ((rayStepWest p ext st).A.nd i).pt = (st.A.nd i).pt) ∧
    ((rayStepWest p ext st).A.nd p).north = (st.A.nd p).north ∧
    ((rayStepWest p ext st).A.nd p).south = (st.A.nd p).south ∧
    ((rayStepWest p ext st).A.nd p).east = (st.A.nd p).east ∧
    ((rayStepWest p ext st).A.nd p).horizontalOnly = (st.A.nd p).horizontalOnly ∧
    ((rayStepWest p ext st).A.nd p).verticalOnly = (st.A.nd p).verticalOnly := by
  rcases rayStepWest_char p ext st hp with he | ⟨hg, e1, e2, e3, e4, e5, e6, e7, e8, e9, e10, e11⟩
  · rw [he]
    exact ⟨le_refl _, fun i _ => rfl, rfl, rfl, rfl, rfl, rfl⟩
  · refine ⟨by omega, ?_, e6, e7, e8, e9, e10⟩
    intro i hi
    by_cases hip : i = p
    · subst hip
      exact e5
    · rw [e11 i hip (by omega)]

/-- The west-ray block keeps both segment lists sound when the cast
segment avoids every obstacle. -/
theorem rayStepWest_segsOK3 (obst : List ObstacleSpec) (p : Nat) (ext : ℚ) (st : RayState)
    (hp : p < st.A.sz)
    (h1 : SegsOKFor obst st.A st.hsegs) (h2 : SegsOKFor obst st.A st.vsegs)
    (hnew : (st.A.nd p).west = none → (st.A.nd p).verticalOnly = false →
      ∀ o ∈ obst, segAvoids (st.A.nd p).pt ⟨ext, (st.A.nd p).y⟩ o) :
    SegsOKFor obst (rayStepWest p ext st).A (rayStepWest p ext st).hsegs ∧
    SegsOKFor obst (rayStepWest p ext st).A (rayStepWest p ext st).vsegs := by
  rcases rayStepWest_char p ext st hp with he | ⟨hg, e1, e2, e3, e4, e5, e6, e7, e8, e9, e10, e11⟩
  · rw [he]
    exact ⟨h1, h2⟩
  · have hptf : ∀ i, i < st.A.sz → ((rayStepWest p ext st).A.nd i).pt = (st.A.nd i).pt := by
      intro i hi
      by_cases hip : i = p
      · subst hip
        exact e5
      · rw [e11 i hip (by omega)]
    have hnewseg : SegsOKFor obst (rayStepWest p ext st).A [⟨p, st.A.sz⟩] := by
      intro s hs
      obtain rfl := List.mem_singleton.mp hs
      refine ⟨?_, ?_, ?_⟩
      · show p < (rayStepWest p ext st).A.sz
        omega
      · show st.A.sz < (rayStepWest p ext st).A.sz
        omega
      · intro o ho
        show segAvoids ((rayStepWest p ext st).A.nd p).pt
          ((rayStepWest p ext st).A.nd st.A.sz).pt o
        rw [e5, e4]
        exact hnew hg.1 hg.2 o ho
    constructor
    · rw [e2]
      exact SegsOKFor_append _ _ _ _ (SegsOKFor_transport obst st.A _ st.hsegs (by omega) hptf h1) hnewseg
    · rw [e1]
      exact SegsOKFor_transport obst st.A _ st.vsegs (by omega) hptf h2

/-- Ray casting for one acceptable point keeps both segment lists sound
and moves no existing point. -/
theorem addRays_c3 (obst : List ObstacleSpec) (area : Rect) (quads : List Quad)
    (acc : FindAcc) (p : Nat)
    (hp : p < acc.A.sz)
    (hok : ∀ o ∈ obst, obstacleWF o ∧ PtOkFor (acc.A.nd p).pt o)
    (harea : PtInArea (acc.A.nd p).pt area)
    (hmatch : ∀ o ∈ obst, ∃ q ∈ quads, QuadMatches acc.A q o)
    (h1 : SegsOKFor obst acc.A acc.hsegs) (h2 : SegsOKFor obst acc.A acc.vsegs) :
    SegsOKFor obst (addRays area quads acc p).A (addRays area quads acc p).hsegs ∧
    SegsOKFor obst (addRays area quads acc p).A (addRays area quads acc p).vsegs ∧
    acc.A.sz ≤ (addRays area quads acc p).A.sz ∧
    (∀ i, i < acc.A.sz → ((addRays area quads acc p).A.nd i).pt = (acc.A.nd i).pt) := by
  unfold addRays
  set B := if (acc.A.nd p).hasMap then acc.A
    else setNode acc.A p { acc.A.nd p with hasMap := true } with hB
  have hBsz : B.sz = acc.A.sz := by
    rw [hB]
    split
    · rfl
    · rfl
  have hBpt : ∀ i, (B.nd i).pt = (acc.A.nd i).pt := by
    intro i
    rw [hB]
    split
    · rfl
    · exact setNode_pt acc.A p { acc.A.nd p with hasMap := true } rfl rfl i
  have hBfields : (B.nd p).north = (acc.A.nd p).north ∧ (B.nd p).south = (acc.A.nd p).south ∧
      (B.nd p).east = (acc.A.nd p).east ∧ (B.nd p).west = (acc.A.nd p).west ∧
      (B.nd p).horizontalOnly = (acc.A.nd p).horizontalOnly ∧
      (B.nd p).verticalOnly = (acc.A.nd p).verticalOnly := by
    rw [hB]
    split
    · exact ⟨rfl, rfl, rfl, rfl, rfl, rfl⟩
    · rw [setNode_nd, if_pos rfl]
      exact ⟨rfl, rfl, rfl, rfl, rfl, rfl⟩
  have hokB : ∀ o ∈ obst, obstacleWF o ∧ PtOkFor (B.nd p).pt o := by
    intro o ho
    rw [hBpt p]
    exact hok o ho
  have hmatchB : ∀ o ∈ obst, ∃ q ∈ quads, QuadMatches B q o := by
    intro o ho
    obtain ⟨q, hqm, m1, m2, m3, m4⟩ := hmatch o ho
    exact ⟨q, hqm, (hBpt _).trans m1, (hBpt _).trans m2, (hBpt _).trans m3, (hBpt _).trans m4⟩
  have hareaB : area.x ≤ (B.nd p).x ∧ (B.nd p).x ≤ area.x + area.w ∧
      area.y ≤ (B.nd p).y ∧ (B.nd p).y ≤ area.y + area.h := by
    have h0 : PtInArea (B.nd p).pt area := by
      rw [hBpt p]
      exact harea
    exact h0
  have hp0 : p < B.sz := by omega
  set ext := rayExtents B (B.nd p) area quads with hext
  set st0 : RayState := { A := B, hsegs := acc.hsegs, vsegs := acc.vsegs } with hst0
  have hst0sz : st0.A.sz = B.sz := rfl
  have hseg0h : SegsOKFor obst st0.A acc.hsegs :=
    SegsOKFor_transport obst acc.A B acc.hsegs (le_of_eq hBsz.symm) (fun i _ => hBpt i) h1
  have hseg0v : SegsOKFor obst st0.A acc.vsegs :=
    SegsOKFor_transport obst acc.A B acc.vsegs (le_of_eq hBsz.symm) (fun i _ => hBpt i) h2
  have hnewN : (st0.A.nd p).north = none → (st0.A.nd p).horizontalOnly = false →
      ∀ o ∈ obst, segAvoids (st0.A.nd p).pt ⟨(st0.A.nd p).x, ext.1⟩ o := by
    intro hg1 hg2 o ho
    exact northRay_avoids B (B.nd p) area quads o (hokB o ho).1 (hokB o ho).2 (hmatchB o ho)
      hg1 hg2 hareaB.2.2.1
  have hs1 := rayStepNorth_segsOK3 obst p ext.1 st0 hp0 hseg0h hseg0v hnewN
  obtain ⟨t1, f1, pS1, pE1, pW1, pH1, pV1⟩ := rayStepNorth_props p ext.1 st0 hp0
  have hp1 : p < (rayStepNorth p ext.1 st0).A.sz := by omega
  have hpt1 : ((rayStepNorth p ext.1 st0).A.nd p).pt = (B.nd p).pt := f1 p hp0
  have hnewS : ((rayStepNorth p ext.1 st0).A.nd p).south = none →
      ((rayStepNorth p ext.1 st0).A.nd p).horizontalOnly = false →
      ∀ o ∈ obst, segAvoids ((rayStepNorth p ext.1 st0).A.nd p).pt
        ⟨((rayStepNorth p ext.1 st0).A.nd p).x, ext.2.1⟩ o := by
    intro hg1 hg2 o ho
    have hpx : ((rayStepNorth p ext.1 st0).A.nd p).x = (B.nd p).x := congrArg Pt.x hpt1
    rw [hpt1, hpx]
    rw [pS1] at hg1
    rw [pH1] at hg2
    exact southRay_avoids B (B.nd p) area quads o (hokB o ho).1 (hokB o ho).2 (hmatchB o ho)
      hg1 hg2 hareaB.2.2.2
  have hs2 := rayStepSouth_segsOK3 obst p ext.2.1 (rayStepNorth p ext.1 st0) hp1 hs1.1 hs1.2 hnewS
  obtain ⟨t2, f2, pN2, pE2, pW2, pH2, pV2⟩ :=
    rayStepSouth_props p ext.2.1 (rayStepNorth p ext.1 st0) hp1
  have hp2 : p < (rayStepSouth p ext.2.1 (rayStepNorth p ext.1 st0)).A.sz := by omega
  have hpt2 : ((rayStepSouth p ext.2.1 (rayStepNorth p ext.1 st0)).A.nd p).pt = (B.nd p).pt :=
    (f2 p hp1).trans hpt1
  have hnewE : ((rayStepSouth p ext.2.1 (rayStepNorth p ext.1 st0)).A.nd p).east = none →
      ((rayStepSouth p ext.2.1 (rayStepNorth p ext.1 st0)).A.nd p).verticalOnly = false →
      ∀ o ∈ obst, segAvoids ((rayStepSouth p ext.2.1 (rayStepNorth p ext.1 st0)).A.nd p).pt
        ⟨ext.2.2.2, ((rayStepSouth p ext.2.1 (rayStepNorth p ext.1 st0)).A.nd p).y⟩ o := by
    intro hg1 hg2 o ho
    have hpy : ((rayStepSouth p ext.2.1 (rayStepNorth p ext.1 st0)).A.nd p).y = (B.nd p).y :=
      congrArg Pt.y hpt2
    rw [hpt2, hpy]
    rw [pE2, pE1] at hg1
    rw [pV2, pV1] at hg2
    exact eastRay_avoids B (B.nd p) area quads o (hokB o ho).1 (hokB o ho).2 (hmatchB o ho)
      hg1 hg2 hareaB.2.1
  have hs3 := rayStepEast_segsOK3 obst p ext.2.2.2
    (rayStepSouth p ext.2.1 (rayStepNorth p ext.1 st0)) hp2 hs2.1 hs2.2 hnewE
  obtain ⟨t3, f3, pN3, pS3, pW3, pH3, pV3⟩ :=
    rayStepEast_props p ext.2.2.2 (rayStepSouth p ext.2.1 (rayStepNorth p ext.1 st0)) hp2
  have hp3 : p < (rayStepEast p ext.2.2.2
      (rayStepSouth p ext.2.1 (rayStepNorth p ext.1 st0))).A.sz := by omega
  have hpt3 : ((rayStepEast p ext.2.2.2
      (rayStepSouth p ext.2.1 (rayStepNorth p ext.1 st0))).A.nd p).pt = (B.nd p).pt :=
    (f3 p hp2).trans hpt2
  have hnewW : ((rayStepEast p ext.2.2.2
      (rayStepSouth p ext.2.1 (rayStepNorth p ext.1 st0))).A.nd p).west = none →
      ((rayStepEast p ext.2.2.2
        (rayStepSouth p ext.2.1 (rayStepNorth p ext.1 st0))).A.nd p).verticalOnly = false →
      ∀ o ∈ obst, segAvoids ((rayStepEast p ext.2.2.2
        (rayStepSouth p ext.2.1 (rayStepNorth p ext.1 st0))).A.nd p).pt
        ⟨ext.2.2.1, ((rayStepEast p ext.2.2.2
          (rayStepSouth p ext.2.1 (rayStepNorth p ext.1 st0))).A.nd p).y⟩ o := by
    intro hg1 hg2 o ho
    have hpy : ((rayStepEast p ext.2.2.2
        (rayStepSouth p ext.2.1 (rayStepNorth p ext.1 st0))).A.nd p).y = (B.nd p).y :=
      congrArg Pt.y hpt3
    rw [hpt3, hpy]
    rw [pW3, pW2, pW1] at hg1
    rw [pV3, pV2, pV1] at hg2
    exact westRay_avoids B (B.nd p) area quads o (hokB o ho).1 (hokB o ho).2 (hmatchB o ho)
      hg1 hg2 hareaB.1
  have hs4 := rayStepWest_segsOK3 obst p ext.2.2.1 (rayStepEast p ext.2.2.2
    (rayStepSouth p ext.2.1 (rayStepNorth p ext.1 st0))) hp3 hs3.1 hs3.2 hnewW
  obtain ⟨t4, f4, pN4, pS4, pE4, pH4, pV4⟩ := rayStepWest_props p ext.2.2.1
    (rayStepEast p ext.2.2.2 (rayStepSouth p ext.2.1 (rayStepNorth p ext.1 st0))) hp3
  refine ⟨?_, ?_, ?_, ?_⟩
  · exact hs4.1
  · exact hs4.2
  · show acc.A.sz ≤ (rayStepWest p ext.2.2.1 (rayStepEast p ext.2.2.2
      (rayStepSouth p ext.2.1 (rayStepNorth p ext.1 st0)))).A.sz
    omega
  · intro i hi
    show ((rayStepWest p ext.2.2.1 (rayStepEast p ext.2.2.2
      (rayStepSouth p ext.2.1 (rayStepNorth p ext.1 st0)))).A.nd i).pt = (acc.A.nd i).pt
    have hic : i < B.sz := by omega
    exact (f4 i (by omega)).trans ((f3 i (by omega)).trans ((f2 i (by omega)).trans
      ((f1 i (by omega)).trans (hBpt i))))

/-- The ray-casting fold keeps both segment lists sound for acceptable
points. -/
theorem raysFold_c3 (obst : List ObstacleSpec) (area : Rect) (quads : List Quad)
    (l : List Nat) :
    ∀ (acc : FindAcc),
      (∀ p ∈ l, p < acc.A.sz ∧ (∀ o ∈ obst, obstacleWF o ∧ PtOkFor (acc.A.nd p).pt o) ∧
        PtInArea (acc.A.nd p).pt area) →
      (∀ o ∈ obst, ∃ q ∈ quads,
        (q.tl < acc.A.sz ∧ q.tr < acc.A.sz ∧ q.bl < acc.A.sz ∧ q.br < acc.A.sz) ∧
        QuadMatches acc.A q o) →
      SegsOKFor obst acc.A acc.hsegs → SegsOKFor obst acc.A acc.vsegs →
      SegsOKFor obst (l.foldl (addRays area quads) acc).A
        (l.foldl (addRays area quads) acc).hsegs ∧
      SegsOKFor obst (l.foldl (addRays area quads) acc).A
        (l.foldl (addRays area quads) acc).vsegs := by
  induction l with
  | nil => intro acc _ _ h1 h2; exact ⟨h1, h2⟩
  | cons q rest ih =>
    intro acc hpts hqm h1 h2
    rw [List.foldl_cons]
    obtain ⟨hq1, hq2, hq3⟩ := hpts q (List.mem_cons_self q rest)
    obtain ⟨hr1, hr2, hr3, hr4⟩ := addRays_c3 obst area quads acc q hq1 hq2 hq3
      (fun o ho => (hqm o ho).elim (fun r hr => ⟨r, hr.1, hr.2.2⟩)) h1 h2
    refine ih _ ?_ ?_ hr1 hr2
    · intro p hpmem
      obtain ⟨k1, k2, k3⟩ := hpts p (List.mem_cons_of_mem _ hpmem)
      refine ⟨by omega, ?_, ?_⟩
      · intro o ho
        rw [hr4 p k1]
        exact k2 o ho
      · rw [hr4 p k1]
        exact k3
    · intro o ho
      obtain ⟨r, hrmem, hrb, m1, m2, m3, m4⟩ := hqm o ho
      refine ⟨r, hrmem, ⟨by omega, by omega, by omega, by omega⟩, ?_⟩
      exact ⟨(hr4 _ hrb.1).trans m1, (hr4 _ hrb.2.1).trans m2, (hr4 _ hrb.2.2.1).trans m3,
        (hr4 _ hrb.2.2.2).trans m4⟩

/-- Connector coordinates in the fresh arena. -/
theorem mkNodes_conn_pt (conns : List ConnectorSpec) (obst : List ObstacleSpec) (c : Nat)
    (hc : c < conns.length) :
    ((mkNodes conns obst).nd c).pt = ⟨(conns.getD c default).x, (conns.getD c default).y⟩ := by
  unfold mkNodes
  dsimp only
  rw [if_pos hc]
  rfl

/-- Corner coordinates in the fresh arena. -/
theorem mkNodes_corner_pt (conns : List ConnectorSpec) (obst : List ObstacleSpec) (k r : Nat)
    (hk : k < obst.length) (hr : r < 4) :
    ((mkNodes conns obst).nd (conns.length + 4 * k + r)).pt =
      cornerPt (obst.getD k default) r := by
  unfold mkNodes
  dsimp only
  rw [if_neg (by omega), if_pos (by omega)]
  have hdiv : (conns.length + 4 * k + r - conns.length) / 4 = k := by omega
  have hmod : (conns.length + 4 * k + r - conns.length) % 4 = r := by omega
  rw [hdiv, hmod]
  rfl

/-- The ready router keeps the fresh arena's coordinates. -/
theorem readyRouter_pt (conns : List ConnectorSpec) (obst : List ObstacleSpec) (i : Nat) :
    ((readyRouter conns obst).nodes.nd i).pt = ((mkNodes conns obst).nd i).pt := by
  rw [readyRouter_nodes]
  rcases connFold_cases (List.range conns.length) i (mkNodes conns obst) with h | h <;> rw [h]
  rfl

/-- Each corner of a well-formed obstacle: in its closed rectangle, a
corner point of it, and within the area whenever `tl` and `br` are. -/
theorem cornerPt_props (o : ObstacleSpec) (hWF : obstacleWF o) (r : Nat) (hr : r < 4)
    (area : Rect) (hA : PtInArea o.tl area ∧ PtInArea o.br area) :
    ptInClosedRect (cornerPt o r) o ∧ PtCornerOf (cornerPt o r) o ∧
      PtInArea (cornerPt o r) area := by
  obtain ⟨c1, c2, c3, c4⟩ := corners_inClosed o hWF
  obtain ⟨w1, w2, w3, w4, w5, w6⟩ := hWF
  obtain ⟨a1, a2, a3, a4⟩ := hA.1
  obtain ⟨b1, b2, b3, b4⟩ := hA.2
  rcases r with _ | _ | _ | _ | r
  · exact ⟨c1, ⟨Or.inl rfl, Or.inl rfl⟩, hA.1⟩
  · refine ⟨c2, ⟨Or.inr rfl, Or.inl w1⟩, ?_, ?_, ?_, ?_⟩
    · show area.x ≤ o.tr.x
      rw [← w3]; exact b1
    · show o.tr.x ≤ area.x + area.w
      rw [← w3]; exact b2
    · show area.y ≤ o.tr.y
      rw [w1]; exact a3
    · show o.tr.y ≤ area.y + area.h
      rw [w1]; exact a4
  · refine ⟨c3, ⟨Or.inl w2, Or.inr rfl⟩, ?_, ?_, ?_, ?_⟩
    · show area.x ≤ o.bl.x
      rw [w2]; exact a1
    · show o.bl.x ≤ area.x + area.w
      rw [w2]; exact a2
    · show area.y ≤ o.bl.y
      rw [← w4]; exact b3
    · show o.bl.y ≤ area.y + area.h
      rw [← w4]; exact b4
  · exact ⟨c4, ⟨Or.inr w3, Or.inr w4⟩, hA.2⟩
  · omega

/-- The default-read element of a list at a valid index is a member. -/
theorem getD_mem_of_lt {α : Type} [Inhabited α] (l : List α) (k : Nat) (hk : k < l.length) :
    l.getD k default ∈ l := by
  rw [List.getD_eq_getElem l default hk]
  exact List.getElem_mem hk

/-- The corner quadruple of each obstacle slot is listed. -/
theorem cornerQuads_slot_mem (n m k : Nat) (hk : k < m) :
    (⟨n + 4 * k, n + 4 * k + 1, n + 4 * k + 2, n + 4 * k + 3⟩ : Quad) ∈ cornerQuads n m := by
  unfold cornerQuads
  exact List.mem_map.mpr ⟨k, List.mem_range.mpr hk, rfl⟩

/-- Obstacles at distinct slots are apart under the pairwise
hypothesis. -/
theorem apart_of_pairwise (obst : List ObstacleSpec) (hApart : obst.Pairwise obstaclesApart)
    (j k : Nat) (hj : j < obst.length) (hk : k < obst.length) (hjk : j ≠ k) :
    obstaclesApart (obst.getD j default) (obst.getD k default) := by
  have hp := List.pairwise_iff_getElem.mp hApart
  rw [List.getD_eq_getElem obst default hj, List.getD_eq_getElem obst default hk]
  rcases Nat.lt_or_ge j k with h | h
  · exact hp j k hj hk h
  · exact obstaclesApart_symm _ _ (hp k j hk hj (by omega))

set_option maxRecDepth 4000 in
/-- C3 amended: when every obstacle is a well-formed rectangle, the
obstacles are pairwise separated, every connector lies strictly outside
every obstacle, and connectors and obstacles lie within the routing
area, then no segment produced by the segment-finding phase into the
`h` or `v` lists passes through the interior of any obstacle. -/
theorem c3_amended (conns : List ConnectorSpec) (obst : List ObstacleSpec) (area : Rect)
    (hWFo : ∀ o ∈ obst, obstacleWF o)
    (hApart : obst.Pairwise obstaclesApart)
    (hOut : ∀ c ∈ conns, ∀ o ∈ obst, ptOutsideRect ⟨c.x, c.y⟩ o)
    (hConnArea : ∀ c ∈ conns, PtInArea ⟨c.x, c.y⟩ area)
    (hObstArea : ∀ o ∈ obst, PtInArea o.tl area ∧ PtInArea o.br area)
    (s : Seg)
    (hs : s ∈ (findInterestingSegments (readyRouter conns obst).nodes
        (readyRouter conns obst).connectorPoints
        (readyRouter conns obst).obstacleCorners area).hsegs ∨
      s ∈ (findInterestingSegments (readyRouter conns obst).nodes
        (readyRouter conns obst).connectorPoints
        (readyRouter conns obst).obstacleCorners area).vsegs)
    (o : ObstacleSpec) (ho : o ∈ obst) :
    segAvoids ((findInterestingSegments (readyRouter conns obst).nodes
        (readyRouter conns obst).connectorPoints
        (readyRouter conns obst).obstacleCorners area).A.nd s.a).pt
      ((findInterestingSegments (readyRouter conns obst).nodes
        (readyRouter conns obst).connectorPoints
        (readyRouter conns obst).obstacleCorners area).A.nd s.b).pt o := by
  have hsz := readyRouter_sz conns obst
  set acc0 : FindAcc := { A := (readyRouter conns obst).nodes, hsegs := [], vsegs := [], poi := (readyRouter conns obst).connectorPoints } with hacc0
  set quads := cornerQuads conns.length obst.length with hquads
  have hacc0sz : acc0.A.sz = conns.length + 4 * obst.length := hsz
  have hpt0 : ∀ i, (acc0.A.nd i).pt = ((mkNodes conns obst).nd i).pt :=
    fun i => readyRouter_pt conns obst i
  have hquadhyp : ∀ q ∈ quads,
      ((q.tl < acc0.A.sz ∧ q.tr < acc0.A.sz ∧ q.bl < acc0.A.sz ∧ q.br < acc0.A.sz) ∧
        ∃ o1, obstacleWF o1 ∧ QuadMatches acc0.A q o1 ∧
          ∀ o2 ∈ obst, o2 = o1 ∨ obstaclesApart o1 o2) := by
    intro q hq
    rw [hquads] at hq
    obtain ⟨k, hk, rfl⟩ := cornerQuads_mem _ _ q hq
    constructor
    · refine ⟨?_, ?_, ?_, ?_⟩ <;> rw [hacc0sz] <;> dsimp only <;> omega
    · refine ⟨obst.getD k default, hWFo _ (getD_mem_of_lt obst k hk), ?_, ?_⟩
      · refine ⟨?_, ?_, ?_, ?_⟩
        · exact (hpt0 _).trans (mkNodes_corner_pt conns obst k 0 hk (by omega))
        · exact (hpt0 _).trans (mkNodes_corner_pt conns obst k 1 hk (by omega))
        · exact (hpt0 _).trans (mkNodes_corner_pt conns obst k 2 hk (by omega))
        · exact (hpt0 _).trans (mkNodes_corner_pt conns obst k 3 hk (by omega))
      · intro o2 ho2
        obtain ⟨j, hj, hoj⟩ := List.mem_iff_getElem.mp ho2
        by_cases hjk : j = k
        · left
          subst hjk
          rw [List.getD_eq_getElem obst default hj]
          exact hoj.symm
        · right
          have hap := apart_of_pairwise obst hApart k j hk hj (fun h => hjk h.symm)
          rw [List.getD_eq_getElem obst default hj, hoj] at hap
          exact hap
  have hnil : SegsOKFor obst acc0.A [] := by
    intro s2 hs2
    cases hs2
  obtain ⟨hseg1h, hseg1v⟩ := obstaclesPass_segsOK obst quads acc0 hnil hnil hquadhyp
  have hsz1 : (quads.foldl obstaclesPassStep acc0).A.sz = acc0.A.sz :=
    obstaclesPass_szAll quads acc0
  have hpt1 : ∀ i, ((quads.foldl obstaclesPassStep acc0).A.nd i).pt = (acc0.A.nd i).pt :=
    obstaclesPass_ptAll quads acc0
  have hpoi : ∀ p ∈ (quads.foldl obstaclesPassStep acc0).poi,
      p < (quads.foldl obstaclesPassStep acc0).A.sz ∧
      (∀ o2 ∈ obst, obstacleWF o2 ∧
        PtOkFor ((quads.foldl obstaclesPassStep acc0).A.nd p).pt o2) ∧
      PtInArea ((quads.foldl obstaclesPassStep acc0).A.nd p).pt area := by
    intro p hp
    rcases obstaclesPass_poiMem quads acc0 p hp with hc | ⟨q, hq, hor⟩
    · have hc2 : p ∈ List.range conns.length := hc
      have hplt : p < conns.length := List.mem_range.mp hc2
      have hcm : conns.getD p default ∈ conns := getD_mem_of_lt conns p hplt
      have hcpt : ((quads.foldl obstaclesPassStep acc0).A.nd p).pt =
          ⟨(conns.getD p default).x, (conns.getD p default).y⟩ :=
        (hpt1 p).trans ((hpt0 p).trans (mkNodes_conn_pt conns obst p hplt))
      refine ⟨by omega, ?_, ?_⟩
      · intro o2 ho2
        refine ⟨hWFo o2 ho2, ?_⟩
        rw [hcpt]
        exact Or.inl (hOut _ hcm o2 ho2)
      · rw [hcpt]
        exact hConnArea _ hcm
    · rw [hquads] at hq
      obtain ⟨k, hk, rfl⟩ := cornerQuads_mem _ _ q hq
      have hor2 : p = conns.length + 4 * k ∨ p = conns.length + 4 * k + 1 ∨
          p = conns.length + 4 * k + 2 ∨ p = conns.length + 4 * k + 3 := hor
      obtain ⟨r, hr4, rfl⟩ : ∃ r, r < 4 ∧ p = conns.length + 4 * k + r := by
        rcases hor2 with h | h | h | h
        · exact ⟨0, by omega, by omega⟩
        · exact ⟨1, by omega, h⟩
        · exact ⟨2, by omega, h⟩
        · exact ⟨3, by omega, h⟩
      have hWF1 := hWFo _ (getD_mem_of_lt obst k hk)
      obtain ⟨hcl, hcorn, harea1⟩ := cornerPt_props (obst.getD k default) hWF1 r hr4 area
        (hObstArea _ (getD_mem_of_lt obst k hk))
      have hcpt : ((quads.foldl obstaclesPassStep acc0).A.nd
          (conns.length + 4 * k + r)).pt = cornerPt (obst.getD k default) r :=
        (hpt1 _).trans ((hpt0 _).trans (mkNodes_corner_pt conns obst k r hk hr4))
      refine ⟨by omega, ?_, ?_⟩
      · intro o2 ho2
        refine ⟨hWFo o2 ho2, ?_⟩
        rw [hcpt]
        obtain ⟨j, hj, hoj⟩ := List.mem_iff_getElem.mp ho2
        by_cases hjk : j = k
        · right
          have he : obst.getD k default = o2 := by
            subst hjk
            rw [List.getD_eq_getElem obst default hj]
            exact hoj
          rw [← he]
          exact hcorn
        · left
          have hap := apart_of_pairwise obst hApart k j hk hj (fun h => hjk h.symm)
          rw [List.getD_eq_getElem obst default hj, hoj] at hap
          exact closed_apart_outside _ _ _ hcl hap
      · rw [hcpt]
        exact harea1
  have hmatchF : ∀ o2 ∈ obst, ∃ q ∈ quads,
      (q.tl < (quads.foldl obstaclesPassStep acc0).A.sz ∧
        q.tr < (quads.foldl obstaclesPassStep acc0).A.sz ∧
        q.bl < (quads.foldl obstaclesPassStep acc0).A.sz ∧
        q.br < (quads.foldl obstaclesPassStep acc0).A.sz) ∧
      QuadMatches (quads.foldl obstaclesPassStep acc0).A q o2 := by
    intro o2 ho2
    obtain ⟨j, hj, hoj⟩ := List.mem_iff_getElem.mp ho2
    have he : obst.getD j default = o2 := by
      rw [List.getD_eq_getElem obst default hj, hoj]
    refine ⟨⟨conns.length + 4 * j, conns.length + 4 * j + 1, conns.length + 4 * j + 2, conns.length + 4 * j + 3⟩, by rw [hquads]; exact cornerQuads_slot_mem _ _ j hj, ?_, ?_⟩
    · refine ⟨?_, ?_, ?_, ?_⟩ <;> rw [hsz1, hacc0sz] <;> dsimp only <;> omega
    · rw [← he]
      refine ⟨?_, ?_, ?_, ?_⟩
      · exact (hpt1 _).trans ((hpt0 _).trans (mkNodes_corner_pt conns obst j 0 hj (by omega)))
      · exact (hpt1 _).trans ((hpt0 _).trans (mkNodes_corner_pt conns obst j 1 hj (by omega)))
      · exact (hpt1 _).trans ((hpt0 _).trans (mkNodes_corner_pt conns obst j 2 hj (by omega)))
      · exact (hpt1 _).trans ((hpt0 _).trans (mkNodes_corner_pt conns obst j 3 hj (by omega)))
  obtain ⟨hFh, hFv⟩ := raysFold_c3 obst area quads (quads.foldl obstaclesPassStep acc0).poi
    (quads.foldl obstaclesPassStep acc0) hpoi hmatchF hseg1h hseg1v
  have hs2 : s ∈ ((quads.foldl obstaclesPassStep acc0).poi.foldl (addRays area quads)
        (quads.foldl obstaclesPassStep acc0)).hsegs ∨
      s ∈ ((quads.foldl obstaclesPassStep acc0).poi.foldl (addRays area quads)
        (quads.foldl obstaclesPassStep acc0)).vsegs := hs
  rcases hs2 with h | h
  · exact (hFh s h).2.2 o ho
  · exact (hFv s h).2.2 o ho

set_option maxRecDepth 10000 in
/-- Witness instantiating `c3_amended` on the concrete C2 input's first
recorded boundary segment. -/
theorem c3_amended_witness :
    segAvoids ((findInterestingSegments (readyRouter c2conns c2obst).nodes
        (readyRouter c2conns c2obst).connectorPoints
        (readyRouter c2conns c2obst).obstacleCorners c2area).A.nd (Seg.mk 1 2).a).pt
      ((findInterestingSegments (readyRouter c2conns c2obst).nodes
        (readyRouter c2conns c2obst).connectorPoints
        (readyRouter c2conns c2obst).obstacleCorners c2area).A.nd (Seg.mk 1 2).b).pt
      (c2obst.getD 0 default) :=
  c3_amended c2conns c2obst c2area (by decide) (by decide) (by decide) (by decide) (by decide)
    ⟨1, 2⟩ (Or.inl (by decide)) (c2obst.getD 0 default) (by decide)

/-- A failed pop means the open list was empty. -/
theorem popMinIdx_none (A : Arena) (l : List Nat) (h : popMinIdx A l = none) : l = [] := by
  cases l with
  | nil => rfl
  | cons i t =>
    exfalso
    unfold popMinIdx at h
    rcases hrec : popMinIdx A t with _ | p
    · rw [hrec] at h
      simp at h
    · obtain ⟨j, rest⟩ := p
      rw [hrec] at h
      dsimp only at h
      split at h <;> simp at h

/-- A successful pop returns a permutation of the open list. -/
theorem popMinIdx_perm (A : Arena) : ∀ (l : List Nat) (j : Nat) (rest : List Nat),
    popMinIdx A l = some (j, rest) → l.Perm (j :: rest) := by
  intro l
  induction l with
  | nil => intro j rest h; cases h
  | cons i t ih =>
    intro j rest h
    unfold popMinIdx at h
    rcases hrec : popMinIdx A t with _ | ⟨k, rest2⟩
    · rw [hrec] at h
      obtain rfl := popMinIdx_none A t hrec
      dsimp only at h
      obtain ⟨rfl, rfl⟩ := Prod.mk.injEq .. ▸ Option.some.inj h
      exact List.Perm.refl _
    · rw [hrec] at h
      dsimp only at h
      split at h
      · obtain ⟨rfl, rfl⟩ := Prod.mk.injEq .. ▸ Option.some.inj h
        exact List.Perm.refl _
      · obtain ⟨rfl, rfl⟩ := Prod.mk.injEq .. ▸ Option.some.inj h
        exact ((ih k rest2 hrec).cons i).trans (List.Perm.swap k i rest2)

/-- Filtering with a pointwise-smaller predicate gives a shorter list. -/
theorem filter_length_le {α : Type} (l : List α) (p q : α → Bool)
    (hle : ∀ x ∈ l, q x = true → p x = true) :
    (l.filter q).length ≤ (l.filter p).length := by
  induction l with
  | nil => exact le_refl _
  | cons x t ih =>
    have iht := ih (fun y hy => hle y (List.mem_cons_of_mem _ hy))
    simp only [List.filter_cons]
    split_ifs with hq hp hp
    · exact Nat.succ_le_succ iht
    · exact absurd (hle x (List.mem_cons_self _ _) hq) hp
    · exact le_trans iht (Nat.le_succ _)
    · exact iht

/-- Filtering with a pointwise-smaller predicate that loses a member is
strictly shorter. -/
theorem filter_length_lt {α : Type} (l : List α) (p q : α → Bool)
    (hle : ∀ x ∈ l, q x = true → p x = true) (a : α) (ha : a ∈ l)
    (hpa : p a = true) (hqa : q a = false) :
    (l.filter q).length < (l.filter p).length := by
  induction l with
  | nil => cases ha
  | cons x t ih =>
    simp only [List.filter_cons]
    rcases List.mem_cons.mp ha with rfl | hat
    · rw [if_pos hpa, if_neg (by simp [hqa])]
      have := filter_length_le t p q (fun y hy => hle y (List.mem_cons_of_mem _ hy))
      simp only [List.length_cons]
      omega
    · have iht := ih (fun y hy => hle y (List.mem_cons_of_mem _ hy)) hat
      split_ifs with hq hp hp
      · simpa using iht
      · exact absurd (hle x (List.mem_cons_self _ _) hq) hp
      · exact lt_of_lt_of_le iht (Nat.le_succ _)
      · exact iht

/-- Arenas with the same closed flags have the same unclosed count. -/
theorem unclosedCount_congr (A B : Arena) (hsz : B.sz = A.sz)
    (h : ∀ i, i < A.sz → (B.nd i).closed = (A.nd i).closed) :
    unclosedCount B = unclosedCount A := by
  unfold unclosedCount
  rw [hsz]
  apply congrArg List.length
  apply List.filter_congr
  intro i hi
  rw [h i (List.mem_range.mp hi)]

/-- Closing an allocated unclosed node strictly lowers the unclosed
count. -/
theorem unclosedCount_close (A : Arena) (i : Nat) (hi : i < A.sz)
    (hcl : (A.nd i).closed = false) :
    unclosedCount (setNode A i { A.nd i with closed := true }) < unclosedCount A := by
  unfold unclosedCount
  rw [setNode_sz]
  refine filter_length_lt (List.range A.sz) _ _ ?_ i (List.mem_range.mpr hi) ?_ ?_
  · intro x _ hx
    rw [setNode_nd] at hx
    by_cases hxi : x = i
    · rw [if_pos hxi] at hx
      simp at hx
    · rw [if_neg hxi] at hx
      exact hx
  · simp [hcl]
  · rw [setNode_nd, if_pos rfl]
    simp

/-- The unclosed count never exceeds the allocation count. -/
theorem unclosedCount_le (A : Arena) : unclosedCount A ≤ A.sz := by
  unfold unclosedCount
  calc ((List.range A.sz).filter _).length ≤ (List.range A.sz).length :=
        List.length_filter_le _ _
    _ = A.sz := List.length_range A.sz

/-- A listed neighbour reference comes from one of the four entries. -/
theorem mem_neighbourIdxs (n : Node) (j : Nat) (h : j ∈ neighbourIdxs n) :
    n.north = some j ∨ n.south = some j ∨ n.east = some j ∨ n.west = some j := by
  unfold neighbourIdxs at h
  simp only [List.mem_filterMap, List.mem_cons, List.not_mem_nil, or_false, id] at h
  obtain ⟨a, ha, hid⟩ := h
  subst hid
  rcases ha with ha | ha | ha | ha <;> rw [ha] <;> tauto

/-- A directional entry makes a neighbour. -/
theorem isNeighbour_of_entry (A : Arena) (i j : Nat)
    (h : (A.nd i).north = some j ∨ (A.nd i).south = some j ∨
      (A.nd i).east = some j ∨ (A.nd i).west = some j) :
    isNeighbour A i j = true := by
  unfold isNeighbour
  rcases h with h | h | h | h <;> simp [h]

/-- Core agreement carries neighbour entries across arenas. -/
theorem entry_of_core (A B : Arena) (i j : Nat)
    (hcore : ∀ k, sameCore (B.nd k) (A.nd k))
    (h : (B.nd i).north = some j ∨ (B.nd i).south = some j ∨
      (B.nd i).east = some j ∨ (B.nd i).west = some j) :
    (A.nd i).north = some j ∨ (A.nd i).south = some j ∨
      (A.nd i).east = some j ∨ (A.nd i).west = some j := by
  obtain ⟨-, -, hn, hs, he, hw, -⟩ := hcore i
  rcases h with h | h | h | h
  · exact Or.inl (hn ▸ h)
  · exact Or.inr (Or.inl (hs ▸ h))
  · exact Or.inr (Or.inr (Or.inl (he ▸ h)))
  · exact Or.inr (Or.inr (Or.inr (hw ▸ h)))

/-- One neighbour relaxation: closed flags and node cores are
untouched, the open list only grows by fresh visited entries, and every
invariant of the search is maintained. -/
theorem relaxNeighbour_inv (A0 : Arena) (si endIdx cur : Nat)
    (hWF : ∀ i j, isNeighbour A0 i j = true → j < A0.sz)
    (hreach : ReachableFrom A0 si cur)
    (st : LoopState) (j : Nat)
    (hj : isNeighbour A0 cur j = true)
    (hnd : st.openList.Nodup)
    (hmem : ∀ k ∈ st.openList, k < A0.sz ∧ (st.A.nd k).closed = false ∧
      (st.A.nd k).visited = true ∧ ReachableFrom A0 si k) :
    (∀ i, ((relaxNeighbour endIdx cur st j).A.nd i).closed = (st.A.nd i).closed) ∧
    (∀ i, sameCore ((relaxNeighbour endIdx cur st j).A.nd i) (st.A.nd i)) ∧
    (relaxNeighbour endIdx cur st j).A.sz = st.A.sz ∧
    (relaxNeighbour endIdx cur st j).openList.Nodup ∧
    (∀ k ∈ (relaxNeighbour endIdx cur st j).openList, k < A0.sz ∧
      ((relaxNeighbour endIdx cur st j).A.nd k).closed = false ∧
      ((relaxNeighbour endIdx cur st j).A.nd k).visited = true ∧ ReachableFrom A0 si k) := by
  unfold relaxNeighbour
  dsimp only
  split
  · exact ⟨fun i => rfl, fun i => sameCore_refl _, rfl, hnd, hmem⟩
  · rename_i hguard
    have hjlt : j < A0.sz := hWF cur j hj
    have hjreach : ReachableFrom A0 si j := Relation.ReflTransGen.tail hreach hj
    have hjcl : (st.A.nd j).closed = false := by
      rcases hcl : (st.A.nd j).closed with _ | _
      · rfl
      · exact absurd (Or.inl hcl) hguard
    by_cases hupd : (st.A.nd j).visited = false ∨
        (st.A.nd cur).g + edgeWeight st.A (st.A.nd cur) (st.A.nd j) < (st.A.nd j).g
    · rw [if_pos hupd]
      by_cases hpv : (st.A.nd j).visited = true
      · rw [if_pos hpv]
        refine ⟨?_, ?_, rfl, hnd, ?_⟩
        · intro i
          rw [setNode_nd]
          by_cases hij : i = j
          · rw [if_pos hij, hij]
          · rw [if_neg hij]
        · intro i
          rw [setNode_nd]
          by_cases hij : i = j
          · rw [if_pos hij, hij]
            exact ⟨rfl, rfl, rfl, rfl, rfl, rfl, rfl, rfl, rfl, rfl⟩
          · rw [if_neg hij]
            exact sameCore_refl _
        · intro k hk
          obtain ⟨k1, k2, k3, k4⟩ := hmem k hk
          refine ⟨k1, ?_, ?_, k4⟩
          · rw [setNode_nd]
            by_cases hkj : k = j
            · rw [if_pos hkj]
              rw [hkj] at k2
              exact k2
            · rw [if_neg hkj]
              exact k2
          · rw [setNode_nd]
            by_cases hkj : k = j
            · rw [if_pos hkj]
            · rw [if_neg hkj]
              exact k3
      · rw [if_neg hpv]
        refine ⟨?_, ?_, rfl, ?_, ?_⟩
        · intro i
          rw [setNode_nd]
          by_cases hij : i = j
          · rw [if_pos hij, hij]
          · rw [if_neg hij]
        · intro i
          rw [setNode_nd]
          by_cases hij : i = j
          · rw [if_pos hij, hij]
            exact ⟨rfl, rfl, rfl, rfl, rfl, rfl, rfl, rfl, rfl, rfl⟩
          · rw [if_neg hij]
            exact sameCore_refl _
        · rw [List.nodup_append]
          refine ⟨hnd, List.nodup_singleton j, ?_⟩
          intro a ha hb
          rw [List.mem_singleton] at hb
          subst hb
          exact hpv ((hmem a ha).2.2.1)
        · intro k hk
          rcases List.mem_append.mp hk with hk2 | hk2
          · obtain ⟨k1, k2, k3, k4⟩ := hmem k hk2
            refine ⟨k1, ?_, ?_, k4⟩
            · rw [setNode_nd]
              by_cases hkj : k = j
              · rw [if_pos hkj]
                rw [hkj] at k2
                exact k2
              · rw [if_neg hkj]
                exact k2
            · rw [setNode_nd]
              by_cases hkj : k = j
              · rw [if_pos hkj]
              · rw [if_neg hkj]
                exact k3
          · rw [List.mem_singleton] at hk2
            subst hk2
            refine ⟨hjlt, ?_, ?_, hjreach⟩
            · rw [setNode_nd, if_pos rfl]
              exact hjcl
            · rw [setNode_nd, if_pos rfl]
    · rw [if_neg hupd]
      have hpv : (st.A.nd j).visited = true := by
        rcases hv : (st.A.nd j).visited with _ | _
        · exact absurd (Or.inl hv) hupd
        · rfl
      rw [if_pos hpv]
      exact ⟨fun i => rfl, fun i => sameCore_refl _, rfl, hnd, hmem⟩

/-- Folding relaxations over a neighbour list keeps every search
invariant. -/
theorem relaxFold_inv (A0 : Arena) (si endIdx cur : Nat)
    (hWF : ∀ i j, isNeighbour A0 i j = true → j < A0.sz)
    (hreach : ReachableFrom A0 si cur)
    (js : List Nat) :
    ∀ (st : LoopState),
      (∀ j ∈ js, isNeighbour A0 cur j = true) →
      st.openList.Nodup →
      (∀ k ∈ st.openList, k < A0.sz ∧ (st.A.nd k).closed = false ∧
        (st.A.nd k).visited = true ∧ ReachableFrom A0 si k) →
      (∀ i, ((js.foldl (relaxNeighbour endIdx cur) st).A.nd i).closed = (st.A.nd i).closed) ∧
      (∀ i, sameCore ((js.foldl (relaxNeighbour endIdx cur) st).A.nd i) (st.A.nd i)) ∧
      (js.foldl (relaxNeighbour endIdx cur) st).A.sz = st.A.sz ∧
      (js.foldl (relaxNeighbour endIdx cur) st).openList.Nodup ∧
      (∀ k ∈ (js.foldl (relaxNeighbour endIdx cur) st).openList, k < A0.sz ∧
        ((js.foldl (relaxNeighbour endIdx cur) st).A.nd k).closed = false ∧
        ((js.foldl (relaxNeighbour endIdx cur) st).A.nd k).visited = true ∧
        ReachableFrom A0 si k) := by
  induction js with
  | nil => intro st _ hnd hmem; exact ⟨fun i => rfl, fun i => sameCore_refl _, rfl, hnd, hmem⟩
  | cons j rest ih =>
    intro st hjs hnd hmem
    rw [List.foldl_cons]
    obtain ⟨e1, e2, e3, e4, e5⟩ := relaxNeighbour_inv A0 si endIdx cur hWF hreach st j
      (hjs j (List.mem_cons_self _ _)) hnd hmem
    obtain ⟨f1, f2, f3, f4, f5⟩ := ih (relaxNeighbour endIdx cur st j)
      (fun m hm => hjs m (List.mem_cons_of_mem _ hm)) e4 e5
    exact ⟨fun i => (f1 i).trans (e1 i), fun i => sameCore_trans (f2 i) (e2 i),
      f3.trans e3, f4, f5⟩

/-- When the goal is unreachable from every open node, the A* loop with
enough fuel reports no route and leaves every node core and the
allocation count unchanged. -/
theorem aStarLoop_unreach (A0 : Arena) (si endIdx : Nat)
    (hWF : ∀ i j, isNeighbour A0 i j = true → j < A0.sz)
    (hur : ¬ ReachableFrom A0 si endIdx) :
    ∀ (fuel : Nat) (st : LoopState),
      unclosedCount st.A < fuel →
      (∀ i, sameCore (st.A.nd i) (A0.nd i)) →
      st.A.sz = A0.sz →
      st.openList.Nodup →
      (∀ k ∈ st.openList, k < A0.sz ∧ (st.A.nd k).closed = false ∧
        (st.A.nd k).visited = true ∧ ReachableFrom A0 si k) →
      (aStarLoop fuel endIdx st).1 = RouteRes.noRoute ∧
      (∀ i, sameCore ((aStarLoop fuel endIdx st).2.A.nd i) (A0.nd i)) ∧
      (aStarLoop fuel endIdx st).2.A.sz = A0.sz := by
  intro fuel
  induction fuel with
  | zero => intro st hcnt _ _ _ _; omega
  | succ fuel ih =>
    intro st hcnt hcore hsz hnd hmem
    rcases hpop : popMinIdx st.A st.openList with _ | ⟨cur, rest⟩
    · unfold aStarLoop
      rw [hpop]
      exact ⟨rfl, hcore, hsz⟩
    · have hperm := popMinIdx_perm st.A st.openList cur rest hpop
      have hcur : cur ∈ st.openList := hperm.mem_iff.mpr (List.mem_cons_self _ _)
      obtain ⟨hcurlt, hcurcl, hcurv, hcurreach⟩ := hmem cur hcur
      have hcurne : ¬cur = endIdx := fun h => hur (h ▸ hcurreach)
      have hndc : (cur :: rest).Nodup := hperm.nodup hnd
      have hcnr : cur ∉ rest := (List.nodup_cons.mp hndc).1
      have hndr : rest.Nodup := (List.nodup_cons.mp hndc).2
      have hA1cur : (setNode st.A cur { st.A.nd cur with closed := true }).nd cur =
          { st.A.nd cur with closed := true } := by
        rw [setNode_nd, if_pos rfl]
      have hrest : ∀ k ∈ rest, k < A0.sz ∧
          ((setNode st.A cur { st.A.nd cur with closed := true }).nd k).closed = false ∧
          ((setNode st.A cur { st.A.nd cur with closed := true }).nd k).visited = true ∧
          ReachableFrom A0 si k := by
        intro k hk
        have hkmem : k ∈ st.openList := hperm.mem_iff.mpr (List.mem_cons_of_mem _ hk)
        obtain ⟨k1, k2, k3, k4⟩ := hmem k hkmem
        have hkc : ¬k = cur := fun h => hcnr (h ▸ hk)
        rw [setNode_nd, if_neg hkc]
        exact ⟨k1, k2, k3, k4⟩
      have hjs : ∀ m ∈ neighbourIdxs ((setNode st.A cur
          { st.A.nd cur with closed := true }).nd cur), isNeighbour A0 cur m = true := by
        intro m hm
        rw [hA1cur] at hm
        have hdis := mem_neighbourIdxs _ m hm
        exact isNeighbour_of_entry A0 cur m (entry_of_core A0 st.A cur m hcore hdis)
      obtain ⟨g1, g2, g3, g4, g5⟩ := relaxFold_inv A0 si endIdx cur hWF hcurreach
        (neighbourIdxs ((setNode st.A cur { st.A.nd cur with closed := true }).nd cur))
        { A := setNode st.A cur { st.A.nd cur with closed := true }, openList := rest,
          dirty := st.dirty } hjs hndr hrest
      have hA1core : ∀ i, sameCore ((setNode st.A cur
          { st.A.nd cur with closed := true }).nd i) (st.A.nd i) := by
        intro i
        rw [setNode_nd]
        by_cases hic : i = cur
        · rw [if_pos hic, hic]
          exact ⟨rfl, rfl, rfl, rfl, rfl, rfl, rfl, rfl, rfl, rfl⟩
        · rw [if_neg hic]
          exact sameCore_refl _
      have hcnt2 : unclosedCount ((neighbourIdxs ((setNode st.A cur
          { st.A.nd cur with closed := true }).nd cur)).foldl (relaxNeighbour endIdx cur)
          { A := setNode st.A cur { st.A.nd cur with closed := true }, openList := rest,
            dirty := st.dirty }).A < fuel := by
        have hc1 : unclosedCount ((neighbourIdxs ((setNode st.A cur
            { st.A.nd cur with closed := true }).nd cur)).foldl (relaxNeighbour endIdx cur)
            { A := setNode st.A cur { st.A.nd cur with closed := true }, openList := rest,
              dirty := st.dirty }).A =
            unclosedCount (setNode st.A cur { st.A.nd cur with closed := true }) :=
          unclosedCount_congr _ _ g3 (fun i _ => g1 i)
        have hc2 : unclosedCount (setNode st.A cur { st.A.nd cur with closed := true }) <
            unclosedCount st.A :=
          unclosedCount_close st.A cur (by omega) hcurcl
        omega
      unfold aStarLoop
      rw [hpop]
      dsimp only
      rw [if_neg hcurne]
      exact ih _ hcnt2
        (fun i => sameCore_trans (g2 i) (sameCore_trans (hA1core i) (hcore i)))
        (g3.trans hsz) g4 g5

/-- The dirty-node reset leaves every node with clean scratch fields
when all undirty nodes were already clean. -/
theorem resetFold_clean (ds : List Nat) :
    ∀ (A : Arena) (i : Nat), (scratchClean (A.nd i) ∨ i ∈ ds) →
      scratchClean ((ds.foldl (fun B j => setNode B j (resetScratch (B.nd j))) A).nd i) := by
  induction ds with
  | nil =>
    intro A i h
    rcases h with h | h
    · exact h
    · cases h
  | cons j rest ih =>
    intro A i h
    rw [List.foldl_cons]
    rcases h with h | h
    · refine ih _ i (Or.inl ?_)
      rw [setNode_nd]
      by_cases hij : i = j
      · rw [if_pos hij]
        exact ⟨rfl, rfl, rfl, rfl, rfl, rfl⟩
      · rw [if_neg hij]
        exact h
    · rcases List.mem_cons.mp h with rfl | hmem
      · refine ih _ i (Or.inl ?_)
        rw [setNode_nd, if_pos rfl]
        exact ⟨rfl, rfl, rfl, rfl, rfl, rfl⟩
      · exact ih _ i (Or.inr hmem)

/-- The dirty-node reset keeps the allocation count. -/
theorem resetFold_sz (ds : List Nat) :
    ∀ (A : Arena), (ds.foldl (fun B j => setNode B j (resetScratch (B.nd j))) A).sz = A.sz := by
  induction ds with
  | nil => intro A; rfl
  | cons j rest ih =>
    intro A
    rw [List.foldl_cons, ih, setNode_sz]

/-- Two pointwise-equal predicates find the same element. -/
theorem find?_congr2 {α : Type} (l : List α) (p q : α → Bool) (h : ∀ x ∈ l, p x = q x) :
    l.find? p = l.find? q := by
  induction l with
  | nil => rfl
  | cons x t ih =>
    simp only [List.find?]
    rw [h x (List.mem_cons_self _ _)]
    cases q x
    · exact ih (fun y hy => h y (List.mem_cons_of_mem _ hy))
    · rfl

/-- C5: a `findRoute` call whose endpoints resolve to mapped connectors,
but whose goal is unreachable from the start in the generated graph,
returns the normal `noRoute` result value (no exception path is taken),
and the shared graph comes back with every node core and the allocation
count intact, so subsequent calls can reuse it. -/
theorem c5_theorem (fuel : Nat) (s : RouterState) (startP endP : Pt) (si ei : Nat)
    (hclean : ∀ i, scratchClean (s.nodes.nd i) ∨ i ∈ s.dirty)
    (hWF : ∀ i j, isNeighbour s.nodes i j = true → j < s.nodes.sz)
    (hsi : resolve s startP = some si)
    (hei : resolve s endP = some ei)
    (hsimap : (s.nodes.nd si).hasMap = true)
    (heimap : (s.nodes.nd ei).hasMap = true)
    (hsilt : si < s.nodes.sz)
    (hur : ¬ ReachableFrom s.nodes si ei)
    (hfuel : s.nodes.sz < fuel) :
    (findRoute fuel s startP endP).1 = RouteRes.noRoute ∧
    (∀ i, sameCore ((findRoute fuel s startP endP).2.nodes.nd i) (s.nodes.nd i)) ∧
    (findRoute fuel s startP endP).2.nodes.sz = s.nodes.sz := by
  rcases fuel with _ | fuel
  · exact absurd hfuel (by omega)
  unfold findRoute
  dsimp only
  set A1 := s.dirty.foldl (fun A i => setNode A i (resetScratch (A.nd i))) s.nodes with hA1def
  have hcore1 : ∀ i, sameCore (A1.nd i) (s.nodes.nd i) := fun i =>
    resetFold_sameCore s.dirty s.nodes i
  have hsz1 : A1.sz = s.nodes.sz := resetFold_sz s.dirty s.nodes
  have hpt : ∀ (p : Pt) (i : Nat),
      arePointsEqual (A1.nd i).pt p = arePointsEqual ((s.nodes.nd i)).pt p := by
    intro p i
    obtain ⟨hx, hy, -⟩ := hcore1 i
    unfold Node.pt
    rw [hx, hy]
  have hfindS : s.connectorPoints.find? (fun i => arePointsEqual (A1.nd i).pt startP) =
      some si := by
    rw [find?_congr2 s.connectorPoints _
      (fun i => arePointsEqual ((s.nodes.nd i)).pt startP) (fun x _ => hpt startP x)]
    exact hsi
  have hfindE : s.connectorPoints.find? (fun i => arePointsEqual (A1.nd i).pt endP) =
      some ei := by
    rw [find?_congr2 s.connectorPoints _
      (fun i => arePointsEqual ((s.nodes.nd i)).pt endP) (fun x _ => hpt endP x)]
    exact hei
  rw [hfindS, hfindE]
  dsimp only
  have hmapS : (A1.nd si).hasMap = true := ((hcore1 si).2.2.2.2.2.2.1).trans hsimap
  have hmapE : (A1.nd ei).hasMap = true := ((hcore1 ei).2.2.2.2.2.2.1).trans heimap
  rw [if_neg (by simp [hmapS, hmapE])]
  dsimp only
  set A2 := setNode A1 si
    { A1.nd si with g := 0, hScore := manhattanHeuristic (A1.nd si) (A1.nd ei) } with hA2def
  have hclean1 : scratchClean (A1.nd si) := resetFold_clean s.dirty s.nodes si (hclean si)
  have hA2si : A2.nd si =
      { A1.nd si with g := 0, hScore := manhattanHeuristic (A1.nd si) (A1.nd ei) } := by
    rw [hA2def, setNode_nd, if_pos rfl]
  have hA2cl : (A2.nd si).closed = false := by rw [hA2si]; exact hclean1.2.2.2.2.2
  have hcore2 : ∀ i, sameCore (A2.nd i) (s.nodes.nd i) := by
    intro i
    rw [hA2def, setNode_nd]
    by_cases hic : i = si
    · rw [if_pos hic, hic]
      exact sameCore_trans ⟨rfl, rfl, rfl, rfl, rfl, rfl, rfl, rfl, rfl, rfl⟩ (hcore1 si)
    · rw [if_neg hic]
      exact hcore1 i
  have hsz2 : A2.sz = s.nodes.sz := by rw [hA2def, setNode_sz]; exact hsz1
  have hpop0 : popMinIdx A2 [si] = some (si, []) := rfl
  have hne : ¬si = ei := fun h => hur (h ▸ Relation.ReflTransGen.refl)
  unfold aStarLoop
  dsimp only
  rw [hpop0]
  dsimp only
  rw [if_neg hne]
  set A3 := setNode A2 si { A2.nd si with closed := true } with hA3def
  have hcore3 : ∀ i, sameCore (A3.nd i) (s.nodes.nd i) := by
    intro i
    rw [hA3def, setNode_nd]
    by_cases hic : i = si
    · rw [if_pos hic, hic]
      exact sameCore_trans ⟨rfl, rfl, rfl, rfl, rfl, rfl, rfl, rfl, rfl, rfl⟩ (hcore2 si)
    · rw [if_neg hic]
      exact hcore2 i
  have hsz3 : A3.sz = s.nodes.sz := by rw [hA3def, setNode_sz]; exact hsz2
  have hjs : ∀ m ∈ neighbourIdxs (A3.nd si), isNeighbour s.nodes si m = true := by
    intro m hm
    exact isNeighbour_of_entry s.nodes si m
      (entry_of_core s.nodes A3 si m hcore3 (mem_neighbourIdxs _ m hm))
  obtain ⟨g1, g2, g3, g4, g5⟩ := relaxFold_inv s.nodes si ei si hWF Relation.ReflTransGen.refl
    (neighbourIdxs (A3.nd si)) { A := A3, openList := [], dirty := [si] } hjs
    List.nodup_nil (fun k hk => absurd hk (List.not_mem_nil k))
  have hcnt : unclosedCount ((neighbourIdxs (A3.nd si)).foldl (relaxNeighbour ei si)
      { A := A3, openList := [], dirty := [si] }).A < fuel := by
    have hc1 : unclosedCount ((neighbourIdxs (A3.nd si)).foldl (relaxNeighbour ei si)
        { A := A3, openList := [], dirty := [si] }).A = unclosedCount A3 :=
      unclosedCount_congr A3 _ g3 (fun i _ => g1 i)
    have hc2 : unclosedCount A3 < unclosedCount A2 := by
      rw [hA3def]
      exact unclosedCount_close A2 si (by omega) hA2cl
    have hc3 := unclosedCount_le A2
    omega
  obtain ⟨r1, r2, r3⟩ := aStarLoop_unreach s.nodes si ei hWF hur fuel
    ((neighbourIdxs (A3.nd si)).foldl (relaxNeighbour ei si)
      { A := A3, openList := [], dirty := [si] })
    hcnt (fun i => sameCore_trans (g2 i) (hcore3 i)) (g3.trans hsz3) g4 g5
  exact ⟨r1, r2, r3⟩

/-- Witness for C5 on the two isolated mapped connectors. -/
theorem c5_theorem_witness :
    (findRoute 10 w5router ⟨0, 0⟩ ⟨5, 0⟩).1 = RouteRes.noRoute ∧
    sameCore ((findRoute 10 w5router ⟨0, 0⟩ ⟨5, 0⟩).2.nodes.nd 0) (w5router.nodes.nd 0) ∧
    (findRoute 10 w5router ⟨0, 0⟩ ⟨5, 0⟩).2.nodes.sz = w5router.nodes.sz := by
  have hclean : ∀ i, scratchClean (w5router.nodes.nd i) ∨ i ∈ w5router.dirty := by
    intro i
    refine Or.inl ?_
    show scratchClean (w5arena.nd i)
    unfold w5arena scratchClean
    dsimp only
    split_ifs <;> exact ⟨rfl, rfl, rfl, rfl, rfl, rfl⟩
  have hWF : ∀ i j, isNeighbour w5router.nodes i j = true → j < w5router.nodes.sz := by
    intro i j h
    exfalso
    have h2 : isNeighbour w5arena i j = true := h
    unfold isNeighbour w5arena at h2
    dsimp only at h2
    split_ifs at h2 <;> simp at h2
  have h := c5_theorem 10 w5router ⟨0, 0⟩ ⟨5, 0⟩ 0 1 hclean hWF (by decide) (by decide)
    (by decide) (by decide) (by decide)
    (by
      intro h
      rcases Relation.ReflTransGen.cases_head h with h | ⟨c, hc, -⟩
      · exact absurd h (by decide)
      · have hc2 : isNeighbour w5arena 0 c = true := hc
        unfold isNeighbour w5arena at hc2
        simp at hc2)
    (by decide)
  exact ⟨h.1, h.2.1 0, h.2.2⟩
/-- One relaxation preserves the parent bookkeeping: `closed` and
`isConnector` are untouched pointwise, every parent link keeps pointing
at a closed node (the just-closed `cur` for the fresh link), and any
node holding a parent link passed the connector guard. -/
theorem relaxNeighbour_K (ei cur : Nat) (st : LoopState) (j : Nat)
    (hcc : (st.A.nd cur).closed = true)
    (hK1 : ∀ a b, (st.A.nd a).parent = some b → (st.A.nd b).closed = true)
    (hK2 : ∀ a, (st.A.nd a).parent ≠ none → (st.A.nd a).isConnector = false ∨ a = ei) :
    (∀ i, ((relaxNeighbour ei cur st j).A.nd i).closed = (st.A.nd i).closed) ∧
    (∀ i, ((relaxNeighbour ei cur st j).A.nd i).isConnector = (st.A.nd i).isConnector) ∧
    (∀ a b, ((relaxNeighbour ei cur st j).A.nd a).parent = some b →
      ((relaxNeighbour ei cur st j).A.nd b).closed = true) ∧
    (∀ a, ((relaxNeighbour ei cur st j).A.nd a).parent ≠ none →
      ((relaxNeighbour ei cur st j).A.nd a).isConnector = false ∨ a = ei) := by
  unfold relaxNeighbour
  dsimp only
  split
  · exact ⟨fun i => rfl, fun i => rfl, hK1, hK2⟩
  · rename_i hguard
    have hjei : (st.A.nd j).isConnector = true → j = ei := by
      intro hc
      by_contra hne
      exact hguard (Or.inr ⟨hc, hne⟩)
    by_cases hupd : (st.A.nd j).visited = false ∨
        (st.A.nd cur).g + edgeWeight st.A (st.A.nd cur) (st.A.nd j) < (st.A.nd j).g
    · rw [if_pos hupd]
      refine ⟨?_, ?_, ?_, ?_⟩
      · intro i
        rw [setNode_nd]
        by_cases hij : i = j
        · rw [if_pos hij, hij]
        · rw [if_neg hij]
      · intro i
        rw [setNode_nd]
        by_cases hij : i = j
        · rw [if_pos hij, hij]
        · rw [if_neg hij]
      · intro a b hab
        rw [setNode_nd]
        by_cases haj : a = j
        · rw [setNode_nd, if_pos haj] at hab
          have hab2 : some cur = some b := hab
          obtain rfl := Option.some.inj hab2
          by_cases hbj : cur = j
          · rw [if_pos hbj]
            show (st.A.nd j).closed = true
            rw [← hbj]
            exact hcc
          · rw [if_neg hbj]
            exact hcc
        · rw [setNode_nd, if_neg haj] at hab
          by_cases hbj : b = j
          · rw [if_pos hbj]
            show (st.A.nd j).closed = true
            rw [← hbj]
            exact hK1 a b hab
          · rw [if_neg hbj]
            exact hK1 a b hab
      · intro a ha
        rw [setNode_nd]
        by_cases haj : a = j
        · rw [if_pos haj]
          rcases hcon : (st.A.nd j).isConnector with _ | _
          · exact Or.inl rfl
          · exact Or.inr (haj.trans (hjei hcon))
        · rw [if_neg haj]
          refine hK2 a ?_
          rw [setNode_nd, if_neg haj] at ha
          exact ha
    · rw [if_neg hupd]
      exact ⟨fun i => rfl, fun i => rfl, hK1, hK2⟩

/-- Folding relaxations over the neighbour list preserves the parent
bookkeeping. -/
theorem relaxFold_K (ei cur : Nat) (js : List Nat) :
    ∀ (st : LoopState),
      (st.A.nd cur).closed = true →
      (∀ a b, (st.A.nd a).parent = some b → (st.A.nd b).closed = true) →
      (∀ a, (st.A.nd a).parent ≠ none → (st.A.nd a).isConnector = false ∨ a = ei) →
      (∀ i, ((js.foldl (relaxNeighbour ei cur) st).A.nd i).closed = (st.A.nd i).closed) ∧
      (∀ i, ((js.foldl (relaxNeighbour ei cur) st).A.nd i).isConnector =
        (st.A.nd i).isConnector) ∧
      (∀ a b, ((js.foldl (relaxNeighbour ei cur) st).A.nd a).parent = some b →
        ((js.foldl (relaxNeighbour ei cur) st).A.nd b).closed = true) ∧
      (∀ a, ((js.foldl (relaxNeighbour ei cur) st).A.nd a).parent ≠ none →
        ((js.foldl (relaxNeighbour ei cur) st).A.nd a).isConnector = false ∨ a = ei) := by
  induction js with
  | nil => intro st _ hK1 hK2; exact ⟨fun i => rfl, fun i => rfl, hK1, hK2⟩
  | cons j rest ih =>
    intro st hcc hK1 hK2
    rw [List.foldl_cons]
    obtain ⟨e1, e2, e3, e4⟩ := relaxNeighbour_K ei cur st j hcc hK1 hK2
    obtain ⟨f1, f2, f3, f4⟩ := ih (relaxNeighbour ei cur st j) ((e1 cur).trans hcc) e3 e4
    exact ⟨fun i => (f1 i).trans (e1 i), fun i => (f2 i).trans (e2 i), f3, f4⟩

/-- A successful backtrack produces a list whose consecutive entries are
parent-linked. -/
theorem recon_chain (A : Arena) : ∀ (fuel i : Nat) (acc ps : List Nat),
    (∀ t, t + 1 < (i :: acc).length →
      (A.nd ((i :: acc).getD (t + 1) 0)).parent = some ((i :: acc).getD t 0)) →
    reconstructAStarPath fuel A i acc = some ps →
    ∀ t, t + 1 < ps.length → (A.nd (ps.getD (t + 1) 0)).parent = some (ps.getD t 0) := by
  intro fuel
  induction fuel with
  | zero => intro i acc ps _ h; exact absurd h (by simp [reconstructAStarPath])
  | succ fuel ih =>
    intro i acc ps hacc h
    unfold reconstructAStarPath at h
    rcases hpar : (A.nd i).parent with _ | k
    · rw [hpar] at h
      dsimp only at h
      obtain rfl := Option.some.inj h
      exact hacc
    · rw [hpar] at h
      dsimp only at h
      refine ih k (i :: acc) ps ?_ h
      intro t ht
      rcases t with _ | u
      · exact hpar
      · have hb : u + 1 < (i :: acc).length := by
          simp only [List.length_cons] at ht ⊢
          omega
        exact hacc u hb

/-- The parent bookkeeping forces every interior entry of a parent-linked
list ending rule to be a non-connector: an interior entry both carries a
parent link (so it passed the connector guard or is the goal) and is the
parent of its successor (so it is closed, which the goal never is). -/
theorem interior_nonconnector (B : Arena) (ei : Nat) (ps : List Nat)
    (hK1 : ∀ a b, (B.nd a).parent = some b → (B.nd b).closed = true)
    (hK2 : ∀ a, (B.nd a).parent ≠ none → (B.nd a).isConnector = false ∨ a = ei)
    (hK3 : (B.nd ei).closed = false)
    (hchain : ∀ t, t + 1 < ps.length →
      (B.nd (ps.getD (t + 1) 0)).parent = some (ps.getD t 0))
    (t : Nat) (h0 : 0 < t) (h1 : t + 1 < ps.length) :
    (B.nd (ps.getD t 0)).isConnector = false := by
  obtain ⟨u, rfl⟩ : ∃ u, t = u + 1 := ⟨t - 1, by omega⟩
  have hp : (B.nd (ps.getD (u + 1) 0)).parent = some (ps.getD u 0) := hchain u (by omega)
  have hcl : (B.nd (ps.getD (u + 1) 0)).closed = true :=
    hK1 (ps.getD (u + 1 + 1) 0) (ps.getD (u + 1) 0) (hchain (u + 1) h1)
  rcases hK2 (ps.getD (u + 1) 0) (by rw [hp]; exact fun hh => Option.noConfusion hh) with h | h
  · exact h
  · rw [h] at hcl
    rw [hK3] at hcl
    exact absurd hcl Bool.false_ne_true

/-- Whenever the loop answers with a path, some arena existed at the
moment of reconstruction that produced it, still satisfied the parent
bookkeeping, and kept every connector flag of the entry state. -/
theorem aStarLoop_path_inv (ei : Nat) :
    ∀ (fuel : Nat) (st : LoopState) (ps : List Nat),
      (∀ a b, (st.A.nd a).parent = some b → (st.A.nd b).closed = true) →
      (∀ a, (st.A.nd a).parent ≠ none → (st.A.nd a).isConnector = false ∨ a = ei) →
      (st.A.nd ei).closed = false →
      (aStarLoop fuel ei st).1 = RouteRes.path ps →
      ∃ B : Arena, reconstructAStarPath (B.sz + 1) B ei [] = some ps ∧
        (∀ a b, (B.nd a).parent = some b → (B.nd b).closed = true) ∧
        (∀ a, (B.nd a).parent ≠ none → (B.nd a).isConnector = false ∨ a = ei) ∧
        (B.nd ei).closed = false ∧
        (∀ i, (B.nd i).isConnector = (st.A.nd i).isConnector) := by
  intro fuel
  induction fuel with
  | zero =>
    intro st ps _ _ _ h
    exact absurd h (by simp [aStarLoop])
  | succ fuel ih =>
    intro st ps hK1 hK2 hK3 hpath
    unfold aStarLoop at hpath
    rcases hpop : popMinIdx st.A st.openList with _ | ⟨cur, rest⟩
    · rw [hpop] at hpath
      simp at hpath
    · rw [hpop] at hpath
      dsimp only at hpath
      by_cases hceq : cur = ei
      · rw [if_pos hceq] at hpath
        rcases hrec : reconstructAStarPath (st.A.sz + 1) st.A cur [] with _ | qs
        · rw [hrec] at hpath
          simp at hpath
        · rw [hrec] at hpath
          dsimp only at hpath
          have h2 : RouteRes.path qs = RouteRes.path ps := hpath
          have hqs : qs = ps := by injection h2
          subst hqs
          subst hceq
          exact ⟨st.A, hrec, hK1, hK2, hK3, fun i => rfl⟩
      · rw [if_neg hceq] at hpath
        set A3 := setNode st.A cur { st.A.nd cur with closed := true } with hA3
        have hfacts : ∀ i, (A3.nd i).parent = (st.A.nd i).parent ∧
            (A3.nd i).isConnector = (st.A.nd i).isConnector ∧
            ((st.A.nd i).closed = true → (A3.nd i).closed = true) := by
          intro i
          rw [hA3, setNode_nd]
          by_cases h : i = cur
          · rw [if_pos h, h]
            exact ⟨rfl, rfl, fun _ => rfl⟩
          · rw [if_neg h]
            exact ⟨rfl, rfl, fun hc => hc⟩
        have hcc3 : (A3.nd cur).closed = true := by
          rw [hA3, setNode_nd, if_pos rfl]
        have hK1c : ∀ a b, (A3.nd a).parent = some b → (A3.nd b).closed = true := by
          intro a b h
          rw [(hfacts a).1] at h
          exact (hfacts b).2.2 (hK1 a b h)
        have hK2c : ∀ a, (A3.nd a).parent ≠ none → (A3.nd a).isConnector = false ∨ a = ei := by
          intro a h
          rw [(hfacts a).1] at h
          rw [(hfacts a).2.1]
          exact hK2 a h
        have hK3c : (A3.nd ei).closed = false := by
          rw [hA3, setNode_nd, if_neg (fun h : ei = cur => hceq h.symm)]
          exact hK3
        obtain ⟨p1, p2, p3, p4⟩ := relaxFold_K ei cur (neighbourIdxs (A3.nd cur))
          { A := A3, openList := rest, dirty := st.dirty } hcc3 hK1c hK2c
        obtain ⟨B, hrec, bK1, bK2, bK3, bConn⟩ := ih ((neighbourIdxs (A3.nd cur)).foldl
          (relaxNeighbour ei cur) { A := A3, openList := rest, dirty := st.dirty }) ps
          p3 p4 ((p1 ei).trans hK3c) hpath
        refine ⟨B, hrec, bK1, bK2, bK3, ?_⟩
        intro i
        exact ((bConn i).trans (p2 i)).trans (hfacts i).2.1

/-- C9: when `findRoute` succeeds with a path, every entry of the
returned node list other than the first and the last carries
`isConnector = false` in the shared graph: the search only ever expands
into a connector when that connector is the resolved goal itself. -/
theorem c9_theorem (fuel : Nat) (s : RouterState) (startP endP : Pt) (ps : List Nat)
    (hclean : ∀ i, scratchClean (s.nodes.nd i) ∨ i ∈ s.dirty)
    (hpath : (findRoute fuel s startP endP).1 = RouteRes.path ps)
    (t : Nat) (h0 : 0 < t) (h1 : t + 1 < ps.length) :
    (s.nodes.nd (ps.getD t 0)).isConnector = false := by
  unfold findRoute at hpath
  dsimp only at hpath
  set A1 := s.dirty.foldl (fun A i => setNode A i (resetScratch (A.nd i))) s.nodes with hA1
  have hcl1 : ∀ i, scratchClean (A1.nd i) := fun i => resetFold_clean s.dirty s.nodes i (hclean i)
  have hic1 : ∀ i, (A1.nd i).isConnector = (s.nodes.nd i).isConnector := fun i =>
    (resetFold_sameCore s.dirty s.nodes i).2.2.2.2.2.2.2.1
  rcases hS : s.connectorPoints.find? (fun i => arePointsEqual (A1.nd i).pt startP) with _ | si
  · rw [hS] at hpath
    rcases hE : s.connectorPoints.find? (fun i => arePointsEqual (A1.nd i).pt endP) with _ | ei <;>
      rw [hE] at hpath <;> simp at hpath
  · rw [hS] at hpath
    rcases hE : s.connectorPoints.find? (fun i => arePointsEqual (A1.nd i).pt endP) with _ | ei
    · rw [hE] at hpath
      simp at hpath
    · rw [hE] at hpath
      dsimp only at hpath
      by_cases hmap : (A1.nd ei).hasMap = false ∨ (A1.nd si).hasMap = false
      · rw [if_pos hmap] at hpath
        simp at hpath
      · rw [if_neg hmap] at hpath
        set A2 := setNode A1 si
          { A1.nd si with g := 0, hScore := manhattanHeuristic (A1.nd si) (A1.nd ei) } with hA2
        have hpar2 : ∀ i, (A2.nd i).parent = none := by
          intro i
          rw [hA2, setNode_nd]
          split_ifs with h
          · exact (hcl1 si).2.2.2.1
          · exact (hcl1 i).2.2.2.1
        have hK1i : ∀ a b, (A2.nd a).parent = some b → (A2.nd b).closed = true := by
          intro a b h
          rw [hpar2 a] at h
          exact absurd h (by simp)
        have hK2i : ∀ a, (A2.nd a).parent ≠ none → (A2.nd a).isConnector = false ∨ a = ei := by
          intro a h
          exact absurd (hpar2 a) h
        have hK3i : (A2.nd ei).closed = false := by
          rw [hA2, setNode_nd]
          split_ifs with h
          · exact (hcl1 si).2.2.2.2.2
          · exact (hcl1 ei).2.2.2.2.2
        obtain ⟨B, hrec, bK1, bK2, bK3, bConn⟩ := aStarLoop_path_inv ei fuel
          { A := A2, openList := [si], dirty := [si] } ps hK1i hK2i hK3i hpath
        have hchain := recon_chain B (B.sz + 1) ei [] ps
          (fun u hu => by
            simp only [List.length_cons, List.length_nil] at hu
            exact absurd hu (by omega)) hrec
        have hint := interior_nonconnector B ei ps bK1 bK2 bK3 hchain t h0 h1
        rw [← hic1 (ps.getD t 0)]
        have h2 : (A2.nd (ps.getD t 0)).isConnector = (A1.nd (ps.getD t 0)).isConnector := by
          rw [hA2, setNode_nd]
          split_ifs with h
          · rw [h]
          · rfl
        rw [← h2]
        have hb : (B.nd (ps.getD t 0)).isConnector = (A2.nd (ps.getD t 0)).isConnector :=
          bConn (ps.getD t 0)
        rw [← hb]
        exact hint

/-- Witness for C9 on the three-node corridor: the found path `[0, 1, 2]`
has the plain routing node `1` in its interior. -/
theorem c9_theorem_witness :
    (w9router.nodes.nd ([0, 1, 2].getD 1 0)).isConnector = false := by
  have hclean : ∀ i, scratchClean (w9router.nodes.nd i) ∨ i ∈ w9router.dirty := by
    intro i
    refine Or.inl ?_
    show scratchClean (w9arena.nd i)
    unfold w9arena scratchClean
    dsimp only
    split_ifs <;> exact ⟨rfl, rfl, rfl, rfl, rfl, rfl⟩
  exact c9_theorem 10 w9router ⟨0, 0⟩ ⟨4, 0⟩ [0, 1, 2] hclean (by decide) 1 (by decide)
    (by decide)

set_option maxRecDepth 10000 in
/-- C1 counterexample. -/
theorem c1_counterexample :
    (generateOrthogonalGraph 300 c1router c1area).isSome = true ∧
    validPath c1graph.nodes [0, 8, 1] = true ∧
    (c1graph.nodes.nd 0).isConnector = true ∧
    (c1graph.nodes.nd 1).isConnector = true ∧
    routeCost c1graph.nodes [0, 8, 1] <
      manhattanHeuristic (c1graph.nodes.nd 0) (c1graph.nodes.nd 1) := by
  decide

set_option maxRecDepth 10000 in
/-- C2 counterexample core facts. -/
theorem c2_counterexample :
    (generateOrthogonalGraph 600 c2router c2area).isSome = true ∧
    (c2graph.nodes.nd 0).nbr .east = some 7 ∧
    ¬ ((c2graph.nodes.nd 7).nbr .west = some 0) ∧
    ¬ SymmetricAdj c2graph.nodes := by
  refine ⟨by decide, by decide, by decide, fun hs => ?_⟩
  have h2 := hs 0 .east 7 (by decide)
  exact absurd h2 (by decide)

set_option maxRecDepth 10000 in
/-- C6 counterexample. -/
theorem c6_counterexample :
    (generateOrthogonalGraph 300 c6router c2area).isSome = true ∧
    (c6graph.nodes.nd 0).horizontalOnly = true ∧
    (c6graph.nodes.nd 0).isConnector = true ∧
    (c6graph.nodes.nd 0).north ≠ none ∧
    (c6graph.nodes.nd 0).south ≠ none := by
  decide

set_option maxRecDepth 10000 in
/-- C7: rebuilding the graph from the state left by a first build is
not idempotent.  On the same obstacle and connector input, the first
build gives node 1 the west neighbour 17 located at `(5, 10)`, while
the second build gives it the west neighbour 20 located at `(0, 10)`:
the adjacency structure of the two builds differs. -/
theorem c7_theorem :
    (generateOrthogonalGraph 600 c2router c2area).isSome = true ∧
    (generateOrthogonalGraph 600 c2graph c2area).isSome = true ∧
    (c2graph.nodes.nd 1).west = some 17 ∧ (c7graph2.nodes.nd 1).west = some 20 ∧
    (c2graph.nodes.nd 17).pt = ⟨5, 10⟩ ∧ (c7graph2.nodes.nd 20).pt = ⟨0, 10⟩ := by
  decide

set_option maxRecDepth 10000 in
/-- C3 counterexample: the north ray of the in-obstacle connector. -/
theorem c3_counterexample :
    Seg.mk 0 5 ∈ c3find.vsegs ∧
    Quad.mk 1 2 3 4 ∈ c3router.obstacleCorners ∧
    (c3find.A.nd 1).pt = ⟨10, 10⟩ ∧ (c3find.A.nd 2).pt = ⟨30, 10⟩ ∧
    (c3find.A.nd 3).pt = ⟨10, 20⟩ ∧ (c3find.A.nd 4).pt = ⟨30, 20⟩ ∧
    ¬ segAvoids (c3find.A.nd 0).pt (c3find.A.nd 5).pt (c2obst.getD 0 default) := by
  refine ⟨by decide, by decide, by decide, by decide, by decide, by decide, fun h => ?_⟩
  exact h (1/5) (by norm_num) (by norm_num) (by decide)

/-- C8 counterexample. -/
theorem c8_counterexample :
    performPathShift [⟨0, 0⟩, ⟨10, 0⟩] ⟨3, 3⟩ = [⟨3, 0⟩, ⟨13, 0⟩] ∧
    (performPathShift [⟨0, 0⟩, ⟨10, 0⟩] ⟨3, 3⟩).getD 0 ⟨0, 0⟩ ≠ Pt.mk 0 0 := by
  decide
